import Mathlib

/-!
# Stella 3F cartridge, paged system bus and TIA sound queue

A shallow embedding of `src/emucore/System.hxx` (the paged bus),
`src/emucore/Cart3F.cxx` (the Tigervision 3F bankswitching cartridge) and
`src/common/SoundSDL.cxx` (the queue of TIA sound register writes).

Conventions of the embedding:

* C++ objects that point at each other (`System`, the cartridge, the TIA) are
  fields of one `World` value that every method takes and returns.
* A pointer into a byte array is a `Ptr`: the block it points into and an
  offset.  The null pointer is `none`.
* A result of `none` stands for undefined behaviour of the C++ code: an
  out-of-bounds array access, a division by zero or a failed `assert`.
* Machine integers are natural numbers; a reduction `% 2^w` is written
  wherever the C++ type can wrap or truncate.
* Devices whose code is outside this development (TIA, RIOT, null device) are
  observed through the list of calls the bus makes to them; so are the TIA
  sound synthesizer and the SDL audio layer.
* A `double` is an exact rational number; a floating-point operation without a
  numeric result (`0 / 0`) gives `none`.
-/

namespace Stella

/-! ## Data model -/

/-- Handles of the devices that can own a page of the address space. -/
inductive Device where
  | cart
  | tia
  | nullDevice
  | other (n : Nat)
  deriving DecidableEq, Repr

/-- Byte arrays a direct-access base pointer can point into: the ROM image of
the cartridge, or a memory block owned by another device. -/
inductive Block where
  | image
  | ram (id : Nat)
  deriving DecidableEq, Repr

/-- A non-null `uint8_t*`: a block and an offset into it. -/
structure Ptr where
  block : Block
  off : Nat
  deriving DecidableEq, Repr

/-- Pointer arithmetic `p + n`. -/
def Ptr.add (p : Ptr) (n : Nat) : Ptr :=
  { p with off := p.off + n }

/-- The structure `System::PageAccess`: how reads and writes of one page are
carried out. -/
structure PageAccess where
  directPeekBase : Option Ptr
  directPokeBase : Option Ptr
  device : Device
  deriving DecidableEq, Repr

/-- A call made by the bus or by the cartridge to a device other than the
cartridge. -/
inductive Call where
  | peek (d : Device) (addr : Nat)
  | poke (d : Device) (addr : Nat) (value : Nat)
  deriving DecidableEq, Repr

/-- The data members of `System` that the bus operations use. -/
structure System where
  myPageAccessTable : Nat → PageAccess
  myDataBusState : Nat
  myDataBusLocked : Bool

/-- The data members of `Cartridge3F`, with `bankLocked` inherited from
`Cartridge`. -/
structure Cartridge3F where
  bankLocked : Bool
  myCurrentBank : Nat
  myImage : List Nat
  mySize : Nat

/-- The machine: the system, the 3F cartridge attached to it, the memory blocks
of the other devices, and the calls made so far to the other devices (oldest
first). -/
structure World where
  sys : System
  cart : Cartridge3F
  ram : Nat → List Nat
  calls : List Call

/-- Answers of the devices whose code is outside this development: the byte a
device returns from `peek`, given the calls it has seen so far. -/
structure External where
  peek : Device → List Call → Nat → Nat

/-! ## System constants (`System.hxx`, private section) -/

/-- Log base 2 of the addressing space size. -/
def myAddressingSpace : Nat := 13

/-- Log base 2 of the page size. -/
def myPageSize : Nat := 6

/-- Mask to apply to an address before accessing memory. -/
def myAddressMask : Nat := (1 <<< myAddressingSpace) - 1

/-- Mask to apply to an address to obtain its page offset. -/
def myPageMask : Nat := (1 <<< myPageSize) - 1

/-- Number of pages in the system. -/
def myNumberOfPages : Nat := 1 <<< (myAddressingSpace - myPageSize)

/-- The method `System::numberOfPages`. -/
def System.numberOfPages : Nat := myNumberOfPages

/-- The method `System::pageShift`. -/
def System.pageShift : Nat := myPageSize

/-- The method `System::pageMask`. -/
def System.pageMask : Nat := myPageMask

/-- Modelled from the spec: `System::setPageAccess` is only declared in
`System.hxx`; it stores `access` as the entry of `page` in the page-access
table. -/
def System.setPageAccess (s : System) (page : Nat) (access : PageAccess) : System :=
  { s with myPageAccessTable := fun p => if p = page then access else s.myPageAccessTable p }

/-- The method `System::getPageAccess`. -/
def System.getPageAccess (s : System) (page : Nat) : PageAccess :=
  s.myPageAccessTable page

/-! ## Memory -/

/-- Read the byte a pointer points at; `none` when it is out of bounds. -/
def World.read (w : World) (p : Ptr) : Option Nat :=
  match p.block with
  | Block.image => w.cart.myImage[p.off]?
  | Block.ram id => (w.ram id)[p.off]?

/-- Store a byte where a pointer points; `none` when it is out of bounds. -/
def World.write (w : World) (p : Ptr) (value : Nat) : Option World :=
  match p.block with
  | Block.image =>
      if p.off < w.cart.myImage.length then
        some { w with cart := { w.cart with myImage := w.cart.myImage.set p.off value } }
      else none
  | Block.ram id =>
      if p.off < (w.ram id).length then
        some { w with ram := fun i => if i = id then (w.ram id).set p.off value else w.ram i }
      else none

/-- The C++ loop `for (i = start; i < stop; i += step) body(i)`, started at `i`
with `fuel` iterations allowed. -/
def forLoop {σ : Type} (stop step : Nat) (body : Nat → σ → σ) : Nat → Nat → σ → σ
  | 0, _, s => s
  | fuel + 1, i, s =>
      if i < stop then forLoop stop step body fuel (i + step) (body i s) else s

/-- Reduction of a value to `uint32_t`. -/
def u32 (n : Nat) : Nat := n % 4294967296

/-- Reduction of a value to `uint16_t`. -/
def u16 (n : Nat) : Nat := n % 65536

/-! ## Cartridge3F (`Cart3F.cxx`) -/

namespace Cartridge3F

/-- The method `Cartridge::lockBank`. -/
def lockBank (w : World) : World :=
  { w with cart := { w.cart with bankLocked := true } }

/-- The method `Cartridge::unlockBank`. -/
def unlockBank (w : World) : World :=
  { w with cart := { w.cart with bankLocked := false } }

/-- The constructor `Cartridge3F::Cartridge3F(image, size)`: copies `size`
bytes of `image`; `none` when `image` holds fewer than `size` bytes.  The
current bank is not initialised by the constructor and is passed in. -/
def construct (image : List Nat) (size : Nat) (locked : Bool) (bank0 : Nat) :
    Option Cartridge3F :=
  if size ≤ image.length then
    some { bankLocked := locked, myCurrentBank := bank0, myImage := image.take size, mySize := size }
  else none

/-- The method `Cartridge3F::name`. -/
def name : String := "Cartridge3F"

/-- The page-access entry `bank` stores for the page holding `address`. -/
def bankAccess (offset address : Nat) : PageAccess :=
  { directPeekBase := some ⟨Block.image, offset + (address &&& 0x07FF)⟩
    directPokeBase := none
    device := Device.cart }

/-- The method `Cartridge3F::bank(uint16_t bank)`. -/
def bank (w : World) (bank : Nat) : Option World :=
  if w.cart.bankLocked then some w
  else
    let bank := u16 bank
    -- Make sure the bank they're asking for is reasonable
    let newBank : Option Nat :=
      if u32 (u32 bank * 2048) < w.cart.mySize then some bank
      else if w.cart.mySize / 2048 = 0 then none
      else some (bank % (w.cart.mySize / 2048))
    newBank.map fun nb =>
      let offset := nb * 2048
      let shift := System.pageShift
      -- Map ROM image into the system
      { w with
        cart := { w.cart with myCurrentBank := nb }
        sys := forLoop 0x1800 (1 <<< shift)
          (fun address s => s.setPageAccess (address >>> shift) (bankAccess offset address))
          (0x1800 - 0x1000) 0x1000 w.sys }

/-- The method `int Cartridge3F::bank()`. -/
def bankQuery (c : Cartridge3F) : Nat := c.myCurrentBank

/-- The method `Cartridge3F::bankCount`. -/
def bankCount (c : Cartridge3F) : Nat := c.mySize / 2048

/-- The method `Cartridge3F::reset`. -/
def reset (w : World) : Option World :=
  -- We'll map bank 0 into the first segment upon reset
  bank w 0

/-- The page-access entry `install` stores for the hot-spot pages. -/
def hotspotAccess : PageAccess :=
  { directPeekBase := none, directPokeBase := none, device := Device.cart }

/-- The page-access entry `install` stores for the page holding `j` in the
second segment. -/
def fixedAccess (size j : Nat) : PageAccess :=
  { directPeekBase := some ⟨Block.image, u32 (u32 (size + 4294967296 - 2048) + (j &&& 0x07FF))⟩
    directPokeBase := none
    device := Device.cart }

/-- The method `Cartridge3F::install`. -/
def install (w : World) : Option World :=
  let shift := System.pageShift
  let mask := System.pageMask
  -- Make sure the system we're being installed in has a page size that'll work
  if (0x1800 &&& mask) ≠ 0 then none
  else
    let s1 := forLoop 0x40 (1 <<< shift)
      (fun i s => s.setPageAccess (i >>> shift) hotspotAccess) (0x40 - 0x00) 0x00 w.sys
    -- Setup the second segment to always point to the last ROM slice
    let s2 := forLoop 0x2000 (1 <<< shift)
      (fun j s => s.setPageAccess (j >>> shift) (fixedAccess w.cart.mySize j))
      (0x2000 - 0x1800) 0x1800 s1
    -- Install pages for bank 0 into the first segment
    bank { w with sys := s2 } 0

/-- The image index `peek` and `patch` use for `address`. -/
def imageIndex (c : Cartridge3F) (address : Nat) : Nat :=
  let address := address &&& 0x0FFF
  if address < 0x0800 then
    (address &&& 0x07FF) + c.myCurrentBank * 2048
  else
    u32 ((address &&& 0x07FF) + c.mySize + 4294967296 - 2048)

/-- The method `Cartridge3F::peek`. -/
def peek (w : World) (address : Nat) : Option (Nat × World) :=
  (w.cart.myImage[imageIndex w.cart address]?).map fun b => (b, w)

/-- The method `Cartridge3F::poke`. -/
def poke (w : World) (address value : Nat) : Option World :=
  let address := address &&& 0x0FFF
  -- Switch banks if necessary
  let w1 : Option World := if address ≤ 0x003F then bank w value else some w
  w1.map fun w2 => { w2 with calls := w2.calls ++ [Call.poke Device.tia address value] }

/-- The method `Cartridge3F::patch`. -/
def patch (w : World) (address value : Nat) : Option (Bool × World) :=
  let i := imageIndex w.cart address
  if i < w.cart.myImage.length then
    some (true, { w with cart := { w.cart with myImage := w.cart.myImage.set i value } })
  else none

/-! ### Save states -/

/-- Modelled from the spec: `Serializer::putInt` is not part of the sources at
hand; an int is written as 32 bits, little-endian. -/
def putInt (out : List Nat) (value : Int) : List Nat :=
  let u := (value % 4294967296).toNat
  out ++ [u % 256, u / 256 % 256, u / 65536 % 256, u / 16777216 % 256]

/-- Modelled from the spec: `Serializer::putString` is not part of the sources
at hand; a string is written as its length followed by its bytes. -/
def putString (out : List Nat) (str : String) : List Nat :=
  putInt out str.length ++ str.toList.map (fun c => c.toNat)

/-- Modelled from the spec: `Deserializer::getInt` is not part of the sources
at hand; it reads a 32-bit little-endian signed int and fails (throws) at the
end of the stream. -/
def getInt (inp : List Nat) : Option (Int × List Nat) :=
  match inp with
  | b0 :: b1 :: b2 :: b3 :: rest =>
      let u := b0 % 256 + 256 * (b1 % 256) + 65536 * (b2 % 256) + 16777216 * (b3 % 256)
      some (if u < 2147483648 then (u : Int) else (u : Int) - 4294967296, rest)
  | _ => none

/-- Modelled from the spec: `Deserializer::getString` is not part of the
sources at hand; it reads a length and that many bytes, and fails (throws) when
the length is negative or the stream is too short. -/
def getString (inp : List Nat) : Option (List Nat × List Nat) :=
  match getInt inp with
  | none => none
  | some (len, rest) =>
      if 0 ≤ len ∧ len.toNat ≤ rest.length then
        some (rest.take len.toNat, rest.drop len.toNat)
      else none

/-- The bytes of the device name, as `getString` returns them. -/
def nameBytes : List Nat := name.toList.map (fun c => c.toNat)

/-- The method `Cartridge3F::save`: the result flag and the stream written. -/
def save (w : World) (out : List Nat) : Bool × List Nat :=
  let out1 := putString out name
  let out2 := putInt out1 w.cart.myCurrentBank
  (true, out2)

/-- The method `Cartridge3F::load`: the result flag, the machine and the rest
of the stream.  An exception thrown by the deserializer is caught and makes the
result `false`. -/
def load (w : World) (inp : List Nat) : Option (Bool × World × List Nat) :=
  match getString inp with
  | none => some (false, w, inp)
  | some (str, in1) =>
      if str ≠ nameBytes then some (false, w, in1)
      else
        match getInt in1 with
        | none => some (false, w, in1)
        | some (v, in2) =>
            let w1 := { w with cart := { w.cart with myCurrentBank := (v % 65536).toNat } }
            -- Now, go to the current bank
            (bank w1 w1.cart.myCurrentBank).map fun w2 => (true, w2, in2)

end Cartridge3F

/-! ## The bus (`System.hxx`) -/

/-- Dispatch of `access.device->peek(addr)`. -/
def devicePeek (E : External) (w : World) (d : Device) (addr : Nat) : Option (Nat × World) :=
  match d with
  | Device.cart => Cartridge3F.peek w addr
  | d => some (E.peek d w.calls addr % 256, { w with calls := w.calls ++ [Call.peek d addr] })

/-- Dispatch of `access.device->poke(addr, value)`. -/
def devicePoke (w : World) (d : Device) (addr value : Nat) : Option World :=
  match d with
  | Device.cart => Cartridge3F.poke w addr value
  | d => some { w with calls := w.calls ++ [Call.poke d addr value] }

/-- The method `System::peek`. -/
def System.peek (E : External) (w : World) (addr : Nat) : Option (Nat × World) :=
  let access := w.sys.myPageAccessTable ((addr &&& myAddressMask) >>> myPageSize)
  -- See if this page uses direct accessing or not
  let r : Option (Nat × World) :=
    match access.directPeekBase with
    | some base => (w.read (base.add (addr &&& myPageMask))).map fun b => (b, w)
    | none => devicePeek E w access.device addr
  r.map fun (result, w1) =>
    (result, { w1 with sys := { w1.sys with myDataBusState := result } })

/-- The method `System::poke`. -/
def System.poke (w : World) (addr value : Nat) : Option World :=
  let access := w.sys.myPageAccessTable ((addr &&& myAddressMask) >>> myPageSize)
  -- See if this page uses direct accessing or not
  let r : Option World :=
    match access.directPokeBase with
    | some base => w.write (base.add (addr &&& myPageMask)) value
    | none => devicePoke w access.device addr value
  r.map fun w1 => { w1 with sys := { w1.sys with myDataBusState := value } }

/-- The method `System::getDataBusState`. -/
def System.getDataBusState (s : System) : Nat := s.myDataBusState

/-- Modelled from the spec: `System::lockDataBus` is only declared in
`System.hxx`; it sets the flag that marks the data bus as locked. -/
def System.lockDataBus (s : System) : System :=
  { s with myDataBusLocked := true }

/-- Modelled from the spec: `System::unlockDataBus` is only declared in
`System.hxx`; it clears the flag that marks the data bus as locked. -/
def System.unlockDataBus (s : System) : System :=
  { s with myDataBusLocked := false }

/-- The address a logged call carries. -/
def Call.address : Call → Nat
  | Call.peek _ addr => addr
  | Call.poke _ addr _ => addr

/-! ## TIA sound register writes (`SoundSDL.cxx`) -/

/-- The struct `SoundSDL::RegWrite`, with the members `set` fills in: a
`uint16_t` address, a `uint8_t` value and a `double` delay in seconds. -/
structure RegWrite where
  addr : Nat
  value : Nat
  delta : ℚ
  deriving DecidableEq

/-- The content given to an entry of a freshly allocated `RegWrite` array,
which C++ leaves uninitialised. -/
def RegWrite.blank : RegWrite := ⟨0, 0, 0⟩

/-- The data members of `SoundSDL::RegWriteQueue`; capacity, size, head and
tail are `uint32_t`, as the constructor parameter and `size()` are. -/
structure RegWriteQueue where
  myCapacity : Nat
  myBuffer : List RegWrite
  mySize : Nat
  myHead : Nat
  myTail : Nat

namespace RegWriteQueue

/-- The constructor `RegWriteQueue::RegWriteQueue(capacity)`. -/
def create (capacity : Nat) : RegWriteQueue :=
  { myCapacity := capacity
    myBuffer := List.replicate capacity RegWrite.blank
    mySize := 0
    myHead := 0
    myTail := 0 }

/-- The method `RegWriteQueue::clear`. -/
def clear (q : RegWriteQueue) : RegWriteQueue :=
  { q with myHead := 0, myTail := 0, mySize := 0 }

/-- The method `RegWriteQueue::dequeue`. -/
def dequeue (q : RegWriteQueue) : Option RegWriteQueue :=
  if q.mySize > 0 then
    if q.myCapacity = 0 then none
    else some { q with myHead := u32 (q.myHead + 1) % q.myCapacity, mySize := q.mySize - 1 }
  else some q

/-- The loop of `RegWriteQueue::duration`, from index `i` on, with `fuel`
iterations allowed. -/
def durationLoop (q : RegWriteQueue) : Nat → Nat → ℚ → Option ℚ
  | 0, _, _ => none
  | fuel + 1, i, duration =>
      if i < q.mySize then
        if q.myCapacity = 0 then none
        else
          match q.myBuffer[u32 (q.myHead + i) % q.myCapacity]? with
          | none => none
          | some e => durationLoop q fuel (u32 (i + 1)) (duration + e.delta)
      else some duration

/-- The method `RegWriteQueue::duration`. -/
def duration (q : RegWriteQueue) : Option ℚ :=
  durationLoop q (q.mySize + 1) 0 0

/-- The copy loop of `RegWriteQueue::grow`, from index `i` on, with `fuel`
iterations allowed. -/
def growLoop (q : RegWriteQueue) : Nat → Nat → List RegWrite → Option (List RegWrite)
  | 0, _, _ => none
  | fuel + 1, i, buffer =>
      if i < q.mySize then
        if q.myCapacity = 0 then none
        else
          match q.myBuffer[u32 (q.myHead + i) % q.myCapacity]? with
          | none => none
          | some e =>
              if i < buffer.length then growLoop q fuel (u32 (i + 1)) (buffer.set i e)
              else none
      else some buffer

/-- The method `RegWriteQueue::grow`. -/
def grow (q : RegWriteQueue) : Option RegWriteQueue :=
  let buffer := List.replicate (u32 (q.myCapacity * 2)) RegWrite.blank
  (growLoop q (q.mySize + 1) 0 buffer).map fun b =>
    { myCapacity := u32 (q.myCapacity * 2)
      myBuffer := b
      mySize := q.mySize
      myHead := 0
      myTail := q.mySize }

/-- The method `RegWriteQueue::enqueue`. -/
def enqueue (q : RegWriteQueue) (info : RegWrite) : Option RegWriteQueue :=
  -- If an attempt is made to enqueue more than the queue can hold then
  -- we'll enlarge the queue's capacity.
  let q1 : Option RegWriteQueue := if q.mySize = q.myCapacity then grow q else some q
  q1.bind fun q2 =>
    if q2.myTail < q2.myBuffer.length then
      if q2.myCapacity = 0 then none
      else
        some { q2 with
          myBuffer := q2.myBuffer.set q2.myTail info
          myTail := u32 (q2.myTail + 1) % q2.myCapacity
          mySize := u32 (q2.mySize + 1) }
    else none

/-- The method `RegWriteQueue::front`; `none` when the assertion
`mySize != 0` fails. -/
def front (q : RegWriteQueue) : Option RegWrite :=
  if q.mySize ≠ 0 then q.myBuffer[q.myHead]? else none

/-- The method `RegWriteQueue::size`. -/
def size (q : RegWriteQueue) : Nat := q.mySize

end RegWriteQueue

/-- A call made to the TIA sound synthesizer `myTIASound`. -/
inductive SndCall where
  | set (addr : Nat) (value : Nat)
  | reset
  | volume (percent : Int)
  | process (offset : Nat) (count : Nat)
  deriving DecidableEq

/-- A call made to the SDL audio layer. -/
inductive SdlCall where
  | lockAudio
  | unlockAudio
  | pauseAudio (pause : Nat)
  | closeAudio
  deriving DecidableEq

/-- The members of `SDL_AudioSpec` that `SoundSDL` reads from
`myHardwareSpec`. -/
structure AudioSpec where
  freq : Nat
  samples : Nat
  channels : Nat

/-- The data members of `SoundSDL`.  The synthesizer and the SDL layer are the
lists of calls made to them, oldest first. -/
structure SoundSDL where
  myIsEnabled : Bool
  myIsInitializedFlag : Bool
  myLastRegisterSetCycle : Int
  myDisplayFrameRate : Nat
  myNumChannels : Nat
  myFragmentSizeLogBase2 : ℚ
  myIsMuted : Bool
  myVolume : Nat
  myNumRecordSamplesNeeded : Int
  myHardwareSpec : AudioSpec
  myRegWriteQueue : RegWriteQueue
  myTIASound : List SndCall
  sdl : List SdlCall
  mySoundExporter : Option (List Int)
  mySettings : List (String × Int)

/-- The cast `(uint32_t)x` of a `double`: truncation toward zero; `none` when
the truncated value is not a `uint32_t`. -/
def toU32 (x : ℚ) : Option Nat :=
  let t : Int := if 0 ≤ x then ⌊x⌋ else ⌈x⌉
  if 0 ≤ t ∧ t < 4294967296 then some t.toNat else none

/-- The difference `a - b` of two `uint32_t` values. -/
def u32sub (a b : Nat) : Nat :=
  (a % 4294967296 + 4294967296 - b % 4294967296) % 4294967296

/-- The conversion of a `uint32_t` value to `int`. -/
def toInt32 (n : Nat) : Int :=
  if n % 4294967296 < 2147483648 then (n % 4294967296 : Nat) else (n % 4294967296 : Nat) - 4294967296

namespace SoundSDL

/-- The bytes of the device name `"TIASound"`, as `getString` returns them. -/
def deviceBytes : List Nat := "TIASound".toList.map (fun c => c.toNat)

/-- The clock constant `1193191.66666667` of `SoundSDL::set`. -/
def tiaClock : ℚ := 1193191.66666667

/-- The method `SoundSDL::set`.  The result is `none` when the `int`
subtraction overflows, when the frame rate is 0 (the scaling factor is then
`0 / 0`) and when the queue cannot take the entry. -/
def set (s : SoundSDL) (addr value : Nat) (cycle : Int) : Option SoundSDL :=
  let s1 := { s with sdl := s.sdl ++ [SdlCall.lockAudio] }
  let d := cycle - s1.myLastRegisterSetCycle
  if d < -2147483648 ∨ 2147483647 < d then none
  else
    -- First, calulate how many seconds would have past since the last
    -- register write on a real 2600
    let delta : ℚ := (d : ℚ) / tiaClock
    -- Now, adjust the time based on the frame rate the user has selected.
    if s1.myDisplayFrameRate = 0 then none
    else
      let delta := delta * ((s1.myDisplayFrameRate : ℚ) / (s1.myDisplayFrameRate : ℚ))
      let info : RegWrite := { addr := addr, value := value, delta := delta }
      (s1.myRegWriteQueue.enqueue info).map fun q =>
        -- Update last cycle counter to the current cycle
        { s1 with
          myRegWriteQueue := q
          myLastRegisterSetCycle := cycle
          sdl := s1.sdl ++ [SdlCall.unlockAudio] }

/-- The seven `getInt` calls of `SoundSDL::load`: the six registers, each cast
to `uint8_t`, then the cycle counter; `none` when one of them throws. -/
def loadInts (inp : List Nat) : Option (List Nat × Int × List Nat) := do
  let (v1, i1) ← Cartridge3F.getInt inp
  let (v2, i2) ← Cartridge3F.getInt i1
  let (v3, i3) ← Cartridge3F.getInt i2
  let (v4, i4) ← Cartridge3F.getInt i3
  let (v5, i5) ← Cartridge3F.getInt i4
  let (v6, i6) ← Cartridge3F.getInt i5
  let (c, i7) ← Cartridge3F.getInt i6
  pure ([(v1 % 256).toNat, (v2 % 256).toNat, (v3 % 256).toNat, (v4 % 256).toNat,
    (v5 % 256).toNat, (v6 % 256).toNat], c, i7)

/-- The method `SoundSDL::load`: the result flag, the sound object and the
rest of the stream.  An exception thrown by the deserializer is caught and
makes the result `false`. -/
def load (s : SoundSDL) (inp : List Nat) : Bool × SoundSDL × List Nat :=
  match Cartridge3F.getString inp with
  | none => (false, s, inp)
  | some (str, in1) =>
      if str ≠ deviceBytes then (false, s, in1)
      else
        match loadInts in1 with
        | none => (false, s, in1)
        | some (regs, c, in2) =>
            let s1 := { s with myLastRegisterSetCycle := c }
            -- Only update the TIA sound registers if sound is enabled
            -- Make sure to empty the queue of previous sound fragments
            if s1.myIsInitializedFlag then
              (true,
               { s1 with
                 sdl := s1.sdl ++ [SdlCall.pauseAudio 1, SdlCall.pauseAudio 0]
                 myRegWriteQueue := s1.myRegWriteQueue.clear
                 myTIASound := s1.myTIASound ++
                   [SndCall.set 0x15 (regs.getD 0 0), SndCall.set 0x16 (regs.getD 1 0),
                    SndCall.set 0x17 (regs.getD 2 0), SndCall.set 0x18 (regs.getD 3 0),
                    SndCall.set 0x19 (regs.getD 4 0), SndCall.set 0x1a (regs.getD 5 0)] },
               in2)
            else (true, s1, in2)

/-- The sample count `processFragment` passes to `process` for a segment:
`(uint32_t)samples + (uint32_t)(position + samples) -
((uint32_t)position + (uint32_t)samples)` in `uint32_t` arithmetic. -/
def segmentCount (position samples : ℚ) : Option Nat := do
  let a ← toU32 samples
  let b ← toU32 (position + samples)
  let c ← toU32 position
  pure (u32sub (u32 (a + b)) (u32 (c + a)))

/-- The call `myTIASound.process(stream + ((uint32_t)position * channels),
count)` for a segment of `samples` samples. -/
def segmentCall (channels : Nat) (position samples : ℚ) : Option SndCall := do
  let p ← toU32 position
  let n ← segmentCount position samples
  pure (SndCall.process (u32 (p * channels)) n)

/-- The call `myTIASound.process(stream + ((uint32_t)position * channels),
length - (uint32_t)position)` that fills the rest of the fragment. -/
def fillCall (channels length : Nat) (position : ℚ) : Option SndCall := do
  let p ← toU32 position
  pure (SndCall.process (u32 (p * channels)) (u32sub length p))

/-- The loop that removes excess entries at the start of `processFragment`,
with `fuel` iterations allowed; `limit` is
`(myFragmentSizeLogBase2 - 1) / myDisplayFrameRate`. -/
def drainLoop (limit : ℚ) : Nat → SoundSDL → ℚ → Option SoundSDL
  | 0, _, _ => none
  | fuel + 1, s, removed =>
      if removed < limit then
        match s.myRegWriteQueue.front with
        | none => none
        | some info =>
            match s.myRegWriteQueue.dequeue with
            | none => none
            | some q =>
                drainLoop limit fuel
                  { s with
                    myTIASound := s.myTIASound ++ [SndCall.set info.addr info.value]
                    myRegWriteQueue := q }
                  (removed + info.delta)
      else some s

/-- The main loop of `processFragment`, with `fuel` iterations allowed;
`freq` and `channels` are those of `myHardwareSpec`, `length` is the fragment
length in samples per channel. -/
def fragmentLoop (freq channels length : Nat) : Nat → SoundSDL → ℚ → ℚ → Option SoundSDL
  | 0, _, _, _ => none
  | fuel + 1, s, position, remaining =>
      if remaining > 0 then
        if s.myRegWriteQueue.size = 0 then
          -- There are no more pending TIA sound register updates so we'll
          -- use the current settings to finish filling the sound fragment
          (fillCall channels length position).map fun c =>
            { s with myTIASound := s.myTIASound ++ [c], myLastRegisterSetCycle := 0 }
        else
          match s.myRegWriteQueue.front with
          | none => none
          | some info =>
              if freq = 0 then none
              else
                -- How long will the remaining samples in the fragment take to play
                let duration : ℚ := remaining / (freq : ℚ)
                -- Does the register update occur before the end of the fragment?
                if info.delta ≤ duration then
                  let r : Option (SoundSDL × ℚ × ℚ) :=
                    if info.delta > 0 then
                      let samples : ℚ := (freq : ℚ) * info.delta
                      (segmentCall channels position samples).map fun c =>
                        ({ s with myTIASound := s.myTIASound ++ [c] },
                          position + samples, remaining - samples)
                    else some (s, position, remaining)
                  r.bind fun r1 =>
                    (r1.1.myRegWriteQueue.dequeue).bind fun q =>
                      fragmentLoop freq channels length fuel
                        { r1.1 with
                          myTIASound := r1.1.myTIASound ++ [SndCall.set info.addr info.value]
                          myRegWriteQueue := q }
                        r1.2.1 r1.2.2
                else
                  -- The next register update occurs in the next fragment so finish
                  -- this fragment with the current TIA settings and reduce the register
                  -- update delay by the corresponding amount of time
                  (fillCall channels length position).map fun c =>
                    { s with
                      myTIASound := s.myTIASound ++ [c]
                      myRegWriteQueue := { s.myRegWriteQueue with
                        myBuffer := s.myRegWriteQueue.myBuffer.set s.myRegWriteQueue.myHead
                          { info with delta := info.delta - duration } } }
      else some s

/-- The method `SoundSDL::processFragment`; the stream is seen through the
`process` calls that fill it.  The result is `none` when there is no channel,
when the frame rate is 0 and when one of the loops meets undefined
behaviour. -/
def processFragment (s : SoundSDL) (length : Int) : Option SoundSDL :=
  if s.myIsInitializedFlag = false then some s
  else
    let channels := s.myHardwareSpec.channels
    if channels = 0 then none
    else
      let lengthU : Nat := (length % 4294967296).toNat / channels
      let length : Int := toInt32 lengthU
      if s.myDisplayFrameRate = 0 then none
      else
        match s.myRegWriteQueue.duration with
        | none => none
        | some total =>
            -- If there are excessive items on the queue then we'll remove some
            let s1 : Option SoundSDL :=
              if total > s.myFragmentSizeLogBase2 / (s.myDisplayFrameRate : ℚ) then
                drainLoop ((s.myFragmentSizeLogBase2 - 1) / (s.myDisplayFrameRate : ℚ))
                  (s.myRegWriteQueue.size + 1) s 0
              else some s
            s1.bind fun s2 =>
              (fragmentLoop s2.myHardwareSpec.freq channels lengthU
                  (s2.myRegWriteQueue.size + 1) s2 0 (length : ℚ)).map fun s3 =>
                -- If recording sound, do so now
                match s3.mySoundExporter with
                | some log =>
                    if s3.myNumRecordSamplesNeeded > 0 then
                      { s3 with
                        mySoundExporter := some (log ++ [length])
                        myNumRecordSamplesNeeded := s3.myNumRecordSamplesNeeded - length }
                    else s3
                | none => s3

/-- The method `SoundSDL::setVolume`. -/
def setVolume (s : SoundSDL) (percent : Int) : SoundSDL :=
  if s.myIsInitializedFlag then
    if 0 ≤ percent ∧ percent ≤ 100 then
      { s with
        mySettings := s.mySettings ++ [("volume", percent)]
        sdl := s.sdl ++ [SdlCall.lockAudio, SdlCall.unlockAudio]
        myVolume := percent.toNat
        myTIASound := s.myTIASound ++ [SndCall.volume percent] }
    else s
  else s

/-- The method `SoundSDL::adjustVolume`; `none` when the `int` arithmetic
overflows. -/
def adjustVolume (s : SoundSDL) (direction : Int) : Option SoundSDL :=
  let percent : Int := toInt32 s.myVolume
  let percent1 : Option Int :=
    if direction = -1 then
      if percent - 2 < -2147483648 then none else some (percent - 2)
    else if direction = 1 then
      if 2147483647 < percent + 2 then none else some (percent + 2)
    else some percent
  percent1.map fun p =>
    if p < 0 ∨ p > 100 then s else setVolume s p

/-- The method `SoundSDL::save`: the result flag and the stream written.
`get` stands for `TIASound::get`, whose code is not part of the sources at
hand: the register value the synthesizer reports after the calls it has
seen. -/
def save (get : List SndCall → Nat → Nat) (s : SoundSDL) (out : List Nat) : Bool × List Nat :=
  let out0 := Cartridge3F.putString out "TIASound"
  -- Only get the TIA sound registers if sound is enabled
  let reg : Nat → Nat := fun addr =>
    if s.myIsInitializedFlag then get s.myTIASound addr % 256 else 0
  let out1 := Cartridge3F.putInt out0 (reg 0x15)
  let out2 := Cartridge3F.putInt out1 (reg 0x16)
  let out3 := Cartridge3F.putInt out2 (reg 0x17)
  let out4 := Cartridge3F.putInt out3 (reg 0x18)
  let out5 := Cartridge3F.putInt out4 (reg 0x19)
  let out6 := Cartridge3F.putInt out5 (reg 0x1a)
  let out7 := Cartridge3F.putInt out6 s.myLastRegisterSetCycle
  (true, out7)

/-- The method `SoundSDL::adjustCycleCounter`; `none` when the `int` addition
overflows. -/
def adjustCycleCounter (s : SoundSDL) (amount : Int) : Option SoundSDL :=
  let c := s.myLastRegisterSetCycle + amount
  if c < -2147483648 ∨ 2147483647 < c then none
  else some { s with myLastRegisterSetCycle := c }

/-- The method `SoundSDL::mute`. -/
def mute (s : SoundSDL) (state : Bool) : SoundSDL :=
  if s.myIsInitializedFlag then
    -- Ignore multiple calls to do the same thing
    if s.myIsMuted = state then s
    else
      { s with
        myIsMuted := state
        sdl := s.sdl ++ [SdlCall.pauseAudio (if state then 1 else 0)]
        myRegWriteQueue := s.myRegWriteQueue.clear }
  else s

/-- The method `SoundSDL::reset`. -/
def reset (s : SoundSDL) : SoundSDL :=
  if s.myIsInitializedFlag then
    { s with
      sdl := s.sdl ++ [SdlCall.pauseAudio 1, SdlCall.pauseAudio 0]
      myIsMuted := false
      myLastRegisterSetCycle := 0
      myTIASound := s.myTIASound ++ [SndCall.reset]
      myRegWriteQueue := s.myRegWriteQueue.clear }
  else s

end SoundSDL

/-! ## Sequences of cartridge calls -/

/-- A call of a public method of the cartridge. -/
inductive Op where
  | reset
  | bank (b : Nat)
  | poke (a v : Nat)
  | peek (a : Nat)
  | patch (a v : Nat)
  | load (inp : List Nat)
  | lockBank
  | unlockBank

/-- Carry out one call. -/
def Op.run (w : World) : Op → Option World
  | Op.reset => Cartridge3F.reset w
  | Op.bank b => Cartridge3F.bank w b
  | Op.poke a v => Cartridge3F.poke w a v
  | Op.peek a => (Cartridge3F.peek w a).map fun r => r.2
  | Op.patch a v => (Cartridge3F.patch w a v).map fun r => r.2
  | Op.load inp => (Cartridge3F.load w inp).map fun r => r.2.1
  | Op.lockBank => some (Cartridge3F.lockBank w)
  | Op.unlockBank => some (Cartridge3F.unlockBank w)

/-- Carry out a sequence of calls, first to last. -/
def runOps (w : World) : List Op → Option World
  | [] => some w
  | op :: ops => (op.run w).bind fun w1 => runOps w1 ops

/-- The calls that neither lock nor unlock bankswitching. -/
def Op.keepsLock : Op → Bool
  | Op.lockBank => false
  | Op.unlockBank => false
  | _ => true

/-- The calls `bank`, `poke` and `reset`. -/
def Op.isSwitch : Op → Bool
  | Op.reset => true
  | Op.bank _ => true
  | Op.poke _ _ => true
  | _ => false

/-! ## Notions used to state the properties -/

/-- The bank `Cartridge3F::bank` settles on for a request `b`, for a ROM of
`size` bytes. -/
def chosenBank (size b : Nat) : Nat :=
  if b % 65536 * 2048 < size then b % 65536 else b % 65536 % (size / 2048)

/-- The system with the pages of the first segment pointed at bank `nb`. -/
def remapLow (s : System) (nb : Nat) : System :=
  { s with myPageAccessTable := fun p =>
      if 64 ≤ p ∧ p < 96 then Cartridge3F.bankAccess (nb * 2048) (64 * p)
      else s.myPageAccessTable p }

/-- The ROM of a cartridge is well formed: the image holds `mySize` bytes and
`mySize` is a `uint32_t`. -/
structure RomOk (c : Cartridge3F) : Prop where
  length_eq : c.myImage.length = c.mySize
  size_lt : c.mySize < 4294967296

/-- The pages `install` sets up once and for all: the hot-spot page and the
second segment, which points at the last 2K of the image. -/
structure FixedPages (w : World) : Prop where
  hot : w.sys.myPageAccessTable 0 = Cartridge3F.hotspotAccess
  high : ∀ p, 96 ≤ p → p < 128 →
    w.sys.myPageAccessTable p = Cartridge3F.fixedAccess w.cart.mySize (64 * p)

/-- The pages of the first segment point at the current bank. -/
def LowPages (w : World) : Prop :=
  ∀ p, 64 ≤ p → p < 96 →
    w.sys.myPageAccessTable p = Cartridge3F.bankAccess (w.cart.myCurrentBank * 2048) (64 * p)

/-- The system with the pages `install` sets before it calls `bank`. -/
def installPages (s : System) (size : Nat) : System :=
  { s with myPageAccessTable := fun p =>
      if 96 ≤ p ∧ p < 128 then Cartridge3F.fixedAccess size (64 * p)
      else if 0 ≤ p ∧ p < 1 then Cartridge3F.hotspotAccess
      else s.myPageAccessTable p }

/-- An installed cartridge with a ROM of `n` bytes, `n` a positive multiple of
2048, whatever its bank and lock state. -/
structure Base (n : Nat) (w : World) : Prop where
  rom : RomOk w.cart
  size_eq : w.cart.mySize = n
  size_pos : 0 < n
  size_mul : n % 2048 = 0
  fixed : FixedPages w

/-- An installed, unlocked cartridge with a ROM of `n` bytes whose current bank
is a bank of the ROM and is the one mapped into the first segment. -/
structure Good (n : Nat) (w : World) : Prop where
  base : Base n w
  unlocked : w.cart.bankLocked = false
  inRange : w.cart.myCurrentBank < n / 2048
  bank16 : w.cart.myCurrentBank < 65536
  low : LowPages w

/-- Install the cartridge, then carry out a sequence of calls. -/
def installThen (w0 : World) (ops : List Op) : Option World :=
  (Cartridge3F.install w0).bind fun w => runOps w ops

/-- The second segment of a cartridge with ROM size `n` and image `img` is
mapped on the last 2K of the image, whatever the bank and lock state. -/
structure Upper (n : Nat) (img : List Nat) (w : World) : Prop where
  size_eq : w.cart.mySize = n
  image_eq : w.cart.myImage = img
  high : ∀ p, 96 ≤ p → p < 128 →
    w.sys.myPageAccessTable p = Cartridge3F.fixedAccess n (64 * p)

/-- A call of `enqueue`, `dequeue` or `clear` on the write queue. -/
inductive QOp where
  | enqueue (info : RegWrite)
  | dequeue
  | clear

/-- Carry out one queue call. -/
def QOp.run (q : RegWriteQueue) : QOp → Option RegWriteQueue
  | QOp.enqueue info => q.enqueue info
  | QOp.dequeue => q.dequeue
  | QOp.clear => some q.clear

/-- Carry out a sequence of queue calls, first to last. -/
def runQ (q : RegWriteQueue) : List QOp → Option RegWriteQueue
  | [] => some q
  | op :: ops => (op.run q).bind fun q1 => runQ q1 ops

/-- The unbounded FIFO list the queue is compared with: `enqueue` appends,
`dequeue` drops the first entry and does nothing on the empty list, `clear`
empties the list. -/
def QOp.ideal (l : List RegWrite) : QOp → List RegWrite
  | QOp.enqueue info => l ++ [info]
  | QOp.dequeue => l.tail
  | QOp.clear => []

/-- The unbounded FIFO list after a sequence of calls. -/
def idealFifo (l : List RegWrite) : List QOp → List RegWrite
  | [] => l
  | op :: ops => idealFifo (op.ideal l) ops

/-- The number of `enqueue` calls in a sequence. -/
def enqueueCount : List QOp → Nat
  | [] => 0
  | QOp.enqueue _ :: ops => enqueueCount ops + 1
  | _ :: ops => enqueueCount ops

/-- Observe `n` entries head-first: `front()` followed by `dequeue()`, `n`
times. -/
def drain : Nat → RegWriteQueue → Option (List RegWrite)
  | 0, _ => some []
  | n + 1, q =>
      match q.front with
      | none => none
      | some e =>
          match q.dequeue with
          | none => none
          | some q1 => (drain n q1).map fun l => e :: l

/-- The entries a queue holds, head first, read from the ring buffer. -/
def entries (q : RegWriteQueue) : List RegWrite :=
  (List.range q.mySize).map fun i =>
    q.myBuffer.getD ((q.myHead + i) % q.myCapacity) RegWrite.blank

/-- The ring buffer is well formed. -/
structure QInv (q : RegWriteQueue) : Prop where
  cap_pos : 0 < q.myCapacity
  cap_lt : q.myCapacity < 4294967296
  len : q.myBuffer.length = q.myCapacity
  head_lt : q.myHead < q.myCapacity
  size_le : q.mySize ≤ q.myCapacity
  tail_eq : q.myTail = (q.myHead + q.mySize) % q.myCapacity

/-- The number of samples a call asks the synthesizer for. -/
def SndCall.samples : SndCall → Nat
  | SndCall.process _ count => count
  | _ => 0

/-- The register write a call applies to the synthesizer, if it is one. -/
def SndCall.write : SndCall → Option (Nat × Nat)
  | SndCall.set addr value => some (addr, value)
  | _ => none

/-- The total number of samples a list of calls asks the synthesizer for. -/
def samplesOf (calls : List SndCall) : Nat :=
  (calls.map SndCall.samples).sum

/-- The register writes a list of calls applies, in order. -/
def writesOf (calls : List SndCall) : List (Nat × Nat) :=
  calls.filterMap SndCall.write

/-- The `(addr, value)` pairs of a list of queue entries, in order. -/
def pairsOf (l : List RegWrite) : List (Nat × Nat) :=
  l.map fun e => (e.addr, e.value)

/-- The total pending delay of a list of queue entries. -/
def totalDelta (l : List RegWrite) : ℚ :=
  (l.map fun e => e.delta).sum

/-- The loop that removes excess entries, on the list of entries of the
queue: the calls made to the synthesizer and the entries left. -/
def drainList (limit : ℚ) : List RegWrite → ℚ → Option (List SndCall × List RegWrite)
  | [], removed => if removed < limit then none else some ([], [])
  | e :: es, removed =>
      if removed < limit then
        (drainList limit es (removed + e.delta)).map fun r =>
          (SndCall.set e.addr e.value :: r.1, r.2)
      else some ([], e :: es)

/-- The main loop of `processFragment`, on the list of entries of the queue:
the calls made to the synthesizer, the entries left, and whether the cycle
counter is reset. -/
def fragList (freq channels length : Nat) :
    List RegWrite → ℚ → ℚ → Option (List SndCall × List RegWrite × Bool)
  | [], position, remaining =>
      if remaining > 0 then
        (SoundSDL.fillCall channels length position).map fun c => ([c], [], true)
      else some ([], [], false)
  | info :: es, position, remaining =>
      if remaining > 0 then
        if freq = 0 then none
        else if info.delta ≤ remaining / (freq : ℚ) then
          if info.delta > 0 then
            (SoundSDL.segmentCall channels position ((freq : ℚ) * info.delta)).bind fun c =>
              (fragList freq channels length es (position + (freq : ℚ) * info.delta)
                (remaining - (freq : ℚ) * info.delta)).map fun r =>
                (c :: SndCall.set info.addr info.value :: r.1, r.2)
          else
            (fragList freq channels length es position remaining).map fun r =>
              (SndCall.set info.addr info.value :: r.1, r.2)
        else
          (SoundSDL.fillCall channels length position).map fun c =>
            ([c], { info with delta := info.delta - remaining / (freq : ℚ) } :: es, false)
      else some ([], info :: es, false)

/-- The sound object is in working order: the write queue is a well-formed
ring of capacity at most `2^31`, the audio device has a sample rate and a
channel count other than 0, and the display frame rate is not 0. -/
structure SoundOk (s : SoundSDL) : Prop where
  queue : QInv s.myRegWriteQueue
  cap_le : s.myRegWriteQueue.myCapacity ≤ 2147483648
  freq_pos : 0 < s.myHardwareSpec.freq
  channels_pos : 0 < s.myHardwareSpec.channels
  rate_pos : 0 < s.myDisplayFrameRate

/-- A call made to the sound object: `set` from the emulation side or
`processFragment` from the audio callback. -/
inductive SOp where
  | set (addr value : Nat) (cycle : Int)
  | processFragment (length : Int)

/-- Run one call on the sound object. -/
def SOp.run (s : SoundSDL) : SOp → Option SoundSDL
  | SOp.set addr value cycle => s.set addr value cycle
  | SOp.processFragment length => s.processFragment length

/-- Run a sequence of calls on the sound object, one after the other. -/
def runS : List SOp → SoundSDL → Option SoundSDL
  | [], s => some s
  | op :: ops, s => (op.run s).bind (runS ops)

/-- The `(addr, value)` pairs a sequence of calls passes to `set`, in order. -/
def passedWrites : List SOp → List (Nat × Nat)
  | [] => []
  | SOp.set addr value _ :: ops => (addr, value) :: passedWrites ops
  | SOp.processFragment _ :: ops => passedWrites ops

/-- The arguments of a call are in range: the cycle count of a `set` and the
length of a fragment are non-negative `int` values. -/
def SOp.inRange : SOp → Prop
  | SOp.set _ _ cycle => 0 ≤ cycle ∧ cycle < 2147483648
  | SOp.processFragment length => 0 ≤ length ∧ length < 2147483648

/-- The register value `SoundSDL::save` writes for the register `addr`: the
value the synthesizer reports, cast to `uint8_t`, and 0 when sound is not
initialised.  `get` stands for `TIASound::get`. -/
def savedReg (get : List SndCall → Nat → Nat) (s : SoundSDL) (addr : Nat) : Nat :=
  if s.myIsInitializedFlag then get s.myTIASound addr % 256 else 0

/-- A call that changes the volume. -/
inductive VOp where
  | setVolume (percent : Int)
  | adjustVolume (direction : Int)

/-- Run one volume call on the sound object. -/
def VOp.run (s : SoundSDL) : VOp → Option SoundSDL
  | VOp.setVolume percent => some (s.setVolume percent)
  | VOp.adjustVolume direction => s.adjustVolume direction

/-- Run a sequence of volume calls on the sound object, one after the other. -/
def runV : List VOp → SoundSDL → Option SoundSDL
  | [], s => some s
  | op :: ops, s => (op.run s).bind (runV ops)

/-- The call is an `enqueue`. -/
def QOp.isEnqueue : QOp → Bool
  | QOp.enqueue _ => true
  | _ => false

/-- The call stays inside a fragment of `length` samples per channel: a
`process` call starts at a whole sample `p` of each channel, at stream offset
`p * channels`, and `p` plus the number of samples asked for is at most
`length`.  The other calls do not touch the stream. -/
def SndCall.within (channels length : Nat) : SndCall → Prop
  | SndCall.process offset count => ∃ p, offset = p * channels ∧ p + count ≤ length
  | _ => True

/-! ## A concrete machine -/

/-- A 4K image: bank 0 holds the byte 10 everywhere, bank 1 the byte 11. -/
def demoImage : List Nat := List.replicate 2048 10 ++ List.replicate 2048 11

/-- An unlocked 3F cartridge built from `demoImage`. -/
def demoCart : Cartridge3F :=
  { bankLocked := false, myCurrentBank := 0, myImage := demoImage, mySize := 4096 }

/-- A system in which no device has been installed yet, with `demoCart` about
to be attached. -/
def demoWorld : World :=
  { sys := { myPageAccessTable := fun _ => ⟨none, none, Device.nullDevice⟩
             myDataBusState := 0
             myDataBusLocked := false }
    cart := demoCart
    ram := fun _ => []
    calls := [] }

/-- External devices that answer every read with 0. -/
def demoExternal : External := { peek := fun _ _ _ => 0 }

/-- A system whose page 2 (`$80..$BF`) is backed, for reads and for writes, by
a 64-byte memory block of another device. -/
def demoRamWorld : World :=
  { demoWorld with
    sys := { demoWorld.sys with
      myPageAccessTable := fun p =>
        if p = 2 then ⟨some ⟨Block.ram 0, 0⟩, some ⟨Block.ram 0, 0⟩, Device.other 0⟩
        else ⟨none, none, Device.nullDevice⟩ }
    ram := fun _ => [0, 0, 0, 0, 0, 0, 0, 0, 0, 0, 0, 0, 0, 0, 0, 0,
                     0, 0, 0, 0, 0, 0, 0, 0, 0, 0, 0, 0, 0, 0, 0, 0,
                     0, 0, 0, 0, 0, 0, 0, 0, 0, 0, 0, 0, 0, 0, 0, 0,
                     0, 0, 0, 0, 0, 0, 0, 0, 0, 0, 0, 0, 0, 0, 0, 0] }

/-- The system `demoRamWorld` with its data bus locked. -/
def demoLockedWorld : World :=
  { demoRamWorld with sys := demoRamWorld.sys.lockDataBus }

/-- A sound object as the constructor leaves it, marked as initialised, with
a write queue of capacity 2 and a 31440 Hz mono audio device. -/
def demoSound : SoundSDL :=
  { myIsEnabled := true
    myIsInitializedFlag := true
    myLastRegisterSetCycle := 0
    myDisplayFrameRate := 60
    myNumChannels := 1
    myFragmentSizeLogBase2 := 10
    myIsMuted := false
    myVolume := 100
    myNumRecordSamplesNeeded := 0
    myHardwareSpec := { freq := 31440, samples := 1024, channels := 1 }
    myRegWriteQueue := RegWriteQueue.create 2
    myTIASound := []
    sdl := []
    mySoundExporter := none
    mySettings := [] }

/-- The sound object `demoSound` with one pending write: the value 8 for the
register `$15`, due 0.01 s after the previous write. -/
def demoPending : SoundSDL :=
  { demoSound with
    myRegWriteQueue :=
      { myCapacity := 2
        myBuffer := [⟨0x15, 8, 1 / 100⟩, RegWrite.blank]
        mySize := 1
        myHead := 0
        myTail := 1 } }

/-- A sound object as the constructor leaves it when sound is disabled: not
initialised, volume 100. -/
def demoSilent : SoundSDL :=
  { demoSound with myIsEnabled := false, myIsInitializedFlag := false }

/-- The sound object `demoSound` with three pending writes, each due one
second after the one before: a backlog of 3 s, more than the `10 / 60` s that
start the removal of excess entries. -/
def demoBacklog : SoundSDL :=
  { demoSound with
    myRegWriteQueue :=
      { myCapacity := 4
        myBuffer := [⟨0x15, 1, 1⟩, ⟨0x16, 2, 1⟩, ⟨0x17, 3, 1⟩, RegWrite.blank]
        mySize := 3
        myHead := 0
        myTail := 3 } }

/-! ## Auxiliary facts -/

theorem and_07FF (a : Nat) : a &&& 0x07FF = a % 2048 :=
  Nat.and_pow_two_sub_one_eq_mod a 11

theorem and_0FFF (a : Nat) : a &&& 0x0FFF = a % 4096 :=
  Nat.and_pow_two_sub_one_eq_mod a 12

theorem and_addressMask (a : Nat) : a &&& myAddressMask = a % 8192 :=
  Nat.and_pow_two_sub_one_eq_mod a 13

theorem and_pageMask (a : Nat) : a &&& myPageMask = a % 64 :=
  Nat.and_pow_two_sub_one_eq_mod a 6

theorem shr_pageSize (a : Nat) : a >>> myPageSize = a / 64 :=
  Nat.shiftRight_eq_div_pow a 6

theorem shr_pageShift (a : Nat) : a >>> System.pageShift = a / 64 :=
  Nat.shiftRight_eq_div_pow a 6

theorem one_shl_pageShift : 1 <<< System.pageShift = 64 := by decide

/-- A page-setting loop over whole pages `k0 ≤ p < k1` stores `f (64 * p)` in
page `p` and leaves everything else alone. -/
theorem forLoop_pages (f : Nat → PageAccess) (k1 : Nat) :
    ∀ (fuel k0 : Nat) (s : System), k1 - k0 ≤ fuel →
      forLoop (64 * k1) 64 (fun a s => s.setPageAccess (a / 64) (f a)) fuel (64 * k0) s =
        { s with myPageAccessTable := fun p =>
            if k0 ≤ p ∧ p < k1 then f (64 * p) else s.myPageAccessTable p } := by
  intro fuel
  induction fuel with
  | zero =>
      intro k0 s h
      have hk : k1 ≤ k0 := by omega
      have : (fun p => if k0 ≤ p ∧ p < k1 then f (64 * p) else s.myPageAccessTable p) =
          s.myPageAccessTable := by
        funext p
        have : ¬ (k0 ≤ p ∧ p < k1) := by omega
        simp [this]
      simp [forLoop, this]
  | succ n ih =>
      intro k0 s h
      unfold forLoop
      by_cases hlt : 64 * k0 < 64 * k1
      · have e : 64 * k0 + 64 = 64 * (k0 + 1) := by ring
        rw [if_pos hlt, e, ih (k0 + 1) _ (by omega)]
        have hd : 64 * k0 / 64 = k0 := by omega
        simp only [System.setPageAccess, hd]
        congr 1
        funext p
        by_cases hp : p = k0
        · subst hp
          have : ¬ (p + 1 ≤ p ∧ p < k1) := by omega
          have h2 : p ≤ p ∧ p < k1 := by omega
          simp [this, h2]
        · by_cases hr : k0 + 1 ≤ p ∧ p < k1
          · have h2 : k0 ≤ p ∧ p < k1 := by omega
            simp [hr, h2]
          · have h2 : ¬ (k0 ≤ p ∧ p < k1) := by omega
            simp [hr, h2, hp]
      · rw [if_neg hlt]
        have : (fun p => if k0 ≤ p ∧ p < k1 then f (64 * p) else s.myPageAccessTable p) =
            s.myPageAccessTable := by
          funext p
          have : ¬ (k0 ≤ p ∧ p < k1) := by omega
          simp [this]
        simp [this]

/-- What `bank` does when bankswitching is unlocked and the ROM holds at least
one bank. -/
theorem bank_unlocked (w : World) (b : Nat) (hl : w.cart.bankLocked = false)
    (hs : 2048 ≤ w.cart.mySize) :
    Cartridge3F.bank w b = some
      { w with
        cart := { w.cart with myCurrentBank := chosenBank w.cart.mySize b }
        sys := remapLow w.sys (chosenBank w.cart.mySize b) } := by
  have hz : ¬ (w.cart.mySize / 2048 = 0) := by omega
  have hu : u32 (u32 (u16 b) * 2048) = b % 65536 * 2048 := by
    unfold u32 u16; omega
  have hloop : ∀ nb : Nat, forLoop 0x1800 (1 <<< System.pageShift)
      (fun address s => System.setPageAccess s (address >>> System.pageShift)
        (Cartridge3F.bankAccess (nb * 2048) address)) (0x1800 - 0x1000) 0x1000 w.sys =
      remapLow w.sys nb := by
    intro nb
    simp only [shr_pageShift, one_shl_pageShift]
    exact forLoop_pages (Cartridge3F.bankAccess (nb * 2048)) 96 (0x1800 - 0x1000) 64 w.sys
      (by omega)
  unfold Cartridge3F.bank
  simp only [hl, hu, hloop, chosenBank]
  by_cases h : b % 65536 * 2048 < w.cart.mySize
  · simp [h, u16]
  · simp [h, hz, u16]

/-- With bankswitching locked `bank` does nothing. -/
theorem bank_locked (w : World) (b : Nat) (hl : w.cart.bankLocked = true) :
    Cartridge3F.bank w b = some w := by
  simp [Cartridge3F.bank, hl]

/-- The chosen bank is a bank of the ROM. -/
theorem chosenBank_lt (size b : Nat) (hs : 2048 ≤ size) :
    chosenBank size b * 2048 < size := by
  unfold chosenBank
  split
  · assumption
  · have hpos : 0 < size / 2048 := by omega
    have := Nat.mod_lt (b % 65536) hpos
    omega

/-- The chosen bank fits the `uint16_t` it is stored in. -/
theorem chosenBank_lt16 (size b : Nat) : chosenBank size b < 65536 := by
  unfold chosenBank
  split
  · omega
  · have := Nat.mod_le (b % 65536) (size / 2048)
    omega

/-- The two page-setting loops of `install`. -/
theorem install_eq (w : World) :
    Cartridge3F.install w =
      Cartridge3F.bank { w with sys := installPages w.sys w.cart.mySize } 0 := by
  have h1 : forLoop 0x40 (1 <<< System.pageShift)
      (fun i s => System.setPageAccess s (i >>> System.pageShift) Cartridge3F.hotspotAccess)
      (0x40 - 0x00) 0x00 w.sys =
      { w.sys with myPageAccessTable := fun p =>
          if 0 ≤ p ∧ p < 1 then Cartridge3F.hotspotAccess else w.sys.myPageAccessTable p } := by
    simp only [shr_pageShift, one_shl_pageShift]
    exact forLoop_pages (fun _ => Cartridge3F.hotspotAccess) 1 (0x40 - 0x00) 0 w.sys (by omega)
  have h2 : ∀ s : System, forLoop 0x2000 (1 <<< System.pageShift)
      (fun j s => System.setPageAccess s (j >>> System.pageShift)
        (Cartridge3F.fixedAccess w.cart.mySize j)) (0x2000 - 0x1800) 0x1800 s =
      { s with myPageAccessTable := fun p =>
          if 96 ≤ p ∧ p < 128 then Cartridge3F.fixedAccess w.cart.mySize (64 * p)
          else s.myPageAccessTable p } := by
    intro s
    simp only [shr_pageShift, one_shl_pageShift]
    exact forLoop_pages (Cartridge3F.fixedAccess w.cart.mySize) 128 (0x2000 - 0x1800) 96 s
      (by omega)
  have hm : ¬ ((0x1800 &&& System.pageMask) ≠ 0) := by decide
  unfold Cartridge3F.install
  simp only [hm, if_false, h1, h2]
  rfl

/-- After `bank` on an unlocked, installed cartridge the state is good. -/
theorem bank_good (n : Nat) (w : World) (b : Nat) (hb : Base n w)
    (hl : w.cart.bankLocked = false) :
    ∃ w1, Cartridge3F.bank w b = some w1 ∧ Good n w1 ∧
      w1.cart.myCurrentBank = chosenBank n b ∧ w1.cart.myImage = w.cart.myImage ∧
      w1.calls = w.calls ∧ w1.ram = w.ram := by
  have hs : 2048 ≤ w.cart.mySize := by
    have := hb.size_pos; have := hb.size_mul; have := hb.size_eq; omega
  refine ⟨_, bank_unlocked w b hl hs, ?_, ?_, rfl, rfl, rfl⟩
  · have hlt := chosenBank_lt w.cart.mySize b hs
    rw [hb.size_eq] at hlt
    refine ⟨⟨⟨hb.rom.length_eq, hb.rom.size_lt⟩, hb.size_eq, hb.size_pos, hb.size_mul,
      ⟨?_, ?_⟩⟩, hl, ?_, chosenBank_lt16 _ _, ?_⟩
    · simpa [remapLow] using hb.fixed.hot
    · intro p h1 h2
      have hn : ¬ (64 ≤ p ∧ p < 96) := by omega
      simpa [remapLow, hn] using hb.fixed.high p h1 h2
    · have := hb.size_mul
      simp only [hb.size_eq]
      omega
    · intro p h1 h2
      have hy : 64 ≤ p ∧ p < 96 := ⟨h1, h2⟩
      simp [remapLow, hy]
  · simp [hb.size_eq]

/-- The install step turns a well-formed, unlocked cartridge into a good
state with bank 0 current. -/
theorem install_good (w0 : World) (hrom : RomOk w0.cart) (hpos : 0 < w0.cart.mySize)
    (hmul : w0.cart.mySize % 2048 = 0) (hl : w0.cart.bankLocked = false) :
    ∃ w, Cartridge3F.install w0 = some w ∧ Good w0.cart.mySize w ∧
      w.cart.myCurrentBank = 0 ∧ w.cart.myImage = w0.cart.myImage ∧ w.calls = w0.calls := by
  rw [install_eq]
  have hb : Base w0.cart.mySize { w0 with sys := installPages w0.sys w0.cart.mySize } := by
    refine ⟨hrom, rfl, hpos, hmul, ⟨?_, ?_⟩⟩
    · simp [installPages]
    · intro p h1 h2
      have hy : 96 ≤ p ∧ p < 128 := ⟨h1, h2⟩
      simp [installPages, hy]
  obtain ⟨w1, h1, h2, h3, h4, h5, _⟩ := bank_good _ _ 0 hb hl
  refine ⟨w1, h1, h2, ?_, h4, h5⟩
  rw [h3]
  have : 2048 ≤ w0.cart.mySize := by omega
  simp [chosenBank]

/-- The image index of `peek` and `patch` without wrap-around. -/
theorem imageIndex_eq (c : Cartridge3F) (a : Nat) (h32 : c.mySize < 4294967296)
    (hs : 2048 ≤ c.mySize) :
    Cartridge3F.imageIndex c a =
      if a % 4096 < 2048 then a % 2048 + c.myCurrentBank * 2048
      else a % 2048 + c.mySize - 2048 := by
  unfold Cartridge3F.imageIndex
  simp only [and_0FFF, and_07FF, u32]
  split <;> omega

/-- In a good state the image index of `peek` and `patch` is in bounds. -/
theorem imageIndex_lt (n : Nat) (w : World) (a : Nat) (hg : Good n w) :
    Cartridge3F.imageIndex w.cart a < w.cart.myImage.length := by
  have h1 := hg.base.size_pos
  have h2 := hg.base.size_mul
  have h3 := hg.base.size_eq
  have h4 := hg.inRange
  have h5 := hg.base.rom.size_lt
  rw [imageIndex_eq _ _ h5 (by omega), hg.base.rom.length_eq]
  split <;> omega

/-- Storing a byte of the image keeps a good state good. -/
theorem good_set (n : Nat) (w : World) (i v : Nat) (hg : Good n w) :
    Good n { w with cart := { w.cart with myImage := w.cart.myImage.set i v } } := by
  refine ⟨⟨⟨?_, hg.base.rom.size_lt⟩, hg.base.size_eq, hg.base.size_pos, hg.base.size_mul,
    ⟨hg.base.fixed.hot, hg.base.fixed.high⟩⟩, hg.unlocked, hg.inRange, hg.bank16, hg.low⟩
  simpa using hg.base.rom.length_eq

/-- Appending to the call log keeps a good state good. -/
theorem good_calls (n : Nat) (w : World) (cs : List Call) (hg : Good n w) :
    Good n { w with calls := cs } :=
  ⟨⟨⟨hg.base.rom.length_eq, hg.base.rom.size_lt⟩, hg.base.size_eq, hg.base.size_pos,
    hg.base.size_mul, ⟨hg.base.fixed.hot, hg.base.fixed.high⟩⟩, hg.unlocked, hg.inRange, hg.bank16, hg.low⟩

/-- Overwriting the current bank keeps the installed cartridge installed. -/
theorem base_setBank (n : Nat) (w : World) (x : Nat) (hb : Base n w) :
    Base n { w with cart := { w.cart with myCurrentBank := x } } :=
  ⟨⟨hb.rom.length_eq, hb.rom.size_lt⟩, hb.size_eq, hb.size_pos, hb.size_mul,
    ⟨hb.fixed.hot, hb.fixed.high⟩⟩

/-- The method `poke` on a good state: it is defined, keeps the state good and
logs one TIA write. -/
theorem poke_good (n : Nat) (w : World) (a v : Nat) (hg : Good n w) :
    ∃ w1, Cartridge3F.poke w a v = some w1 ∧ Good n w1 ∧
      w1.cart.myImage = w.cart.myImage ∧
      w1.calls = w.calls ++ [Call.poke Device.tia (a % 4096) v] ∧
      w1.cart.myCurrentBank =
        if a % 4096 ≤ 0x3F then chosenBank n v else w.cart.myCurrentBank := by
  unfold Cartridge3F.poke
  simp only [and_0FFF]
  by_cases h : a % 4096 ≤ 0x3F
  · obtain ⟨w1, h1, h2, h3, h4, h5, _⟩ := bank_good n w v hg.base hg.unlocked
    refine ⟨{ w1 with calls := w1.calls ++ [Call.poke Device.tia (a % 4096) v] }, ?_,
      good_calls n w1 _ h2, h4, ?_, ?_⟩
    · simp [h, h1]
    · simp [h5]
    · simp [h, h3]
  · refine ⟨{ w with calls := w.calls ++ [Call.poke Device.tia (a % 4096) v] }, ?_,
      good_calls n w _ hg, rfl, rfl, ?_⟩
    · simp [h]
    · simp [h]

/-- The method `load` on a good state is defined and keeps the state good. -/
theorem load_good (n : Nat) (w : World) (inp : List Nat) (hg : Good n w) :
    ∃ r, Cartridge3F.load w inp = some r ∧ Good n r.2.1 ∧
      r.2.1.cart.myImage = w.cart.myImage := by
  unfold Cartridge3F.load
  cases hgs : Cartridge3F.getString inp with
  | none => exact ⟨_, rfl, hg, rfl⟩
  | some p =>
      obtain ⟨str, in1⟩ := p
      by_cases hname : str = Cartridge3F.nameBytes
      · simp only [hname, ne_eq, not_true_eq_false, if_false]
        cases hgi : Cartridge3F.getInt in1 with
        | none => exact ⟨_, rfl, hg, rfl⟩
        | some q =>
            obtain ⟨v, in2⟩ := q
            obtain ⟨w1, h1, h2, _, h4, _⟩ :=
              bank_good n { w with cart := { w.cart with myCurrentBank := (v % 65536).toNat } }
                (v % 65536).toNat (base_setBank n w _ hg.base) hg.unlocked
            refine ⟨(true, w1, in2), ?_, h2, h4⟩
            simp only [h1, Option.map_some']
      · simp only [ne_eq, hname, not_false_eq_true, if_true]
        exact ⟨_, rfl, hg, rfl⟩

/-- One call that leaves the lock alone is defined on a good state and keeps
it good. -/
theorem step_good (n : Nat) (w : World) (op : Op) (hg : Good n w)
    (hk : op.keepsLock = true) : ∃ w1, op.run w = some w1 ∧ Good n w1 := by
  cases op with
  | reset =>
      obtain ⟨w1, h1, h2, _⟩ := bank_good n w 0 hg.base hg.unlocked
      exact ⟨w1, h1, h2⟩
  | bank b =>
      obtain ⟨w1, h1, h2, _⟩ := bank_good n w b hg.base hg.unlocked
      exact ⟨w1, h1, h2⟩
  | poke a v =>
      obtain ⟨w1, h1, h2, _⟩ := poke_good n w a v hg
      exact ⟨w1, h1, h2⟩
  | peek a =>
      have hlt := imageIndex_lt n w a hg
      refine ⟨w, ?_, hg⟩
      simp [Op.run, Cartridge3F.peek, List.getElem?_eq_getElem hlt]
  | patch a v =>
      have hlt := imageIndex_lt n w a hg
      refine ⟨_, ?_, good_set n w (Cartridge3F.imageIndex w.cart a) v hg⟩
      simp [Op.run, Cartridge3F.patch, hlt]
  | load inp =>
      obtain ⟨r, h1, h2, _⟩ := load_good n w inp hg
      exact ⟨r.2.1, by simp [Op.run, h1], h2⟩
  | lockBank => simp [Op.keepsLock] at hk
  | unlockBank => simp [Op.keepsLock] at hk

/-- A sequence of calls that leave the lock alone is defined on a good state
and ends in a good state. -/
theorem runOps_good (n : Nat) (ops : List Op) :
    ∀ w : World, Good n w → (∀ op ∈ ops, op.keepsLock = true) →
      ∃ w1, runOps w ops = some w1 ∧ Good n w1 := by
  induction ops with
  | nil => intro w hg _; exact ⟨w, rfl, hg⟩
  | cons op ops ih =>
      intro w hg hk
      obtain ⟨w1, h1, h2⟩ := step_good n w op hg (hk op (List.mem_cons_self _ _))
      obtain ⟨w2, h3, h4⟩ := ih w1 h2 (fun o ho => hk o (List.mem_cons_of_mem _ ho))
      exact ⟨w2, by simp [runOps, h1, h3], h4⟩

/-- Installing a well-formed, unlocked cartridge and carrying out calls that
leave the lock alone is defined and ends in a good state. -/
theorem installThen_good (w0 : World) (ops : List Op) (hrom : RomOk w0.cart)
    (hpos : 0 < w0.cart.mySize) (hmul : w0.cart.mySize % 2048 = 0)
    (hl : w0.cart.bankLocked = false) (hk : ∀ op ∈ ops, op.keepsLock = true) :
    ∃ w, installThen w0 ops = some w ∧ Good w0.cart.mySize w := by
  obtain ⟨w1, h1, h2, _⟩ := install_good w0 hrom hpos hmul hl
  obtain ⟨w2, h3, h4⟩ := runOps_good _ ops w1 h2 hk
  exact ⟨w2, by simp [installThen, h1, h3], h4⟩

theorem demo_romOk : RomOk demoWorld.cart :=
  ⟨by simp only [demoWorld, demoCart, demoImage, List.length_append, List.length_replicate],
    by decide⟩

/-- The first byte of the concrete image. -/
theorem demo_byte0 : demoWorld.cart.myImage[0]? = some 10 := by
  simp only [demoWorld, demoCart, demoImage]
  rw [List.getElem?_append_left (by rw [List.length_replicate]; decide),
    List.getElem?_replicate, if_pos (by decide)]

/-- Writing the data-bus latch keeps a good state good. -/
theorem good_bus (n : Nat) (w : World) (v : Nat) (hg : Good n w) :
    Good n { w with sys := { w.sys with myDataBusState := v } } :=
  ⟨⟨⟨hg.base.rom.length_eq, hg.base.rom.size_lt⟩, hg.base.size_eq, hg.base.size_pos,
    hg.base.size_mul, ⟨hg.base.fixed.hot, hg.base.fixed.high⟩⟩, hg.unlocked, hg.inRange, hg.bank16, hg.low⟩

/-- A bus write to the hot-spot page of a good state goes to the cartridge. -/
theorem sys_poke_hot (n : Nat) (w : World) (a v : Nat) (hg : Good n w) (ha : a % 8192 < 64) :
    System.poke w a v = (Cartridge3F.poke w a v).map fun w1 =>
      { w1 with sys := { w1.sys with myDataBusState := v } } := by
  have hp : a % 8192 / 64 = 0 := by omega
  unfold System.poke
  simp only [and_addressMask, shr_pageSize, hp, hg.base.fixed.hot, Cartridge3F.hotspotAccess,
    devicePoke]

/-- A bus read in the first segment of a good state returns the byte of the
current bank. -/
theorem sys_peek_low (E : External) (n : Nat) (w : World) (a : Nat) (hg : Good n w)
    (h1 : 0x1000 ≤ a % 8192) (h2 : a % 8192 < 0x1800) :
    w.cart.myCurrentBank * 2048 + a % 2048 < w.cart.myImage.length ∧
    (System.peek E w a).map Prod.fst =
      w.cart.myImage[w.cart.myCurrentBank * 2048 + a % 2048]? := by
  have hb := hg.inRange
  have hm := hg.base.size_mul
  have hlen := hg.base.rom.length_eq
  have hsz := hg.base.size_eq
  have hlt : w.cart.myCurrentBank * 2048 + a % 2048 < w.cart.myImage.length := by omega
  refine ⟨hlt, ?_⟩
  have hlow := hg.low (a % 8192 / 64) (by omega) (by omega)
  have hoff : w.cart.myCurrentBank * 2048 + 64 * (a % 8192 / 64) % 2048 + a % 64 =
      w.cart.myCurrentBank * 2048 + a % 2048 := by omega
  unfold System.peek
  simp only [and_addressMask, shr_pageSize, hlow, Cartridge3F.bankAccess, and_07FF,
    and_pageMask, Ptr.add, World.read, hoff]
  simp [List.getElem?_eq_getElem hlt]

/-- A bus read in the second segment of an installed cartridge returns the
byte of the last 2K of the image. -/
theorem sys_peek_high (E : External) (w : World) (a : Nat)
    (hhigh : ∀ p, 96 ≤ p → p < 128 →
      w.sys.myPageAccessTable p = Cartridge3F.fixedAccess w.cart.mySize (64 * p))
    (hlen : w.cart.myImage.length = w.cart.mySize) (h32 : w.cart.mySize < 4294967296)
    (hs : 2048 ≤ w.cart.mySize) (h1 : 0x1800 ≤ a % 8192) :
    w.cart.mySize - 2048 + a % 2048 < w.cart.myImage.length ∧
    (System.peek E w a).map Prod.fst = w.cart.myImage[w.cart.mySize - 2048 + a % 2048]? := by
  have hlt : w.cart.mySize - 2048 + a % 2048 < w.cart.myImage.length := by omega
  refine ⟨hlt, ?_⟩
  have hp := hhigh (a % 8192 / 64) (by omega) (by omega)
  have hoff : u32 (u32 (w.cart.mySize + 4294967296 - 2048) + 64 * (a % 8192 / 64) % 2048) +
      a % 64 = w.cart.mySize - 2048 + a % 2048 := by
    unfold u32; omega
  unfold System.peek
  simp only [and_addressMask, shr_pageSize, hp, Cartridge3F.fixedAccess, and_07FF,
    and_pageMask, Ptr.add, World.read, hoff]
  simp [List.getElem?_eq_getElem hlt]

/-- For a ROM of a whole number of banks the chosen bank is the request
modulo the number of banks. -/
theorem chosenBank_eq_mod (n b : Nat) (hmul : n % 2048 = 0) (hb : b < 65536) :
    chosenBank n b = b % (n / 2048) := by
  unfold chosenBank
  rw [Nat.mod_eq_of_lt hb]
  split
  · rw [Nat.mod_eq_of_lt (by omega)]
  · rfl

/-- A request for a bank of the ROM is granted as it is. -/
theorem chosenBank_eq_self (n b : Nat) (hb : b < 65536) (hlt : b * 2048 < n) :
    chosenBank n b = b := by
  unfold chosenBank
  rw [Nat.mod_eq_of_lt hb]
  simp [hlt]

/-- The method `bank` keeps the second segment where it is, locked or not. -/
theorem bank_upper (n : Nat) (img : List Nat) (w : World) (b : Nat) (hu : Upper n img w)
    (hs : 2048 ≤ n) : ∃ w1, Cartridge3F.bank w b = some w1 ∧ Upper n img w1 ∧
      w1.calls = w.calls := by
  cases hl : w.cart.bankLocked with
  | true => exact ⟨w, bank_locked w b hl, hu, rfl⟩
  | false =>
      refine ⟨_, bank_unlocked w b hl (by rw [hu.size_eq]; exact hs), ⟨hu.size_eq, hu.image_eq, ?_⟩,
        rfl⟩
      intro p h1 h2
      have hn : ¬ (64 ≤ p ∧ p < 96) := by omega
      simpa [remapLow, hn] using hu.high p h1 h2

/-- One call of `bank`, `poke` or `reset` keeps the second segment where it
is. -/
theorem step_upper (n : Nat) (img : List Nat) (w : World) (op : Op) (hu : Upper n img w)
    (hs : 2048 ≤ n) (hsw : op.isSwitch = true) :
    ∃ w1, op.run w = some w1 ∧ Upper n img w1 := by
  cases op with
  | reset =>
      obtain ⟨w1, h1, h2, _⟩ := bank_upper n img w 0 hu hs
      exact ⟨w1, h1, h2⟩
  | bank b =>
      obtain ⟨w1, h1, h2, _⟩ := bank_upper n img w b hu hs
      exact ⟨w1, h1, h2⟩
  | poke a v =>
      by_cases h : a % 4096 ≤ 0x3F
      · obtain ⟨w1, h1, h2, _⟩ := bank_upper n img w v hu hs
        exact ⟨{ w1 with calls := w1.calls ++ [Call.poke Device.tia (a % 4096) v] },
          by simp [Op.run, Cartridge3F.poke, and_0FFF, h, h1], ⟨h2.size_eq, h2.image_eq, h2.high⟩⟩
      · exact ⟨{ w with calls := w.calls ++ [Call.poke Device.tia (a % 4096) v] },
          by simp [Op.run, Cartridge3F.poke, and_0FFF, h], ⟨hu.size_eq, hu.image_eq, hu.high⟩⟩
  | peek a => simp [Op.isSwitch] at hsw
  | patch a v => simp [Op.isSwitch] at hsw
  | load inp => simp [Op.isSwitch] at hsw
  | lockBank => simp [Op.isSwitch] at hsw
  | unlockBank => simp [Op.isSwitch] at hsw

/-- A sequence of `bank`, `poke` and `reset` calls keeps the second segment
where it is. -/
theorem runOps_upper (n : Nat) (img : List Nat) (hs : 2048 ≤ n) (ops : List Op) :
    ∀ w : World, Upper n img w → (∀ op ∈ ops, op.isSwitch = true) →
      ∃ w1, runOps w ops = some w1 ∧ Upper n img w1 := by
  induction ops with
  | nil => intro w hu _; exact ⟨w, rfl, hu⟩
  | cons op ops ih =>
      intro w hu hk
      obtain ⟨w1, h1, h2⟩ := step_upper n img w op hu hs (hk op (List.mem_cons_self _ _))
      obtain ⟨w2, h3, h4⟩ := ih w1 h2 (fun o ho => hk o (List.mem_cons_of_mem _ ho))
      exact ⟨w2, by simp [runOps, h1, h3], h4⟩

/-- The install step maps the second segment on the last 2K of the image,
locked or not. -/
theorem install_upper (w0 : World) (hs : 2048 ≤ w0.cart.mySize) :
    ∃ w, Cartridge3F.install w0 = some w ∧ Upper w0.cart.mySize w0.cart.myImage w := by
  rw [install_eq]
  have hu : Upper w0.cart.mySize w0.cart.myImage
      { w0 with sys := installPages w0.sys w0.cart.mySize } := by
    refine ⟨rfl, rfl, ?_⟩
    intro p h1 h2
    have hy : 96 ≤ p ∧ p < 128 := ⟨h1, h2⟩
    simp [installPages, hy]
  obtain ⟨w1, h1, h2, _⟩ := bank_upper _ _ _ 0 hu hs
  exact ⟨w1, h1, h2⟩

/-- A bus write to the cartridge window of a good state goes to the
cartridge. -/
theorem sys_poke_window (n : Nat) (w : World) (a v : Nat) (hg : Good n w)
    (ha : 0x1000 ≤ a % 8192) :
    System.poke w a v = (Cartridge3F.poke w a v).map fun w1 =>
      { w1 with sys := { w1.sys with myDataBusState := v } } := by
  unfold System.poke
  by_cases h : a % 8192 / 64 < 96
  · have hp := hg.low (a % 8192 / 64) (by omega) h
    simp only [and_addressMask, shr_pageSize, hp, Cartridge3F.bankAccess, devicePoke]
  · have hp := hg.base.fixed.high (a % 8192 / 64) (by omega) (by omega)
    simp only [and_addressMask, shr_pageSize, hp, Cartridge3F.fixedAccess, devicePoke]

/-- A bus read of the hot-spot page of a good state is answered by the
cartridge from the current bank. -/
theorem sys_peek_hot (E : External) (n : Nat) (w : World) (a : Nat) (hg : Good n w)
    (ha : a % 8192 < 64) :
    ∃ r, System.peek E w a =
      some (r, { w with sys := { w.sys with myDataBusState := r } }) := by
  have hp : a % 8192 / 64 = 0 := by omega
  have hlt := imageIndex_lt n w a hg
  refine ⟨w.cart.myImage[Cartridge3F.imageIndex w.cart a], ?_⟩
  unfold System.peek
  simp only [and_addressMask, shr_pageSize, hp, hg.base.fixed.hot, Cartridge3F.hotspotAccess,
    devicePeek, Cartridge3F.peek, List.getElem?_eq_getElem hlt, Option.map_some']

/-- The stream `putString` writes for the device name. -/
theorem putString_name :
    Cartridge3F.putString [] Cartridge3F.name =
      [11, 0, 0, 0, 67, 97, 114, 116, 114, 105, 100, 103, 101, 51, 70] := by
  decide

/-- The bytes of the device name. -/
theorem nameBytes_eq :
    Cartridge3F.nameBytes = [67, 97, 114, 116, 114, 105, 100, 103, 101, 51, 70] := by
  decide

/-- Reading back the device name. -/
theorem getString_name (rest : List Nat) :
    Cartridge3F.getString (Cartridge3F.putString [] Cartridge3F.name ++ rest) =
      some (Cartridge3F.nameBytes, rest) := by
  rw [putString_name, nameBytes_eq]
  simp [Cartridge3F.getString, Cartridge3F.getInt]

/-- A bus read that returns leaves the returned byte in the data-bus latch. -/
theorem peek_sets_bus (E : External) (w : World) (a r : Nat) (w1 : World)
    (h : System.peek E w a = some (r, w1)) : w1.sys.myDataBusState = r := by
  unfold System.peek at h
  rw [Option.map_eq_some'] at h
  obtain ⟨⟨r0, w2⟩, _, hb⟩ := h
  have h1 : r0 = r := congrArg Prod.fst hb
  have h2 : w1 = { w2 with sys := { w2.sys with myDataBusState := r0 } } :=
    (congrArg Prod.snd hb).symm
  rw [h2, ← h1]

/-- A bus write that returns leaves the written byte in the data-bus latch. -/
theorem poke_sets_bus (w : World) (a v : Nat) (w1 : World)
    (h : System.poke w a v = some w1) : w1.sys.myDataBusState = v := by
  unfold System.poke at h
  rw [Option.map_eq_some'] at h
  obtain ⟨w2, _, hb⟩ := h
  rw [← hb]

/-- A bus read served by a device other than the cartridge: the device is
called once, with the address as given to the bus. -/
theorem sys_peek_external (E : External) (w : World) (addr : Nat) (d : Device)
    (hb : (w.sys.myPageAccessTable ((addr &&& myAddressMask) >>> myPageSize)).directPeekBase = none)
    (hd : (w.sys.myPageAccessTable ((addr &&& myAddressMask) >>> myPageSize)).device = d)
    (hc : d ≠ Device.cart) :
    ∃ r w1, System.peek E w addr = some (r, w1) ∧ w1.calls = w.calls ++ [Call.peek d addr] := by
  unfold System.peek
  simp only [hb, hd]
  cases d with
  | cart => exact absurd rfl hc
  | tia => exact ⟨_, _, rfl, rfl⟩
  | nullDevice => exact ⟨_, _, rfl, rfl⟩
  | other k => exact ⟨_, _, rfl, rfl⟩

/-- A bus write served by a device other than the cartridge: the device is
called once, with the address as given to the bus. -/
theorem sys_poke_external (w : World) (addr v : Nat) (d : Device)
    (hb : (w.sys.myPageAccessTable ((addr &&& myAddressMask) >>> myPageSize)).directPokeBase = none)
    (hd : (w.sys.myPageAccessTable ((addr &&& myAddressMask) >>> myPageSize)).device = d)
    (hc : d ≠ Device.cart) :
    ∃ w1, System.poke w addr v = some w1 ∧ w1.calls = w.calls ++ [Call.poke d addr v] := by
  unfold System.poke
  simp only [hb, hd]
  cases d with
  | cart => exact absurd rfl hc
  | tia => exact ⟨_, rfl, rfl⟩
  | nullDevice => exact ⟨_, rfl, rfl⟩
  | other k => exact ⟨_, rfl, rfl⟩

/-- Reduction modulo the capacity of a value below twice the capacity. -/
theorem ring_mod (c x : Nat) (hx : x < 2 * c) :
    x % c = if x < c then x else x - c := by
  split
  · exact Nat.mod_eq_of_lt (by assumption)
  · rw [Nat.mod_eq_sub_mod (by omega)]
    exact Nat.mod_eq_of_lt (by omega)

/-- The number of entries read from the ring is the size. -/
theorem entries_length (q : RegWriteQueue) : (entries q).length = q.mySize := by
  simp [entries]

/-- A freshly constructed queue is well formed and empty. -/
theorem create_inv (c : Nat) (h1 : 0 < c) (h2 : c < 4294967296) :
    QInv (RegWriteQueue.create c) ∧ entries (RegWriteQueue.create c) = [] := by
  refine ⟨⟨h1, h2, ?_, h1, Nat.zero_le _, ?_⟩, ?_⟩
  · simp [RegWriteQueue.create]
  · simp [RegWriteQueue.create]
  · simp [entries, RegWriteQueue.create]

/-- The method `clear` on a well-formed queue. -/
theorem clear_inv (q : RegWriteQueue) (h : QInv q) :
    QInv q.clear ∧ entries q.clear = [] ∧ q.clear.myCapacity = q.myCapacity := by
  refine ⟨⟨h.cap_pos, h.cap_lt, h.len, h.cap_pos, Nat.zero_le _, ?_⟩, ?_, rfl⟩
  · simp [RegWriteQueue.clear]
  · simp [entries, RegWriteQueue.clear]

/-- The method `dequeue` on a well-formed queue drops the first entry, and
does nothing when the queue is empty. -/
theorem dequeue_inv (q : RegWriteQueue) (h : QInv q) :
    ∃ q1, q.dequeue = some q1 ∧ QInv q1 ∧ entries q1 = (entries q).tail ∧
      q1.myCapacity = q.myCapacity ∧ q1.mySize = q.mySize - 1 := by
  have hc := h.cap_pos
  have hcl := h.cap_lt
  have hh := h.head_lt
  have hs := h.size_le
  have ht := h.tail_eq
  by_cases hz : q.mySize > 0
  · have hne : ¬ (q.myCapacity = 0) := by omega
    have hu : u32 (q.myHead + 1) = q.myHead + 1 := by unfold u32; omega
    have hm1 := ring_mod q.myCapacity (q.myHead + 1) (by omega)
    have hm2 := ring_mod q.myCapacity (q.myHead + q.mySize) (by omega)
    refine ⟨{ q with myHead := u32 (q.myHead + 1) % q.myCapacity, mySize := q.mySize - 1 },
      ?_, ⟨hc, hcl, h.len, ?_, ?_, ?_⟩, ?_, rfl, rfl⟩
    · simp only [RegWriteQueue.dequeue, hz, hne, if_true, if_false]
    · show u32 (q.myHead + 1) % q.myCapacity < q.myCapacity
      exact Nat.mod_lt _ hc
    · show q.mySize - 1 ≤ q.myCapacity
      omega
    · show q.myTail = (u32 (q.myHead + 1) % q.myCapacity + (q.mySize - 1)) % q.myCapacity
      rw [hu, Nat.mod_add_mod, ht]
      congr 1
      omega
    · obtain ⟨n, hn⟩ : ∃ n, q.mySize = n + 1 := ⟨q.mySize - 1, by omega⟩
      simp only [entries, hn, Nat.add_sub_cancel, List.range_succ_eq_map, List.map_cons,
        List.tail_cons, List.map_map, hu]
      apply List.map_congr_left
      intro i _
      simp only [Function.comp, Nat.mod_add_mod]
      congr 2
      omega
  · have hz0 : q.mySize = 0 := by omega
    refine ⟨q, ?_, h, ?_, rfl, by omega⟩
    · simp only [RegWriteQueue.dequeue, hz, if_false]
    · simp [entries, hz0]

/-- Reading back the entry just stored. -/
theorem getD_set_self (l : List RegWrite) (i : Nat) (a d : RegWrite) (h : i < l.length) :
    (l.set i a).getD i d = a := by
  rw [List.getD_eq_getElem?_getD, List.getElem?_set_self h]
  rfl

/-- Reading another entry than the one just stored. -/
theorem getD_set_ne (l : List RegWrite) (i j : Nat) (a d : RegWrite) (h : i ≠ j) :
    (l.set i a).getD j d = l.getD j d := by
  rw [List.getD_eq_getElem?_getD, List.getElem?_set_ne h, List.getD_eq_getElem?_getD]

/-- An in-bounds array read. -/
theorem getElem?_eq_some_getD (l : List RegWrite) (i : Nat) (d : RegWrite) (h : i < l.length) :
    l[i]? = some (l.getD i d) := by
  rw [List.getD_eq_getElem?_getD, List.getElem?_eq_getElem h]
  rfl

/-- The method `enqueue` on a well-formed queue with room left appends the
entry. -/
theorem enqueue_room (q : RegWriteQueue) (x : RegWrite) (h : QInv q)
    (hroom : q.mySize < q.myCapacity) :
    ∃ q1, q.enqueue x = some q1 ∧ QInv q1 ∧ entries q1 = entries q ++ [x] ∧
      q1.myCapacity = q.myCapacity := by
  have hc := h.cap_pos
  have hcl := h.cap_lt
  have hh := h.head_lt
  have ht := h.tail_eq
  have hlen := h.len
  have hne : ¬ (q.mySize = q.myCapacity) := by omega
  have hne0 : ¬ (q.myCapacity = 0) := by omega
  have htl : q.myTail < q.myBuffer.length := by
    rw [ht, hlen]
    exact Nat.mod_lt _ hc
  have hu1 : u32 (q.myTail + 1) = q.myTail + 1 := by unfold u32; omega
  have hu2 : u32 (q.mySize + 1) = q.mySize + 1 := by unfold u32; omega
  refine ⟨{ q with
      myBuffer := q.myBuffer.set q.myTail x
      myTail := u32 (q.myTail + 1) % q.myCapacity
      mySize := u32 (q.mySize + 1) }, ?_, ⟨hc, hcl, ?_, hh, ?_, ?_⟩, ?_, rfl⟩
  · simp only [RegWriteQueue.enqueue, hne, if_false, Option.some_bind, htl, if_true, hne0]
  · simpa using hlen
  · show u32 (q.mySize + 1) ≤ q.myCapacity
    omega
  · show u32 (q.myTail + 1) % q.myCapacity = (q.myHead + u32 (q.mySize + 1)) % q.myCapacity
    rw [hu1, hu2, ht, Nat.mod_add_mod]
    rfl
  · simp only [entries, hu2, List.range_succ, List.map_append, List.map_cons, List.map_nil]
    congr 1
    · apply List.map_congr_left
      intro i hi
      have hi2 : i < q.mySize := List.mem_range.mp hi
      apply getD_set_ne
      rw [ht]
      have m1 := ring_mod q.myCapacity (q.myHead + q.mySize) (by omega)
      have m2 := ring_mod q.myCapacity (q.myHead + i) (by omega)
      rw [m1, m2]
      split <;> split <;> omega
    · rw [← ht, getD_set_self _ _ _ _ htl]

/-- The copy loop of `grow` on a well-formed queue: it ends, and the new
buffer holds the entries of the ring from index `i` on. -/
theorem growLoop_spec (q : RegWriteQueue) (h : QInv q)
    (h2 : 2 * q.myCapacity ≤ 4294967296) :
    ∀ (fuel i : Nat) (buffer : List RegWrite), i ≤ q.mySize → q.mySize - i < fuel →
      q.mySize ≤ buffer.length →
      ∃ b, RegWriteQueue.growLoop q fuel i buffer = some b ∧ b.length = buffer.length ∧
        ∀ j, b.getD j RegWrite.blank =
          if i ≤ j ∧ j < q.mySize then
            q.myBuffer.getD ((q.myHead + j) % q.myCapacity) RegWrite.blank
          else buffer.getD j RegWrite.blank := by
  have hc := h.cap_pos
  have hh := h.head_lt
  have hs := h.size_le
  intro fuel
  induction fuel with
  | zero => intro i buffer _ hf _; omega
  | succ n ih =>
      intro i buffer hi hf hb
      unfold RegWriteQueue.growLoop
      by_cases hlt : i < q.mySize
      · have hne0 : ¬ (q.myCapacity = 0) := by omega
        have hu : u32 (q.myHead + i) = q.myHead + i := by unfold u32; omega
        have hu1 : u32 (i + 1) = i + 1 := by unfold u32; omega
        have hidx : (q.myHead + i) % q.myCapacity < q.myBuffer.length := by
          rw [h.len]
          exact Nat.mod_lt _ hc
        have hib : i < buffer.length := by omega
        obtain ⟨b, hb1, hb2, hb3⟩ := ih (i + 1)
          (buffer.set i (q.myBuffer.getD ((q.myHead + i) % q.myCapacity) RegWrite.blank))
          (by omega) (by omega) (by simpa using hb)
        refine ⟨b, ?_, by simpa using hb2, ?_⟩
        · simp only [hlt, if_true, hne0, if_false, hu, hu1,
            getElem?_eq_some_getD _ _ RegWrite.blank hidx, hib]
          exact hb1
        · intro j
          rw [hb3 j]
          by_cases hj : j = i
          · subst hj
            have e1 : ¬ (j + 1 ≤ j ∧ j < q.mySize) := by omega
            have e2 : j ≤ j ∧ j < q.mySize := ⟨Nat.le_refl _, hlt⟩
            rw [if_neg e1, if_pos e2, getD_set_self _ _ _ _ hib]
          · by_cases hr : i + 1 ≤ j ∧ j < q.mySize
            · have e2 : i ≤ j ∧ j < q.mySize := by omega
              rw [if_pos hr, if_pos e2]
            · have e2 : ¬ (i ≤ j ∧ j < q.mySize) := by omega
              rw [if_neg hr, if_neg e2, getD_set_ne _ _ _ _ _ (Ne.symm hj)]
      · refine ⟨buffer, ?_, rfl, ?_⟩
        · simp only [hlt, if_false]
        · intro j
          have e2 : ¬ (i ≤ j ∧ j < q.mySize) := by omega
          rw [if_neg e2]

/-- The method `grow` on a full, well-formed queue whose capacity can double:
the capacity doubles and the entries stay. -/
theorem grow_inv (q : RegWriteQueue) (h : QInv q) (hfull : q.mySize = q.myCapacity)
    (h2 : 2 * q.myCapacity < 4294967296) :
    ∃ q1, q.grow = some q1 ∧ QInv q1 ∧ entries q1 = entries q ∧
      q1.myCapacity = q.myCapacity * 2 ∧ q1.mySize = q.mySize := by
  have hc := h.cap_pos
  have hu : u32 (q.myCapacity * 2) = q.myCapacity * 2 := by unfold u32; omega
  obtain ⟨b, hb1, hb2, hb3⟩ := growLoop_spec q h (by omega) (q.mySize + 1) 0
    (List.replicate (u32 (q.myCapacity * 2)) RegWrite.blank) (Nat.zero_le _) (by omega)
    (by rw [List.length_replicate, hu]; omega)
  rw [List.length_replicate, hu] at hb2
  refine ⟨⟨u32 (q.myCapacity * 2), b, q.mySize, 0, q.mySize⟩, ?_, ⟨?_, ?_, ?_, ?_, ?_, ?_⟩, ?_,
    hu, rfl⟩
  · simp only [RegWriteQueue.grow, hb1, Option.map_some']
  · show 0 < u32 (q.myCapacity * 2)
    omega
  · show u32 (q.myCapacity * 2) < 4294967296
    omega
  · show b.length = u32 (q.myCapacity * 2)
    omega
  · show 0 < u32 (q.myCapacity * 2)
    omega
  · show q.mySize ≤ u32 (q.myCapacity * 2)
    omega
  · show q.mySize = (0 + q.mySize) % u32 (q.myCapacity * 2)
    rw [hu, Nat.zero_add, Nat.mod_eq_of_lt (by omega)]
  · simp only [entries, hu]
    apply List.map_congr_left
    intro i hi
    have hi2 : i < q.mySize := List.mem_range.mp hi
    have e : (0 + i) % (q.myCapacity * 2) = i := by
      rw [Nat.zero_add, Nat.mod_eq_of_lt (by omega)]
    have e2 : 0 ≤ i ∧ i < q.mySize := ⟨Nat.zero_le _, hi2⟩
    rw [e, hb3 i, if_pos e2]

/-- The method `enqueue` on a well-formed queue that has room or can double
its capacity appends the entry; the capacity stays or doubles. -/
theorem enqueue_inv (q : RegWriteQueue) (x : RegWrite) (h : QInv q)
    (hok : q.mySize < q.myCapacity ∨ 2 * q.myCapacity < 4294967296) :
    ∃ q1 k, q.enqueue x = some q1 ∧ QInv q1 ∧ entries q1 = entries q ++ [x] ∧
      q1.myCapacity = q.myCapacity * 2 ^ k := by
  by_cases hfull : q.mySize = q.myCapacity
  · have h2 : 2 * q.myCapacity < 4294967296 := by
      rcases hok with h1 | h1
      · omega
      · exact h1
    obtain ⟨q2, hg1, hg2, hg3, hg4, hg5⟩ := grow_inv q h hfull h2
    have hc := h.cap_pos
    have hroom : q2.mySize < q2.myCapacity := by omega
    obtain ⟨q1, he1, he2, he3, he4⟩ := enqueue_room q2 x hg2 hroom
    refine ⟨q1, 1, ?_, he2, by rw [he3, hg3], by rw [he4, hg4, pow_one]⟩
    have hne : ¬ (q2.mySize = q2.myCapacity) := by omega
    rw [← he1]
    simp only [RegWriteQueue.enqueue, hfull, if_true, hg1, Option.some_bind, hne, if_false]
  · have hroom : q.mySize < q.myCapacity := by
      have := h.size_le
      omega
    obtain ⟨q1, he1, he2, he3, he4⟩ := enqueue_room q x h hroom
    exact ⟨q1, 0, he1, he2, he3, by rw [he4, pow_zero, Nat.mul_one]⟩

/-- A sequence of queue calls with at most `2^31` entries ever enqueued: the
run is defined, the queue stays well formed, its entries are those of the
unbounded FIFO list, and the capacity is the initial one times a power
of two. -/
theorem runQ_refines (ops : List QOp) :
    ∀ (q : RegWriteQueue) (m : Nat), QInv q → q.mySize ≤ m →
      m + enqueueCount ops ≤ 2147483648 →
      ∃ q1 k, runQ q ops = some q1 ∧ QInv q1 ∧ entries q1 = idealFifo (entries q) ops ∧
        q1.myCapacity = q.myCapacity * 2 ^ k := by
  induction ops with
  | nil =>
      intro q m h _ _
      exact ⟨q, 0, rfl, h, rfl, by rw [pow_zero, Nat.mul_one]⟩
  | cons op ops ih =>
      intro q m h hm hn
      cases op with
      | enqueue x =>
          have hn1 : m + (enqueueCount ops + 1) ≤ 2147483648 := hn
          have hs := h.size_le
          obtain ⟨q1, k1, e1, e2, e3, e4⟩ := enqueue_inv q x h (by omega)
          have hsz : q1.mySize ≤ m + 1 := by
            have := congrArg List.length e3
            rw [entries_length, List.length_append, entries_length] at this
            simp only [List.length_singleton] at this
            omega
          obtain ⟨q2, k2, f1, f2, f3, f4⟩ := ih q1 (m + 1) e2 hsz (by omega)
          refine ⟨q2, k1 + k2, ?_, f2, ?_, ?_⟩
          · simp only [runQ, QOp.run, e1, Option.some_bind, f1]
          · rw [f3, e3]
            rfl
          · rw [f4, e4, pow_add, Nat.mul_assoc]
      | dequeue =>
          have hn1 : m + enqueueCount ops ≤ 2147483648 := hn
          obtain ⟨q1, e1, e2, e3, e4, e5⟩ := dequeue_inv q h
          obtain ⟨q2, k2, f1, f2, f3, f4⟩ := ih q1 m e2 (by omega) hn1
          refine ⟨q2, k2, ?_, f2, ?_, ?_⟩
          · simp only [runQ, QOp.run, e1, Option.some_bind, f1]
          · rw [f3, e3]
            rfl
          · rw [f4, e4]
      | clear =>
          have hn1 : m + enqueueCount ops ≤ 2147483648 := hn
          obtain ⟨e2, e3, e4⟩ := clear_inv q h
          obtain ⟨q2, k2, f1, f2, f3, f4⟩ := ih q.clear m e2 (Nat.zero_le _) hn1
          refine ⟨q2, k2, ?_, f2, ?_, ?_⟩
          · simp only [runQ, QOp.run, Option.some_bind, f1]
          · rw [f3, e3]
            rfl
          · rw [f4, e4]

/-- Observing a well-formed queue head-first, `front()` then `dequeue()` as
many times as its size, yields its entries in order. -/
theorem drain_entries :
    ∀ (n : Nat) (q : RegWriteQueue), QInv q → q.mySize = n → drain n q = some (entries q) := by
  intro n
  induction n with
  | zero =>
      intro q _ hz
      simp [drain, entries, hz]
  | succ n ih =>
      intro q h hz
      have hc := h.cap_pos
      have hhl : q.myHead < q.myBuffer.length := by rw [h.len]; exact h.head_lt
      have hne : q.mySize ≠ 0 := by omega
      obtain ⟨q1, e1, e2, e3, _, e5⟩ := dequeue_inv q h
      have hfront : q.front = some (q.myBuffer.getD q.myHead RegWrite.blank) := by
        simp only [RegWriteQueue.front, hne, ne_eq, not_false_eq_true, if_true]
        exact getElem?_eq_some_getD _ _ _ hhl
      have hent : entries q = q.myBuffer.getD q.myHead RegWrite.blank :: entries q1 := by
        rw [e3]
        simp only [entries, hz, List.range_succ_eq_map, List.map_cons, List.tail_cons,
          Nat.add_zero, Nat.mod_eq_of_lt h.head_lt]
      simp only [drain, hfront, e1, ih q1 e2 (by omega), Option.map_some', hent]

/-- Carrying out two sequences of queue calls one after the other. -/
theorem runQ_append (ops1 ops2 : List QOp) :
    ∀ q : RegWriteQueue, runQ q (ops1 ++ ops2) = (runQ q ops1).bind fun q1 => runQ q1 ops2 := by
  induction ops1 with
  | nil => intro q; rfl
  | cons op ops ih =>
      intro q
      simp only [List.cons_append, runQ]
      cases op.run q with
      | none => rfl
      | some q1 => exact ih q1

/-- The length of the unbounded FIFO list after `n` calls of `enqueue`. -/
theorem idealFifo_replicate_length (x : RegWrite) (n : Nat) :
    ∀ l : List RegWrite,
      (idealFifo l (List.replicate n (QOp.enqueue x))).length = l.length + n := by
  induction n with
  | zero => intro l; rfl
  | succ n ih =>
      intro l
      simp only [List.replicate_succ, idealFifo, QOp.ideal, ih, List.length_append,
        List.length_singleton]
      omega

/-- The number of `enqueue` calls in `n` calls of `enqueue`. -/
theorem enqueueCount_replicate (x : RegWrite) (n : Nat) :
    enqueueCount (List.replicate n (QOp.enqueue x)) = n := by
  induction n with
  | zero => rfl
  | succ n ih => simp only [List.replicate_succ, enqueueCount, ih]

/-- The cast to `uint32_t` of a value in range is its floor. -/
theorem toU32_eq (x : ℚ) (h0 : 0 ≤ x) (h1 : x < 4294967296) : toU32 x = some ⌊x⌋₊ := by
  have hfl : (0 : Int) ≤ ⌊x⌋ := Int.floor_nonneg.mpr h0
  have hlt : ⌊x⌋ < 4294967296 := by
    rw [Int.floor_lt]
    exact_mod_cast h1
  simp only [toU32, h0, if_true, hfl, hlt, and_self, Int.floor_toNat]

/-- The floor of a value in range is in range. -/
theorem floor_lt_u32 (x : ℚ) (h0 : 0 ≤ x) (h1 : x < 4294967296) : ⌊x⌋₊ < 4294967296 := by
  rw [Nat.floor_lt h0]
  exact_mod_cast h1

/-- The difference of two `uint32_t` values when it does not wrap. -/
theorem u32sub_eq (a b : Nat) (h : b ≤ a) (ha : a < 4294967296) : u32sub a b = a - b := by
  unfold u32sub
  omega

/-- The sample count of a segment: the floor of the new position minus the
floor of the old one. -/
theorem segmentCount_eq (position samples : ℚ) (hp : 0 ≤ position) (hs : 0 ≤ samples)
    (hlt : position + samples < 4294967296) :
    SoundSDL.segmentCount position samples = some (⌊position + samples⌋₊ - ⌊position⌋₊) := by
  have h1 : samples < 4294967296 := by linarith
  have h2 : position < 4294967296 := by linarith
  have ha := floor_lt_u32 samples hs h1
  have hb := floor_lt_u32 (position + samples) (by linarith) hlt
  have hc := floor_lt_u32 position hp h2
  have hcb : ⌊position⌋₊ ≤ ⌊position + samples⌋₊ := Nat.floor_mono (by linarith)
  have e : u32sub (u32 (⌊samples⌋₊ + ⌊position + samples⌋₊)) (u32 (⌊position⌋₊ + ⌊samples⌋₊)) =
      ⌊position + samples⌋₊ - ⌊position⌋₊ := by
    unfold u32sub u32
    omega
  simp only [SoundSDL.segmentCount, toU32_eq samples hs h1,
    toU32_eq (position + samples) (by linarith) hlt, toU32_eq position hp h2,
    Option.bind_eq_bind, Option.some_bind, Option.pure_def, e]

/-- The `process` call of a segment. -/
theorem segmentCall_eq (channels : Nat) (position samples : ℚ) (hp : 0 ≤ position)
    (hs : 0 ≤ samples) (hlt : position + samples < 4294967296) :
    SoundSDL.segmentCall channels position samples =
      some (SndCall.process (u32 (⌊position⌋₊ * channels))
        (⌊position + samples⌋₊ - ⌊position⌋₊)) := by
  have h2 : position < 4294967296 := by linarith
  simp only [SoundSDL.segmentCall, toU32_eq position hp h2, segmentCount_eq position samples hp hs hlt,
    Option.bind_eq_bind, Option.some_bind, Option.pure_def]

/-- The `process` call that fills the rest of the fragment. -/
theorem fillCall_eq (channels length : Nat) (position : ℚ) (hp : 0 ≤ position)
    (hle : position ≤ length) (hlen : length < 4294967296) :
    SoundSDL.fillCall channels length position =
      some (SndCall.process (u32 (⌊position⌋₊ * channels)) (length - ⌊position⌋₊)) := by
  have h2 : position < 4294967296 := by
    have : (length : ℚ) < 4294967296 := by exact_mod_cast hlen
    linarith
  have hfl : ⌊position⌋₊ ≤ length := by
    have := Nat.floor_mono hle
    rwa [Nat.floor_natCast] at this
  simp only [SoundSDL.fillCall, toU32_eq position hp h2, Option.bind_eq_bind, Option.some_bind,
    Option.pure_def, u32sub_eq length _ hfl hlen]

theorem samplesOf_nil : samplesOf [] = 0 := rfl

theorem pairsOf_cons (e : RegWrite) (es : List RegWrite) :
    pairsOf (e :: es) = (e.addr, e.value) :: pairsOf es := rfl

theorem writesOf_nil : writesOf [] = [] := rfl

theorem samplesOf_cons (c : SndCall) (cs : List SndCall) :
    samplesOf (c :: cs) = c.samples + samplesOf cs := by
  simp [samplesOf]

theorem samplesOf_append (a b : List SndCall) :
    samplesOf (a ++ b) = samplesOf a + samplesOf b := by
  simp [samplesOf]

theorem writesOf_append (a b : List SndCall) :
    writesOf (a ++ b) = writesOf a ++ writesOf b := by
  simp [writesOf]

theorem writesOf_set_cons (addr value : Nat) (cs : List SndCall) :
    writesOf (SndCall.set addr value :: cs) = (addr, value) :: writesOf cs := by
  simp [writesOf, SndCall.write]

theorem writesOf_process_cons (o n : Nat) (cs : List SndCall) :
    writesOf (SndCall.process o n :: cs) = writesOf cs := by
  simp [writesOf, SndCall.write]

/-- The main loop on a list of entries, started with `position + remaining`
equal to the fragment length: it is defined, the samples asked for add up to
what is left of the fragment, and the writes applied followed by the writes
left are the writes of the list. -/
theorem fragList_total (freq channels length : Nat) (hf : 0 < freq)
    (hlen : length < 4294967296) :
    ∀ (es : List RegWrite) (position remaining : ℚ), 0 ≤ position → 0 ≤ remaining →
      position + remaining = length →
      ∃ calls rest rst,
        fragList freq channels length es position remaining = some (calls, rest, rst) ∧
        samplesOf calls + ⌊position⌋₊ = length ∧
        writesOf calls ++ pairsOf rest = pairsOf es ∧ rest.length ≤ es.length := by
  have hfq : (0 : ℚ) < (freq : ℚ) := by exact_mod_cast hf
  have hfne : ¬ (freq = 0) := by omega
  have hfill : ∀ position remaining : ℚ, 0 ≤ position → 0 ≤ remaining →
      position + remaining = length →
      SoundSDL.fillCall channels length position =
        some (SndCall.process (u32 (⌊position⌋₊ * channels)) (length - ⌊position⌋₊)) ∧
      ⌊position⌋₊ ≤ length := by
    intro position remaining hp hr hsum
    have hle : position ≤ length := by linarith
    refine ⟨fillCall_eq channels length position hp hle hlen, ?_⟩
    have := Nat.floor_mono hle
    rwa [Nat.floor_natCast] at this
  have hend : ∀ position remaining : ℚ, 0 ≤ remaining → ¬ (remaining > 0) →
      position + remaining = length → ⌊position⌋₊ = length := by
    intro position remaining hr hn hsum
    have h0 : remaining = 0 := le_antisymm (not_lt.mp hn) hr
    have : position = length := by linarith
    rw [this, Nat.floor_natCast]
  intro es
  induction es with
  | nil =>
      intro position remaining hp hr hsum
      by_cases hrem : remaining > 0
      · obtain ⟨hfc, hfl⟩ := hfill position remaining hp hr hsum
        refine ⟨[SndCall.process (u32 (⌊position⌋₊ * channels)) (length - ⌊position⌋₊)], [],
          true, ?_, ?_, ?_, Nat.le_refl _⟩
        · simp only [fragList, hrem, if_true, hfc, Option.map_some']
        · simp only [samplesOf_cons, SndCall.samples, samplesOf_nil]
          omega
        · simp only [writesOf_process_cons, writesOf_nil, List.nil_append]
      · refine ⟨[], [], false, ?_, ?_, rfl, Nat.le_refl _⟩
        · simp only [fragList, hrem, if_false]
        · simp only [samplesOf_nil, Nat.zero_add]
          exact hend position remaining hr hrem hsum
  | cons e es ih =>
      intro position remaining hp hr hsum
      by_cases hrem : remaining > 0
      · by_cases hd : e.delta ≤ remaining / (freq : ℚ)
        · by_cases hpos : e.delta > 0
          · have hs0 : 0 ≤ (freq : ℚ) * e.delta := mul_nonneg hfq.le hpos.le
            have hsle : (freq : ℚ) * e.delta ≤ remaining := by
              have := (le_div_iff₀ hfq).mp hd
              linarith
            have hlt : position + (freq : ℚ) * e.delta < 4294967296 := by
              have : (length : ℚ) < 4294967296 := by exact_mod_cast hlen
              linarith
            obtain ⟨calls, rest, rst, h1, h2, h3, h4⟩ :=
              ih (position + (freq : ℚ) * e.delta) (remaining - (freq : ℚ) * e.delta)
                (by linarith) (by linarith) (by linarith)
            have hmono : ⌊position⌋₊ ≤ ⌊position + (freq : ℚ) * e.delta⌋₊ :=
              Nat.floor_mono (by linarith)
            refine ⟨SndCall.process (u32 (⌊position⌋₊ * channels))
                (⌊position + (freq : ℚ) * e.delta⌋₊ - ⌊position⌋₊) ::
              SndCall.set e.addr e.value :: calls, rest, rst, ?_, ?_, ?_, ?_⟩
            · simp only [fragList, hrem, if_true, hfne, if_false, hd, hpos,
                segmentCall_eq channels position _ hp hs0 hlt, Option.some_bind, h1,
                Option.map_some']
            · simp only [samplesOf_cons, SndCall.samples]
              omega
            · simp only [writesOf_process_cons, writesOf_set_cons, List.cons_append, pairsOf_cons,
                h3]
            · simp only [List.length_cons]
              omega
          · obtain ⟨calls, rest, rst, h1, h2, h3, h4⟩ := ih position remaining hp hr hsum
            refine ⟨SndCall.set e.addr e.value :: calls, rest, rst, ?_, ?_, ?_, ?_⟩
            · simp only [fragList, hrem, if_true, hfne, if_false, hd, hpos, h1, Option.map_some']
            · simp only [samplesOf_cons, SndCall.samples]
              omega
            · simp only [writesOf_set_cons, List.cons_append, pairsOf_cons, h3]
            · simp only [List.length_cons]
              omega
        · obtain ⟨hfc, hfl⟩ := hfill position remaining hp hr hsum
          refine ⟨[SndCall.process (u32 (⌊position⌋₊ * channels)) (length - ⌊position⌋₊)],
            { e with delta := e.delta - remaining / (freq : ℚ) } :: es, false, ?_, ?_, ?_, ?_⟩
          · simp only [fragList, hrem, if_true, hfne, if_false, hd, hfc, Option.map_some']
          · simp only [samplesOf_cons, SndCall.samples, samplesOf_nil]
            omega
          · simp only [writesOf_process_cons, writesOf_nil, List.nil_append, pairsOf_cons]
          · simp only [List.length_cons, Nat.le_refl]
      · refine ⟨[], e :: es, false, ?_, ?_, rfl, Nat.le_refl _⟩
        · simp only [fragList, hrem, if_false]
        · simp only [samplesOf_nil, Nat.zero_add]
          exact hend position remaining hr hrem hsum

/-- The first entry of a non-empty, well-formed queue: `front` returns it and
`dequeue` leaves the other entries. -/
theorem front_entries (q : RegWriteQueue) (h : QInv q) (hne : q.mySize ≠ 0) :
    ∃ e es q1, q.front = some e ∧ q.myBuffer[q.myHead]? = some e ∧ q.dequeue = some q1 ∧
      entries q = e :: es ∧ entries q1 = es ∧ QInv q1 ∧ q1.myCapacity = q.myCapacity ∧
      q1.mySize + 1 = q.mySize := by
  have hhl : q.myHead < q.myBuffer.length := by rw [h.len]; exact h.head_lt
  obtain ⟨q1, e1, e2, e3, e4, e5⟩ := dequeue_inv q h
  obtain ⟨n, hn⟩ : ∃ n, q.mySize = n + 1 := ⟨q.mySize - 1, by omega⟩
  have hread : q.myBuffer[q.myHead]? = some (q.myBuffer.getD q.myHead RegWrite.blank) :=
    getElem?_eq_some_getD _ _ _ hhl
  refine ⟨q.myBuffer.getD q.myHead RegWrite.blank, (entries q).tail, q1, ?_, hread, e1, ?_, e3,
    e2, e4, by omega⟩
  · simp only [RegWriteQueue.front, hne, ne_eq, not_false_eq_true, if_true]
    exact hread
  · simp only [entries, hn, List.range_succ_eq_map, List.map_cons, List.tail_cons,
      Nat.add_zero, Nat.mod_eq_of_lt h.head_lt]

/-- Overwriting the first entry of a non-empty, well-formed queue in place. -/
theorem setFront_entries (q : RegWriteQueue) (h : QInv q) (e e1 : RegWrite)
    (es : List RegWrite) (hent : entries q = e :: es) :
    QInv { q with myBuffer := q.myBuffer.set q.myHead e1 } ∧
    entries { q with myBuffer := q.myBuffer.set q.myHead e1 } = e1 :: es := by
  have hc := h.cap_pos
  have hh := h.head_lt
  have hs := h.size_le
  have hhl : q.myHead < q.myBuffer.length := by rw [h.len]; exact h.head_lt
  have hsz : q.mySize = es.length + 1 := by
    have := congrArg List.length hent
    rw [entries_length] at this
    simpa using this
  refine ⟨⟨h.cap_pos, h.cap_lt, by simpa using h.len, h.head_lt, h.size_le, h.tail_eq⟩, ?_⟩
  simp only [entries, hsz, List.range_succ_eq_map, List.map_cons, List.map_map, Nat.add_zero,
    Nat.mod_eq_of_lt hh] at hent ⊢
  rw [getD_set_self _ _ _ _ hhl]
  congr 1
  refine Eq.trans ?_ (List.cons.inj hent).2
  apply List.map_congr_left
  intro i hi
  have hi2 : i < es.length := List.mem_range.mp hi
  simp only [Function.comp]
  apply getD_set_ne
  have m := ring_mod q.myCapacity (q.myHead + (i + 1)) (by omega)
  have e2 : q.myHead + i.succ = q.myHead + (i + 1) := rfl
  rw [e2, m]
  split <;> omega

/-- The method `duration` on a well-formed queue of capacity at most `2^31`
adds up the delays of the entries. -/
theorem durationLoop_spec (q : RegWriteQueue) (h : QInv q)
    (hcap : q.myCapacity ≤ 2147483648) :
    ∀ (fuel i : Nat) (acc : ℚ), i ≤ q.mySize → q.mySize - i < fuel →
      RegWriteQueue.durationLoop q fuel i acc =
        some (acc + totalDelta ((entries q).drop i)) := by
  have hc := h.cap_pos
  have hh := h.head_lt
  have hs := h.size_le
  intro fuel
  induction fuel with
  | zero => intro i acc _ hf; omega
  | succ n ih =>
      intro i acc hi hf
      unfold RegWriteQueue.durationLoop
      by_cases hlt : i < q.mySize
      · have hne0 : ¬ (q.myCapacity = 0) := by omega
        have hu : u32 (q.myHead + i) = q.myHead + i := by unfold u32; omega
        have hu1 : u32 (i + 1) = i + 1 := by unfold u32; omega
        have hidx : (q.myHead + i) % q.myCapacity < q.myBuffer.length := by
          rw [h.len]
          exact Nat.mod_lt _ hc
        have hil : i < (entries q).length := by rw [entries_length]; exact hlt
        have hget : (entries q)[i] =
            q.myBuffer.getD ((q.myHead + i) % q.myCapacity) RegWrite.blank := by
          simp [entries]
        have hdrop : totalDelta ((entries q).drop i) =
            (q.myBuffer.getD ((q.myHead + i) % q.myCapacity) RegWrite.blank).delta +
              totalDelta ((entries q).drop (i + 1)) := by
          rw [List.drop_eq_getElem_cons hil, hget]
          simp [totalDelta]
        simp only [hlt, if_true, hne0, if_false, hu, hu1,
          getElem?_eq_some_getD _ _ RegWrite.blank hidx]
        rw [ih (i + 1) _ (by omega) (by omega), hdrop, add_assoc]
      · have hz : (entries q).drop i = [] := by
          apply List.drop_eq_nil_of_le
          rw [entries_length]
          omega
        simp only [hlt, if_false, hz, totalDelta, List.map_nil, List.sum_nil, add_zero]

/-- The method `duration` on a well-formed queue of capacity at most `2^31`. -/
theorem duration_eq (q : RegWriteQueue) (h : QInv q) (hcap : q.myCapacity ≤ 2147483648) :
    q.duration = some (totalDelta (entries q)) := by
  unfold RegWriteQueue.duration
  rw [durationLoop_spec q h hcap (q.mySize + 1) 0 0 (Nat.zero_le _) (by omega)]
  simp

/-- The entries of a queue without elements. -/
theorem entries_nil_of_size (q : RegWriteQueue) (hz : q.mySize = 0) : entries q = [] := by
  apply List.length_eq_zero.mp
  rw [entries_length]
  exact hz

/-- The loop that removes excess entries does to the ring what `drainList`
does to the list of its entries. -/
theorem drainLoop_refines (limit : ℚ) :
    ∀ (fuel : Nat) (s : SoundSDL) (removed : ℚ) (calls : List SndCall) (rest : List RegWrite),
      QInv s.myRegWriteQueue → s.myRegWriteQueue.mySize < fuel →
      drainList limit (entries s.myRegWriteQueue) removed = some (calls, rest) →
      ∃ q1, QInv q1 ∧ entries q1 = rest ∧
        q1.myCapacity = s.myRegWriteQueue.myCapacity ∧
        SoundSDL.drainLoop limit fuel s removed =
          some { s with myTIASound := s.myTIASound ++ calls, myRegWriteQueue := q1 } := by
  intro fuel
  induction fuel with
  | zero => intro s _ _ _ _ hf; omega
  | succ n ih =>
      intro s removed calls rest hq hf hl
      unfold SoundSDL.drainLoop
      by_cases hlt : removed < limit
      · by_cases hz : s.myRegWriteQueue.mySize = 0
        · rw [entries_nil_of_size _ hz] at hl
          simp [drainList, hlt] at hl
        · obtain ⟨e, es, q1, h1, _, h3, h4, h5, h6, h7, h8⟩ := front_entries _ hq hz
          rw [h4] at hl
          simp only [drainList, hlt, if_true, Option.map_eq_some'] at hl
          obtain ⟨⟨c1, r1⟩, hr, hc⟩ := hl
          simp only [Prod.mk.injEq] at hc
          obtain ⟨hc1, hc2⟩ := hc
          subst hc1 hc2
          obtain ⟨q2, i1, i2, i3, i4⟩ := ih
            { s with
              myTIASound := s.myTIASound ++ [SndCall.set e.addr e.value]
              myRegWriteQueue := q1 }
            (removed + e.delta) c1 r1 h6 (show q1.mySize < n by omega)
            (show drainList limit (entries q1) (removed + e.delta) = some (c1, r1) by
              rw [h5]; exact hr)
          refine ⟨q2, i1, i2, by rw [i3]; exact h7, ?_⟩
          simp only [hlt, if_true, h1, h3, i4, List.append_assoc, List.singleton_append]
      · have hx : drainList limit (entries s.myRegWriteQueue) removed =
            some ([], entries s.myRegWriteQueue) := by
          cases entries s.myRegWriteQueue <;> simp [drainList, hlt]
        rw [hx] at hl
        simp only [Option.some.injEq, Prod.mk.injEq] at hl
        obtain ⟨h1, h2⟩ := hl
        subst h1
        refine ⟨s.myRegWriteQueue, hq, h2, rfl, ?_⟩
        simp [hlt]

/-- The loop that removes excess entries ends when the total delay of the
entries reaches the limit; it asks for no samples and applies the writes it
removes in order. -/
theorem drainList_total (limit : ℚ) :
    ∀ (es : List RegWrite) (removed : ℚ), limit ≤ removed + totalDelta es →
      ∃ calls rest, drainList limit es removed = some (calls, rest) ∧
        samplesOf calls = 0 ∧ writesOf calls ++ pairsOf rest = pairsOf es ∧
        rest.length ≤ es.length := by
  intro es
  induction es with
  | nil =>
      intro removed h
      have hn : ¬ (removed < limit) := by
        simp only [totalDelta, List.map_nil, List.sum_nil, add_zero] at h
        exact not_lt.mpr h
      exact ⟨[], [], by simp [drainList, hn], rfl, rfl, le_refl _⟩
  | cons e es ih =>
      intro removed h
      by_cases hlt : removed < limit
      · have h2 : limit ≤ removed + e.delta + totalDelta es := by
          simp only [totalDelta, List.map_cons, List.sum_cons] at h ⊢
          rw [add_assoc]
          exact h
        obtain ⟨calls, rest, h3, h4, h5, h6⟩ := ih (removed + e.delta) h2
        refine ⟨SndCall.set e.addr e.value :: calls, rest, ?_, ?_, ?_, ?_⟩
        · simp [drainList, hlt, h3]
        · simp only [samplesOf_cons, SndCall.samples, h4]
        · simp only [writesOf_set_cons, List.cons_append, pairsOf_cons, h5]
        · simp only [List.length_cons]; omega
      · exact ⟨[], e :: es, by simp [drainList, hlt], rfl, rfl, le_refl _⟩

/-- The main loop of `processFragment` does to the ring what `fragList` does
to the list of its entries. -/
theorem fragmentLoop_refines (freq channels length : Nat) :
    ∀ (fuel : Nat) (s : SoundSDL) (position remaining : ℚ) (calls : List SndCall)
      (rest : List RegWrite) (rst : Bool),
      QInv s.myRegWriteQueue → s.myRegWriteQueue.mySize < fuel →
      fragList freq channels length (entries s.myRegWriteQueue) position remaining =
        some (calls, rest, rst) →
      ∃ q1, QInv q1 ∧ entries q1 = rest ∧
        q1.myCapacity = s.myRegWriteQueue.myCapacity ∧
        SoundSDL.fragmentLoop freq channels length fuel s position remaining =
          some { s with
            myTIASound := s.myTIASound ++ calls
            myRegWriteQueue := q1
            myLastRegisterSetCycle := if rst then 0 else s.myLastRegisterSetCycle } := by
  intro fuel
  induction fuel with
  | zero => intro s _ _ _ _ _ _ hf; omega
  | succ n ih =>
      intro s position remaining calls rest rst hq hf hl
      unfold SoundSDL.fragmentLoop
      by_cases hr : remaining > 0
      · by_cases hz : s.myRegWriteQueue.mySize = 0
        · rw [entries_nil_of_size _ hz] at hl
          simp only [fragList, hr, if_true, Option.map_eq_some'] at hl
          obtain ⟨c, hc, he⟩ := hl
          simp only [Prod.mk.injEq] at he
          obtain ⟨e1, e2, e3⟩ := he
          subst e1 e2 e3
          refine ⟨s.myRegWriteQueue, hq, entries_nil_of_size _ hz, rfl, ?_⟩
          simp [hr, RegWriteQueue.size, hz, hc]
        · obtain ⟨e, es, q1, h1, h2, h3, h4, h5, h6, h7, h8⟩ := front_entries _ hq hz
          rw [h4] at hl
          by_cases hfz : freq = 0
          · simp [fragList, hr, hfz] at hl
          · by_cases hd : e.delta ≤ remaining / (freq : ℚ)
            · by_cases hp : e.delta > 0
              · simp only [fragList, hr, hfz, hd, hp, if_true, if_false, Option.bind_eq_some,
                  Option.map_eq_some'] at hl
                obtain ⟨c, hc, ⟨c1, r1, b1⟩, hrec, he⟩ := hl
                simp only [Prod.mk.injEq] at he
                obtain ⟨e1, e2, e3⟩ := he
                subst e1 e2 e3
                obtain ⟨q2, i1, i2, i3, i4⟩ := ih
                  { s with
                    myTIASound := (s.myTIASound ++ [c]) ++ [SndCall.set e.addr e.value]
                    myRegWriteQueue := q1 }
                  (position + (freq : ℚ) * e.delta) (remaining - (freq : ℚ) * e.delta)
                  c1 r1 b1 h6 (show q1.mySize < n by omega)
                  (show fragList freq channels length (entries q1) _ _ = some (c1, r1, b1) by
                    rw [h5]; exact hrec)
                refine ⟨q2, i1, i2, by rw [i3]; exact h7, ?_⟩
                simp only [hr, RegWriteQueue.size, hz, h1, hfz, hd, hp, if_true, if_false, hc,
                  Option.map_some', Option.bind_some, Option.some_bind, h3]
                refine i4.trans ?_
                simp only [List.append_assoc, List.singleton_append, List.cons_append,
                  List.nil_append]
              · simp only [fragList, hr, hfz, hd, hp, if_true, if_false,
                  Option.map_eq_some'] at hl
                obtain ⟨⟨c1, r1, b1⟩, hrec, he⟩ := hl
                simp only [Prod.mk.injEq] at he
                obtain ⟨e1, e2, e3⟩ := he
                subst e1 e2 e3
                obtain ⟨q2, i1, i2, i3, i4⟩ := ih
                  { s with
                    myTIASound := s.myTIASound ++ [SndCall.set e.addr e.value]
                    myRegWriteQueue := q1 }
                  position remaining c1 r1 b1 h6 (show q1.mySize < n by omega)
                  (show fragList freq channels length (entries q1) _ _ = some (c1, r1, b1) by
                    rw [h5]; exact hrec)
                refine ⟨q2, i1, i2, by rw [i3]; exact h7, ?_⟩
                simp only [hr, RegWriteQueue.size, hz, h1, hfz, hd, hp, if_true, if_false,
                  Option.map_some', Option.bind_some, Option.some_bind, h3]
                refine i4.trans ?_
                simp only [List.append_assoc, List.singleton_append, List.cons_append,
                  List.nil_append]
            · simp only [fragList, hr, hfz, hd, if_true, if_false,
                Option.map_eq_some'] at hl
              obtain ⟨c, hc, he⟩ := hl
              simp only [Prod.mk.injEq] at he
              obtain ⟨e1, e2, e3⟩ := he
              subst e1 e2 e3
              obtain ⟨j1, j2⟩ := setFront_entries _ hq e
                { e with delta := e.delta - remaining / (freq : ℚ) } es h4
              refine ⟨_, j1, j2, rfl, ?_⟩
              simp [hr, RegWriteQueue.size, hz, h1, hfz, hd, hc]
      · have hx : fragList freq channels length (entries s.myRegWriteQueue) position
            remaining = some ([], entries s.myRegWriteQueue, false) := by
          cases entries s.myRegWriteQueue <;> simp [fragList, hr]
        rw [hx] at hl
        simp only [Option.some.injEq, Prod.mk.injEq] at hl
        obtain ⟨e1, e2, e3⟩ := hl
        subst e1 e3
        refine ⟨s.myRegWriteQueue, hq, e2, rfl, ?_⟩
        simp [hr]

/-- The loop that removes excess entries calls the synthesizer only to set
registers. -/
theorem drainList_sets (limit : ℚ) :
    ∀ (es : List RegWrite) (removed : ℚ) (calls : List SndCall) (rest : List RegWrite),
      drainList limit es removed = some (calls, rest) →
      ∀ c ∈ calls, ∃ a v, c = SndCall.set a v := by
  intro es
  induction es with
  | nil =>
      intro removed calls rest h c hc
      by_cases hlt : removed < limit
      · simp [drainList, hlt] at h
      · simp only [drainList, hlt, if_false, Option.some.injEq, Prod.mk.injEq] at h
        rw [← h.1] at hc
        exact absurd hc (List.not_mem_nil _)
  | cons e es ih =>
      intro removed calls rest h c hc
      by_cases hlt : removed < limit
      · simp only [drainList, hlt, if_true, Option.map_eq_some'] at h
        obtain ⟨⟨c1, r1⟩, hr, he⟩ := h
        simp only [Prod.mk.injEq] at he
        rw [← he.1] at hc
        rcases List.mem_cons.mp hc with h1 | h1
        · exact ⟨e.addr, e.value, h1⟩
        · exact ih _ _ _ hr c h1
      · simp only [drainList, hlt, if_false, Option.some.injEq, Prod.mk.injEq] at h
        rw [← h.1] at hc
        exact absurd hc (List.not_mem_nil _)

/-- The first phase of `processFragment`: the removal of excess entries is
defined, asks for no samples and applies the writes it removes in order. -/
theorem drainPhase_spec (s : SoundSDL) (hok : SoundOk s) :
    ∃ dcalls q2,
      (if totalDelta (entries s.myRegWriteQueue) >
            s.myFragmentSizeLogBase2 / (s.myDisplayFrameRate : ℚ) then
          SoundSDL.drainLoop ((s.myFragmentSizeLogBase2 - 1) / (s.myDisplayFrameRate : ℚ))
            (s.myRegWriteQueue.size + 1) s 0
        else some s) =
        some { s with myTIASound := s.myTIASound ++ dcalls, myRegWriteQueue := q2 } ∧
      QInv q2 ∧ q2.myCapacity = s.myRegWriteQueue.myCapacity ∧ samplesOf dcalls = 0 ∧
      writesOf dcalls ++ pairsOf (entries q2) = pairsOf (entries s.myRegWriteQueue) ∧
      q2.mySize ≤ s.myRegWriteQueue.mySize ∧
      (¬ (totalDelta (entries s.myRegWriteQueue) >
            s.myFragmentSizeLogBase2 / (s.myDisplayFrameRate : ℚ)) →
        dcalls = [] ∧ q2 = s.myRegWriteQueue) ∧
      ∀ c ∈ dcalls, ∃ a v, c = SndCall.set a v := by
  by_cases hgt : totalDelta (entries s.myRegWriteQueue) >
      s.myFragmentSizeLogBase2 / (s.myDisplayFrameRate : ℚ)
  · have hfr : (0 : ℚ) < (s.myDisplayFrameRate : ℚ) := by exact_mod_cast hok.rate_pos
    have hlim : (s.myFragmentSizeLogBase2 - 1) / (s.myDisplayFrameRate : ℚ) ≤
        0 + totalDelta (entries s.myRegWriteQueue) := by
      have h1 : (s.myFragmentSizeLogBase2 - 1) / (s.myDisplayFrameRate : ℚ) ≤
          s.myFragmentSizeLogBase2 / (s.myDisplayFrameRate : ℚ) :=
        div_le_div_of_nonneg_right (by linarith) (le_of_lt hfr)
      rw [zero_add]
      exact le_of_lt (lt_of_le_of_lt h1 hgt)
    obtain ⟨calls, rest, d1, d2, d3, d4⟩ := drainList_total _ (entries s.myRegWriteQueue) 0 hlim
    obtain ⟨q2, r1, r2, r3, r4⟩ := drainLoop_refines _ (s.myRegWriteQueue.mySize + 1) s 0
      calls rest hok.queue (by omega) d1
    refine ⟨calls, q2, ?_, r1, r3, d2, by rw [r2]; exact d3, ?_, fun hn => absurd hgt hn,
      drainList_sets _ _ _ _ _ d1⟩
    · rw [if_pos hgt]
      exact r4
    · have e1 := entries_length q2
      have e2 := entries_length s.myRegWriteQueue
      rw [r2] at e1
      omega
  · refine ⟨[], s.myRegWriteQueue, ?_, hok.queue, rfl, rfl, rfl, le_refl _, fun _ => ⟨rfl, rfl⟩,
      fun c hc => absurd hc (List.not_mem_nil _)⟩
    rw [if_neg hgt]
    simp

/-- The method `processFragment` on an initialised sound object in working
order, for a length that is a non-negative `int`: the removal of excess
entries, then the main loop as `fragList` describes it on the entries left,
started at position 0 with `length / channels` samples remaining. -/
theorem processFragment_eq (s : SoundSDL) (length : Int)
    (hi : s.myIsInitializedFlag = true) (hok : SoundOk s)
    (h0 : 0 ≤ length) (h1 : length < 2147483648) :
    ∃ dcalls q2 calls rest rst s1,
      SoundSDL.processFragment s length = some s1 ∧
      QInv q2 ∧ samplesOf dcalls = 0 ∧
      writesOf dcalls ++ pairsOf (entries q2) = pairsOf (entries s.myRegWriteQueue) ∧
      q2.mySize ≤ s.myRegWriteQueue.mySize ∧
      (¬ (totalDelta (entries s.myRegWriteQueue) >
            s.myFragmentSizeLogBase2 / (s.myDisplayFrameRate : ℚ)) →
        dcalls = [] ∧ q2 = s.myRegWriteQueue) ∧
      fragList s.myHardwareSpec.freq s.myHardwareSpec.channels
        (length.toNat / s.myHardwareSpec.channels) (entries q2) 0
        ((length.toNat / s.myHardwareSpec.channels : Nat) : ℚ) = some (calls, rest, rst) ∧
      samplesOf calls = length.toNat / s.myHardwareSpec.channels ∧
      writesOf calls ++ pairsOf rest = pairsOf (entries q2) ∧
      rest.length ≤ q2.mySize ∧
      QInv s1.myRegWriteQueue ∧ entries s1.myRegWriteQueue = rest ∧
      s1.myRegWriteQueue.myCapacity = s.myRegWriteQueue.myCapacity ∧
      s1.myTIASound = s.myTIASound ++ (dcalls ++ calls) ∧
      s1.myLastRegisterSetCycle = (if rst then 0 else s.myLastRegisterSetCycle) ∧
      s1.myIsInitializedFlag = true ∧ s1.myDisplayFrameRate = s.myDisplayFrameRate ∧
      s1.myHardwareSpec = s.myHardwareSpec ∧ s1.sdl = s.sdl ∧
      ∀ c ∈ dcalls, ∃ a v, c = SndCall.set a v := by
  have hch := hok.channels_pos
  have hfr := hok.rate_pos
  have hlu : (length % 4294967296).toNat / s.myHardwareSpec.channels =
      length.toNat / s.myHardwareSpec.channels := by
    rw [Int.emod_eq_of_lt h0 (by omega)]
  have hle : length.toNat / s.myHardwareSpec.channels ≤ length.toNat := Nat.div_le_self _ _
  have hlt : length.toNat < 2147483648 := by omega
  have hti : toInt32 (length.toNat / s.myHardwareSpec.channels) =
      ((length.toNat / s.myHardwareSpec.channels : Nat) : Int) := by
    unfold toInt32
    rw [Nat.mod_eq_of_lt (by omega), if_pos (by omega)]
  obtain ⟨dcalls, q2, d1, d2, d3, d4, d5, d6, d7, d8⟩ := drainPhase_spec s hok
  obtain ⟨calls, rest, rst, f1, f2, f3, f4⟩ := fragList_total s.myHardwareSpec.freq
    s.myHardwareSpec.channels (length.toNat / s.myHardwareSpec.channels) hok.freq_pos
    (by omega) (entries q2) 0 ((length.toNat / s.myHardwareSpec.channels : Nat) : ℚ)
    (le_refl _) (Nat.cast_nonneg _) (zero_add _)
  obtain ⟨q3, r1, r2, r3, r4⟩ := fragmentLoop_refines s.myHardwareSpec.freq
    s.myHardwareSpec.channels (length.toNat / s.myHardwareSpec.channels) (q2.mySize + 1)
    { s with myTIASound := s.myTIASound ++ dcalls, myRegWriteQueue := q2 } 0
    ((length.toNat / s.myHardwareSpec.channels : Nat) : ℚ) calls rest rst d2
    (Nat.lt_succ_self _) f1
  have hne1 : ¬ (s.myHardwareSpec.channels = 0) := by omega
  have hne2 : ¬ (s.myDisplayFrameRate = 0) := by omega
  have hpf : ∃ s1, SoundSDL.processFragment s length = some s1 ∧
      s1.myRegWriteQueue = q3 ∧ s1.myTIASound = s.myTIASound ++ (dcalls ++ calls) ∧
      s1.myLastRegisterSetCycle = (if rst then 0 else s.myLastRegisterSetCycle) ∧
      s1.myIsInitializedFlag = true ∧ s1.myDisplayFrameRate = s.myDisplayFrameRate ∧
      s1.myHardwareSpec = s.myHardwareSpec ∧ s1.sdl = s.sdl := by
    have hif : ¬ (s.myIsInitializedFlag = false) := by simp [hi]
    unfold SoundSDL.processFragment
    rw [if_neg hif]
    simp only [hne1, hne2, if_false, hlu, hti, duration_eq _ hok.queue hok.cap_le, d1,
      Option.some_bind, Int.cast_natCast]
    rw [show SoundSDL.fragmentLoop s.myHardwareSpec.freq s.myHardwareSpec.channels
        (length.toNat / s.myHardwareSpec.channels) (RegWriteQueue.size q2 + 1)
        { s with myTIASound := s.myTIASound ++ dcalls, myRegWriteQueue := q2 } 0
        ((length.toNat / s.myHardwareSpec.channels : Nat) : ℚ) = _ from r4]
    simp only [Option.map_some']
    cases hx : s.mySoundExporter with
    | none => exact ⟨_, rfl, rfl, by simp [List.append_assoc], rfl, hi, rfl, rfl, rfl⟩
    | some log =>
        by_cases hn : s.myNumRecordSamplesNeeded > 0
        · simp only [hn, if_true]
          exact ⟨_, rfl, rfl, by simp [List.append_assoc], rfl, hi, rfl, rfl, rfl⟩
        · simp only [hn, if_false]
          exact ⟨_, rfl, rfl, by simp [List.append_assoc], rfl, hi, rfl, rfl, rfl⟩
  obtain ⟨s1, p1, p2, p3, p4, p5, p6, p7, p8⟩ := hpf
  refine ⟨dcalls, q2, calls, rest, rst, s1, p1, d2, d4, d5, d6, d7, f1, ?_, f3, ?_, ?_, ?_, ?_,
    p3, p4, p5, p6, p7, p8, d8⟩
  · simpa using f2
  · rw [← entries_length q2]; exact f4
  · rw [p2]; exact r1
  · rw [p2]; exact r2
  · rw [p2, r3]; exact d3

/-- The sound object `demoSound` is in working order. -/
theorem demoSound_ok : SoundOk demoSound :=
  ⟨(create_inv 2 (by decide) (by decide)).1, by decide, by decide, by decide, by decide⟩

/-- The sound object `demoPending` is in working order. -/
theorem demoPending_ok : SoundOk demoPending :=
  ⟨⟨by decide, by decide, by decide, by decide, by decide, by decide⟩, by decide, by decide,
    by decide, by decide⟩

/-- The method `enqueue` on a well-formed queue of capacity at most `2^31`
that holds fewer than `2^30` entries: the entry goes to the tail and the
capacity stays at most `2^31`. -/
theorem enqueue_bounded (q : RegWriteQueue) (x : RegWrite) (h : QInv q)
    (hcap : q.myCapacity ≤ 2147483648) (hsz : q.mySize < 1073741824) :
    ∃ q1, q.enqueue x = some q1 ∧ QInv q1 ∧ entries q1 = entries q ++ [x] ∧
      q1.myCapacity ≤ 2147483648 := by
  by_cases hfull : q.mySize = q.myCapacity
  · obtain ⟨q2, hg1, hg2, hg3, hg4, hg5⟩ := grow_inv q h hfull (by omega)
    have hc := h.cap_pos
    obtain ⟨q1, he1, he2, he3, he4⟩ := enqueue_room q2 x hg2 (by omega)
    refine ⟨q1, ?_, he2, by rw [he3, hg3], by omega⟩
    have hne : ¬ (q2.mySize = q2.myCapacity) := by omega
    rw [← he1]
    simp only [RegWriteQueue.enqueue, hfull, if_true, hg1, Option.some_bind, hne, if_false]
  · have := h.size_le
    obtain ⟨q1, he1, he2, he3, he4⟩ := enqueue_room q x h (by omega)
    exact ⟨q1, he1, he2, he3, by omega⟩

/-- The method `set` on a sound object in working order whose queue holds
fewer than `2^30` entries, when the `int` difference of the cycle counts does
not overflow: one entry is appended and the synthesizer is not called. -/
theorem set_spec (s : SoundSDL) (addr value : Nat) (cycle : Int) (hok : SoundOk s)
    (hsz : s.myRegWriteQueue.mySize < 1073741824)
    (hlo : -2147483648 ≤ cycle - s.myLastRegisterSetCycle)
    (hhi : cycle - s.myLastRegisterSetCycle ≤ 2147483647) :
    ∃ s1, s.set addr value cycle = some s1 ∧ SoundOk s1 ∧
      pairsOf (entries s1.myRegWriteQueue) =
        pairsOf (entries s.myRegWriteQueue) ++ [(addr, value)] ∧
      s1.myTIASound = s.myTIASound ∧ s1.myLastRegisterSetCycle = cycle ∧
      s1.myIsInitializedFlag = s.myIsInitializedFlag ∧
      s1.myRegWriteQueue.mySize = s.myRegWriteQueue.mySize + 1 := by
  have hrange : ¬ (cycle - s.myLastRegisterSetCycle < -2147483648 ∨
      2147483647 < cycle - s.myLastRegisterSetCycle) := by omega
  have hfr : s.myDisplayFrameRate ≠ 0 := by
    have := hok.rate_pos
    omega
  obtain ⟨q1, e1, e2, e3, e4⟩ := enqueue_bounded s.myRegWriteQueue
    ⟨addr, value, ((cycle - s.myLastRegisterSetCycle : Int) : ℚ) / SoundSDL.tiaClock *
      ((s.myDisplayFrameRate : ℚ) / (s.myDisplayFrameRate : ℚ))⟩ hok.queue hok.cap_le hsz
  refine ⟨{ s with
      myRegWriteQueue := q1
      myLastRegisterSetCycle := cycle
      sdl := (s.sdl ++ [SdlCall.lockAudio]) ++ [SdlCall.unlockAudio] }, ?_,
    ⟨e2, e4, hok.freq_pos, hok.channels_pos, hok.rate_pos⟩, ?_, rfl, rfl, rfl, ?_⟩
  · simp only [SoundSDL.set, hrange, if_false, hfr, e1, Option.map_some']
  · simp only [e3, pairsOf, List.map_append, List.map_cons, List.map_nil]
  · have := congrArg List.length e3
    rw [entries_length, List.length_append, entries_length] at this
    simpa using this

/-- A prefix of the pending and the passed writes reaches the synthesizer:
after any sequence of `set` and `processFragment` calls with arguments in
range, the writes applied to the synthesizer followed by the writes still
queued are the writes queued at the start followed by the writes passed to
`set`. -/
theorem runS_spec :
    ∀ (ops : List SOp) (s : SoundSDL), s.myIsInitializedFlag = true → SoundOk s →
      0 ≤ s.myLastRegisterSetCycle → s.myLastRegisterSetCycle < 2147483648 →
      (∀ op ∈ ops, op.inRange) →
      s.myRegWriteQueue.mySize + (passedWrites ops).length ≤ 1073741824 →
      ∃ s1 calls, runS ops s = some s1 ∧ s1.myTIASound = s.myTIASound ++ calls ∧
        writesOf calls ++ pairsOf (entries s1.myRegWriteQueue) =
          pairsOf (entries s.myRegWriteQueue) ++ passedWrites ops := by
  intro ops
  induction ops with
  | nil =>
      intro s _ _ _ _ _ _
      exact ⟨s, [], rfl, by simp, by simp [writesOf, passedWrites]⟩
  | cons op ops ih =>
      intro s hi hok hl0 hl1 hops hroom
      have hop := hops op (List.mem_cons_self _ _)
      have hops2 : ∀ x ∈ ops, x.inRange := fun x hx => hops x (List.mem_cons_of_mem _ hx)
      cases op with
      | set addr value cycle =>
          simp only [SOp.inRange] at hop
          simp only [passedWrites, List.length_cons] at hroom
          obtain ⟨s1, a1, a2, a3, a4, a5, a6, a7⟩ := set_spec s addr value cycle hok
            (by omega) (by omega) (by omega)
          obtain ⟨s2, calls, b1, b2, b3⟩ := ih s1 (by rw [a6]; exact hi) a2
            (by rw [a5]; exact hop.1) (by rw [a5]; exact hop.2) hops2 (by omega)
          refine ⟨s2, calls, ?_, by rw [b2, a4], ?_⟩
          · simp only [runS, SOp.run, a1, Option.some_bind, b1]
          · rw [b3, a3]
            simp [passedWrites]
      | processFragment length =>
          simp only [SOp.inRange] at hop
          simp only [passedWrites] at hroom
          obtain ⟨dcalls, q2, calls, rest, rst, s1, p1, _, _, d5, d6, _, _, _, f3, f4, r1, r2,
            r3, p3, p4, p5, p6, p7, _⟩ := processFragment_eq s length hi hok hop.1 hop.2
          have hsz : s1.myRegWriteQueue.mySize ≤ s.myRegWriteQueue.mySize := by
            rw [← entries_length s1.myRegWriteQueue, r2]
            omega
          have hok1 : SoundOk s1 :=
            ⟨r1, by rw [r3]; exact hok.cap_le, by rw [p7]; exact hok.freq_pos,
              by rw [p7]; exact hok.channels_pos, by rw [p6]; exact hok.rate_pos⟩
          have hl : 0 ≤ s1.myLastRegisterSetCycle ∧ s1.myLastRegisterSetCycle < 2147483648 := by
            rw [p4]
            cases rst
            · exact ⟨hl0, hl1⟩
            · simp
          obtain ⟨s2, calls2, b1, b2, b3⟩ := ih s1 p5 hok1 hl.1 hl.2 hops2 (by omega)
          refine ⟨s2, (dcalls ++ calls) ++ calls2, ?_, ?_, ?_⟩
          · simp only [runS, SOp.run, p1, Option.some_bind, b1]
          · rw [b2, p3, List.append_assoc]
          · rw [writesOf_append, List.append_assoc, b3, r2, writesOf_append, ← d5, ← f3]
            simp [passedWrites, List.append_assoc]

/-- Reading back an `int`. -/
theorem getInt_putInt_int (x : Int) (h0 : -2147483648 ≤ x) (h1 : x < 2147483648)
    (rest : List Nat) :
    Cartridge3F.getInt (Cartridge3F.putInt [] x ++ rest) = some (x, rest) := by
  simp only [Cartridge3F.putInt, Cartridge3F.getInt, List.nil_append, List.cons_append]
  generalize hu : (x % 4294967296).toNat = u
  have hlt : u < 4294967296 := by omega
  have hre : u % 256 % 256 + 256 * (u / 256 % 256 % 256) + 65536 * (u / 65536 % 256 % 256) +
      16777216 * (u / 16777216 % 256 % 256) = u := by omega
  simp only [hre, Option.some.injEq, Prod.mk.injEq, and_true]
  split <;> omega

/-- Writing an `int` appends its four bytes. -/
theorem putInt_append (out : List Nat) (x : Int) :
    Cartridge3F.putInt out x = out ++ Cartridge3F.putInt [] x := by
  simp [Cartridge3F.putInt]

/-- Reading back the device name of the sound object. -/
theorem getString_tiaSound (rest : List Nat) :
    Cartridge3F.getString (Cartridge3F.putString [] "TIASound" ++ rest) =
      some (SoundSDL.deviceBytes, rest) := by
  have h1 : Cartridge3F.putString [] "TIASound" =
      [8, 0, 0, 0, 84, 73, 65, 83, 111, 117, 110, 100] := by decide
  have h2 : SoundSDL.deviceBytes = [84, 73, 65, 83, 111, 117, 110, 100] := by decide
  rw [h1, h2]
  simp [Cartridge3F.getString, Cartridge3F.getInt]

/-- The stream `SoundSDL::save` writes. -/
theorem sound_save_eq (get : List SndCall → Nat → Nat) (s : SoundSDL) :
    SoundSDL.save get s [] =
      (true, Cartridge3F.putString [] "TIASound" ++
        (Cartridge3F.putInt [] (savedReg get s 0x15) ++
          (Cartridge3F.putInt [] (savedReg get s 0x16) ++
            (Cartridge3F.putInt [] (savedReg get s 0x17) ++
              (Cartridge3F.putInt [] (savedReg get s 0x18) ++
                (Cartridge3F.putInt [] (savedReg get s 0x19) ++
                  (Cartridge3F.putInt [] (savedReg get s 0x1a) ++
                    Cartridge3F.putInt [] s.myLastRegisterSetCycle))))))) := by
  simp only [SoundSDL.save, savedReg]
  rw [putInt_append (Cartridge3F.putInt _ _), putInt_append (Cartridge3F.putInt _ _),
    putInt_append (Cartridge3F.putInt _ _), putInt_append (Cartridge3F.putInt _ _),
    putInt_append (Cartridge3F.putInt _ _), putInt_append (Cartridge3F.putInt _ _),
    putInt_append (Cartridge3F.putString _ _)]
  simp only [List.append_assoc]

/-- The value `save` writes for a register is a `uint8_t`. -/
theorem savedReg_lt (get : List SndCall → Nat → Nat) (s : SoundSDL) (addr : Nat) :
    savedReg get s addr < 256 := by
  unfold savedReg
  split
  · exact Nat.mod_lt _ (by decide)
  · decide

/-- The seven `getInt` calls of `load` on what `save` wrote after the name. -/
theorem loadInts_saved (r1 r2 r3 r4 r5 r6 : Nat) (c : Int) (rest : List Nat)
    (h1 : r1 < 256) (h2 : r2 < 256) (h3 : r3 < 256) (h4 : r4 < 256) (h5 : r5 < 256)
    (h6 : r6 < 256) (hc0 : -2147483648 ≤ c) (hc1 : c < 2147483648) :
    SoundSDL.loadInts
      (Cartridge3F.putInt [] r1 ++ (Cartridge3F.putInt [] r2 ++ (Cartridge3F.putInt [] r3 ++
        (Cartridge3F.putInt [] r4 ++ (Cartridge3F.putInt [] r5 ++ (Cartridge3F.putInt [] r6 ++
          (Cartridge3F.putInt [] c ++ rest))))))) =
      some ([r1, r2, r3, r4, r5, r6], c, rest) := by
  have e : ∀ r : Nat, r < 256 → (((r : Int) % 256).toNat) = r := by
    intro r hr
    omega
  simp only [SoundSDL.loadInts, getInt_putInt_int (r1 : Int) (by omega) (by omega),
    getInt_putInt_int (r2 : Int) (by omega) (by omega),
    getInt_putInt_int (r3 : Int) (by omega) (by omega),
    getInt_putInt_int (r4 : Int) (by omega) (by omega),
    getInt_putInt_int (r5 : Int) (by omega) (by omega),
    getInt_putInt_int (r6 : Int) (by omega) (by omega),
    getInt_putInt_int c hc0 hc1, Option.bind_eq_bind, Option.some_bind, Option.pure_def,
    e r1 h1, e r2 h2, e r3 h3, e r4 h4, e r5 h5, e r6 h6]

/-- The volume after `setVolume`. -/
theorem setVolume_volume (s : SoundSDL) (p : Int) :
    (s.setVolume p).myVolume =
      if s.myIsInitializedFlag = true ∧ 0 ≤ p ∧ p ≤ 100 then p.toNat else s.myVolume := by
  unfold SoundSDL.setVolume
  by_cases hi : s.myIsInitializedFlag = true
  · by_cases hp : 0 ≤ p ∧ p ≤ 100
    · simp [hi, hp]
    · simp [hi, hp]
  · simp [hi]

/-- The method `setVolume` keeps the volume in `[0, 100]`. -/
theorem setVolume_le (s : SoundSDL) (p : Int) (hv : s.myVolume ≤ 100) :
    (s.setVolume p).myVolume ≤ 100 := by
  rw [setVolume_volume]
  split
  · omega
  · exact hv

/-- The method `adjustVolume` on a volume in `[0, 100]`: the request it makes
of `setVolume`. -/
theorem adjustVolume_eq (s : SoundSDL) (d : Int) (hv : s.myVolume ≤ 100) :
    s.adjustVolume d = some
      (if d = -1 then (if s.myVolume < 2 then s else s.setVolume ((s.myVolume : Int) - 2))
       else if d = 1 then
        (if 98 < s.myVolume then s else s.setVolume ((s.myVolume : Int) + 2))
       else s.setVolume (s.myVolume : Int)) := by
  have ht : toInt32 s.myVolume = (s.myVolume : Int) := by
    unfold toInt32
    rw [Nat.mod_eq_of_lt (by omega), if_pos (by omega)]
  unfold SoundSDL.adjustVolume
  simp only [ht]
  by_cases h1 : d = -1
  · have hno : ¬ ((s.myVolume : Int) - 2 < -2147483648) := by omega
    simp only [h1, if_true, hno, if_false, Option.map_some']
    by_cases h2 : s.myVolume < 2
    · have : (s.myVolume : Int) - 2 < 0 ∨ (s.myVolume : Int) - 2 > 100 := by omega
      rw [if_pos this, if_pos h2]
    · have : ¬ ((s.myVolume : Int) - 2 < 0 ∨ (s.myVolume : Int) - 2 > 100) := by omega
      rw [if_neg this, if_neg h2]
  · by_cases h3 : d = 1
    · have hno : ¬ (2147483647 < (s.myVolume : Int) + 2) := by omega
      have hd : ¬ ((1 : Int) = -1) := by decide
      simp only [h3, hd, if_true, if_false, hno, Option.map_some']
      by_cases h2 : 98 < s.myVolume
      · have : (s.myVolume : Int) + 2 < 0 ∨ (s.myVolume : Int) + 2 > 100 := by omega
        rw [if_pos this, if_pos h2]
      · have : ¬ ((s.myVolume : Int) + 2 < 0 ∨ (s.myVolume : Int) + 2 > 100) := by omega
        rw [if_neg this, if_neg h2]
    · have : ¬ ((s.myVolume : Int) < 0 ∨ (s.myVolume : Int) > 100) := by omega
      simp only [h1, h3, if_false, Option.map_some']
      rw [if_neg this]

/-- The method `adjustVolume` keeps the volume in `[0, 100]`. -/
theorem adjustVolume_le (s : SoundSDL) (d : Int) (hv : s.myVolume ≤ 100) :
    ∃ s1, s.adjustVolume d = some s1 ∧ s1.myVolume ≤ 100 := by
  refine ⟨_, adjustVolume_eq s d hv, ?_⟩
  split
  · split
    · exact hv
    · exact setVolume_le _ _ hv
  · split
    · split
      · exact hv
      · exact setVolume_le _ _ hv
    · exact setVolume_le _ _ hv

/-- Every sequence of volume calls returns and keeps the volume in `[0, 100]`. -/
theorem runV_le : ∀ (ops : List VOp) (s : SoundSDL), s.myVolume ≤ 100 →
    ∃ s1, runV ops s = some s1 ∧ s1.myVolume ≤ 100 := by
  intro ops
  induction ops with
  | nil => intro s hv; exact ⟨s, rfl, hv⟩
  | cons op ops ih =>
      intro s hv
      cases op with
      | setVolume p =>
          obtain ⟨s2, a, b⟩ := ih (s.setVolume p) (setVolume_le s p hv)
          exact ⟨s2, by simp only [runV, VOp.run, Option.some_bind, a], b⟩
      | adjustVolume d =>
          obtain ⟨s1, a1, a2⟩ := adjustVolume_le s d hv
          obtain ⟨s2, a, b⟩ := ih s1 a2
          exact ⟨s2, by simp only [runV, VOp.run, a1, Option.some_bind, a], b⟩

/-- The call `bank(0)` when bankswitching is unlocked and the ROM is not
empty. -/
theorem bank_zero_unlocked (w : World) (hl : w.cart.bankLocked = false)
    (hs : 0 < w.cart.mySize) :
    Cartridge3F.bank w 0 = some
      { w with
        cart := { w.cart with myCurrentBank := 0 }
        sys := remapLow w.sys 0 } := by
  have hu : u32 (u32 (u16 0) * 2048) = 0 := by decide
  have hloop : forLoop 0x1800 (1 <<< System.pageShift)
      (fun address s => System.setPageAccess s (address >>> System.pageShift)
        (Cartridge3F.bankAccess (u16 0 * 2048) address)) (0x1800 - 0x1000) 0x1000 w.sys =
      remapLow w.sys 0 := by
    simp only [shr_pageShift, one_shl_pageShift]
    exact forLoop_pages (Cartridge3F.bankAccess (0 * 2048)) 96 (0x1800 - 0x1000) 64 w.sys
      (by omega)
  unfold Cartridge3F.bank
  simp only [hl, hu, hs, if_true, Option.map_some', hloop]
  rfl

/-- The first byte of bank 1 of the concrete image. -/
theorem demo_byte2048 : demoWorld.cart.myImage[2048]? = some 11 := by
  simp only [demoWorld, demoCart, demoImage]
  rw [List.getElem?_append_right (by simp only [List.length_replicate]; exact Nat.le_refl _)]
  simp only [List.length_replicate, Nat.sub_self]
  rw [List.getElem?_replicate]
  simp

/-- The method `set` leaves the flags of the sound object alone. -/
theorem set_flags (s s1 : SoundSDL) (addr value : Nat) (cycle : Int)
    (h : s.set addr value cycle = some s1) :
    s1.myIsMuted = s.myIsMuted ∧ s1.myIsInitializedFlag = s.myIsInitializedFlag := by
  unfold SoundSDL.set at h
  simp only at h
  split at h
  · exact absurd h (by simp)
  · split at h
    · exact absurd h (by simp)
    · simp only [Option.map_eq_some'] at h
      obtain ⟨q, _, hq⟩ := h
      subst hq
      exact ⟨rfl, rfl⟩

/-- The sound object `demoSound` after `mute(true)`. -/
theorem demoSound_mute :
    demoSound.mute true =
      { demoSound with
        myIsMuted := true
        sdl := [SdlCall.pauseAudio 1]
        myRegWriteQueue := (RegWriteQueue.create 2).clear } := rfl

/-- The unbounded FIFO list grows by at most one entry per `enqueue`. -/
theorem idealFifo_length_le (ops : List QOp) :
    ∀ l : List RegWrite, (idealFifo l ops).length ≤ l.length + enqueueCount ops := by
  induction ops with
  | nil => intro l; exact Nat.le_refl _
  | cons op ops ih =>
      intro l
      cases op with
      | enqueue x =>
          have := ih (l ++ [x])
          simp only [List.length_append, List.length_singleton] at this
          simp only [idealFifo, QOp.ideal, enqueueCount]
          omega
      | dequeue =>
          have := ih l.tail
          simp only [List.length_tail] at this
          simp only [idealFifo, QOp.ideal, enqueueCount]
          omega
      | clear =>
          have := ih []
          simp only [List.length_nil] at this
          simp only [idealFifo, QOp.ideal, enqueueCount]
          omega

/-- The number of `enqueue` calls in a sequence followed by one more call. -/
theorem enqueueCount_snoc (ops : List QOp) (op : QOp) :
    enqueueCount (ops ++ [op]) = enqueueCount ops + (if op.isEnqueue then 1 else 0) := by
  induction ops with
  | nil => cases op <;> rfl
  | cons o ops ih =>
      have e : (o :: ops) ++ [op] = o :: (ops ++ [op]) := rfl
      rw [e]
      cases o with
      | enqueue x =>
          show enqueueCount (ops ++ [op]) + 1 = enqueueCount ops + 1 + _
          rw [ih]
          omega
      | dequeue => exact ih
      | clear => exact ih

/-- The method `enqueue` on a well-formed queue whose capacity can double: the
capacity doubles exactly when the queue is full. -/
theorem enqueue_cap (q : RegWriteQueue) (x : RegWrite) (h : QInv q)
    (hok : q.mySize < q.myCapacity ∨ 2 * q.myCapacity < 4294967296) :
    ∃ q1, q.enqueue x = some q1 ∧ QInv q1 ∧
      q1.myCapacity = (if q.mySize = q.myCapacity then 2 * q.myCapacity else q.myCapacity) := by
  by_cases hfull : q.mySize = q.myCapacity
  · have h2 : 2 * q.myCapacity < 4294967296 := by
      rcases hok with h1 | h1
      · omega
      · exact h1
    obtain ⟨q2, hg1, hg2, hg3, hg4, hg5⟩ := grow_inv q h hfull h2
    have hc := h.cap_pos
    obtain ⟨q1, he1, he2, he3, he4⟩ := enqueue_room q2 x hg2 (by omega)
    refine ⟨q1, ?_, he2, by rw [if_pos hfull, he4, hg4]; omega⟩
    have hne : ¬ (q2.mySize = q2.myCapacity) := by omega
    rw [← he1]
    simp only [RegWriteQueue.enqueue, hfull, if_true, hg1, Option.some_bind, hne, if_false]
  · have := h.size_le
    obtain ⟨q1, he1, he2, he3, he4⟩ := enqueue_room q x h (by omega)
    exact ⟨q1, he1, he2, by rw [if_neg hfull, he4]⟩

/-- A queue of capacity `2^31` filled by `2^31` calls of `enqueue`: it is full,
and `grow` on it is undefined. -/
theorem full_queue_grow (x : RegWrite) :
    ∃ q, runQ (RegWriteQueue.create 2147483648)
        (List.replicate 2147483648 (QOp.enqueue x)) = some q ∧
      q.mySize = 2147483648 ∧ q.myCapacity = 2147483648 ∧ q.grow = none := by
  obtain ⟨cinv, cent⟩ := create_inv 2147483648 (by decide) (by decide)
  obtain ⟨q1, k, f1, f2, f3, f4⟩ :=
    runQ_refines (List.replicate 2147483648 (QOp.enqueue x))
      (RegWriteQueue.create 2147483648) 0 cinv (Nat.le_refl _)
      (by rw [enqueueCount_replicate])
  have hsize : q1.mySize = 2147483648 := by
    have := congrArg List.length f3
    rw [entries_length, idealFifo_replicate_length, cent] at this
    simpa using this
  have hcap : q1.myCapacity = 2147483648 := by
    have hlt := f2.cap_lt
    have hc0 : (RegWriteQueue.create 2147483648).myCapacity = 2147483648 := rfl
    rw [f4, hc0] at hlt
    rw [f4, hc0]
    cases k with
    | zero => rfl
    | succ j =>
        have h1 : 1 ≤ 2 ^ j := Nat.one_le_two_pow
        rw [pow_succ] at hlt
        omega
  have hu : u32 (q1.myCapacity * 2) = 0 := by rw [hcap]; decide
  have hpos : 0 < q1.mySize := by omega
  have hne0 : ¬ (q1.myCapacity = 0) := by omega
  refine ⟨q1, f1, hsize, hcap, ?_⟩
  simp only [RegWriteQueue.grow, hu, List.replicate_zero, RegWriteQueue.growLoop, hpos,
    if_true, hne0, if_false, List.length_nil, Nat.lt_irrefl]
  split <;> rfl

/-- The sound object `demoBacklog` is in working order. -/
theorem demoBacklog_ok : SoundOk demoBacklog :=
  ⟨⟨by decide, by decide, by decide, by decide, by decide, by decide⟩, by decide, by decide,
    by decide, by decide⟩

/-- More fuel does not change the result of the loop that removes excess
entries. -/
theorem drainLoop_fuel (limit : ℚ) :
    ∀ (fuel extra : Nat) (s s1 : SoundSDL) (removed : ℚ),
      SoundSDL.drainLoop limit fuel s removed = some s1 →
      SoundSDL.drainLoop limit (fuel + extra) s removed = some s1 := by
  intro fuel
  induction fuel with
  | zero =>
      intro extra s s1 removed h
      simp [SoundSDL.drainLoop] at h
  | succ n ih =>
      intro extra s s1 removed h
      have e : n + 1 + extra = (n + extra) + 1 := by omega
      rw [e]
      unfold SoundSDL.drainLoop at h ⊢
      by_cases hlt : removed < limit
      · simp only [hlt, if_true] at h ⊢
        cases hf : s.myRegWriteQueue.front with
        | none => simp [hf] at h
        | some info =>
            cases hd : s.myRegWriteQueue.dequeue with
            | none => simp [hf, hd] at h
            | some q =>
                simp only [hf, hd] at h ⊢
                exact ih extra _ _ _ h
      · simp only [hlt, if_false] at h ⊢
        exact h

/-- More fuel does not change the result of the main loop. -/
theorem fragmentLoop_fuel (freq channels length : Nat) :
    ∀ (fuel extra : Nat) (s s1 : SoundSDL) (position remaining : ℚ),
      SoundSDL.fragmentLoop freq channels length fuel s position remaining = some s1 →
      SoundSDL.fragmentLoop freq channels length (fuel + extra) s position remaining =
        some s1 := by
  intro fuel
  induction fuel with
  | zero =>
      intro extra s s1 position remaining h
      simp [SoundSDL.fragmentLoop] at h
  | succ n ih =>
      intro extra s s1 position remaining h
      have e : n + 1 + extra = (n + extra) + 1 := by omega
      rw [e]
      unfold SoundSDL.fragmentLoop at h ⊢
      by_cases hr : remaining > 0
      · simp only [hr, if_true] at h ⊢
        by_cases hz : s.myRegWriteQueue.size = 0
        · simp only [hz, if_true] at h ⊢
          exact h
        · simp only [hz, if_false] at h ⊢
          cases hf : s.myRegWriteQueue.front with
          | none => simp [hf] at h
          | some info =>
              simp only [hf] at h ⊢
              by_cases hfz : freq = 0
              · simp [hfz] at h
              · simp only [hfz, if_false] at h ⊢
                by_cases hd : info.delta ≤ remaining / (freq : ℚ)
                · simp only [hd, if_true, Option.bind_eq_some] at h ⊢
                  obtain ⟨r1, hr1, q, hq, hrec⟩ := h
                  exact ⟨r1, hr1, q, hq, ih extra _ _ _ _ hrec⟩
                · simp only [hd, if_false] at h ⊢
                  exact h
      · simp only [hr, if_false] at h ⊢
        exact h

/-- The conversion to `int` of a `uint32_t` value below `2^31`. -/
theorem toInt32_small (n : Nat) (h : n < 2147483648) : toInt32 n = (n : Int) := by
  unfold toInt32
  rw [Nat.mod_eq_of_lt (by omega), if_pos (by omega)]

/-- The conversion to `int` of a `uint32_t` value from `2^31` on is negative. -/
theorem toInt32_large (n : Nat) (h1 : 2147483648 ≤ n) (h2 : n < 4294967296) :
    toInt32 n < 0 := by
  unfold toInt32
  rw [Nat.mod_eq_of_lt h2, if_neg (by omega)]
  omega

/-- The main loop of `processFragment` is defined for every fragment length
that is a `uint32_t`, with the queue size plus one as fuel. -/
theorem mainLoop_defined (s : SoundSDL) (hok : SoundOk s) (channels lengthU : Nat)
    (hlen : lengthU < 4294967296) :
    ∃ s3, SoundSDL.fragmentLoop s.myHardwareSpec.freq channels lengthU
        (s.myRegWriteQueue.size + 1) s 0 ((toInt32 lengthU : Int) : ℚ) = some s3 := by
  by_cases hsmall : lengthU < 2147483648
  · rw [toInt32_small _ hsmall, Int.cast_natCast]
    obtain ⟨calls, rest, rst, f1, _, _, _⟩ := fragList_total s.myHardwareSpec.freq channels
      lengthU hok.freq_pos hlen (entries s.myRegWriteQueue) 0 (lengthU : ℚ)
      (le_refl _) (Nat.cast_nonneg _) (zero_add _)
    obtain ⟨q3, _, _, _, r4⟩ := fragmentLoop_refines s.myHardwareSpec.freq channels lengthU
      (s.myRegWriteQueue.mySize + 1) s 0 (lengthU : ℚ) calls rest rst hok.queue
      (Nat.lt_succ_self _) f1
    exact ⟨_, r4⟩
  · have hneg := toInt32_large lengthU (by omega) hlen
    have hr : ¬ (((toInt32 lengthU : Int) : ℚ) > 0) := by
      have : ((toInt32 lengthU : Int) : ℚ) < 0 := by exact_mod_cast hneg
      exact not_lt.mpr (le_of_lt this)
    refine ⟨s, ?_⟩
    unfold SoundSDL.fragmentLoop
    simp only [hr, if_false]

/-- The length per channel `processFragment` computes is a `uint32_t`. -/
theorem lengthU_lt (length : Int) (channels : Nat) :
    (length % 4294967296).toNat / channels < 4294967296 := by
  have h1 : (length % 4294967296).toNat < 4294967296 := by omega
  exact lt_of_le_of_lt (Nat.div_le_self _ _) h1

/-- The method `processFragment` returns on every sound object in working
order, for every length. -/
theorem processFragment_defined (s : SoundSDL) (length : Int) (hok : SoundOk s) :
    ∃ s1, SoundSDL.processFragment s length = some s1 := by
  by_cases hi : s.myIsInitializedFlag = false
  · exact ⟨s, by unfold SoundSDL.processFragment; rw [if_pos hi]⟩
  · have hne1 : ¬ (s.myHardwareSpec.channels = 0) := by
      have := hok.channels_pos
      omega
    have hne2 : ¬ (s.myDisplayFrameRate = 0) := by
      have := hok.rate_pos
      omega
    obtain ⟨dcalls, q2, d1, d2, d3, _⟩ := drainPhase_spec s hok
    have hok2 : SoundOk { s with myTIASound := s.myTIASound ++ dcalls, myRegWriteQueue := q2 } :=
      ⟨d2, by rw [d3]; exact hok.cap_le, hok.freq_pos, hok.channels_pos, hok.rate_pos⟩
    obtain ⟨s3, h3⟩ := mainLoop_defined _ hok2 s.myHardwareSpec.channels
      ((length % 4294967296).toNat / s.myHardwareSpec.channels) (lengthU_lt _ _)
    unfold SoundSDL.processFragment
    rw [if_neg hi]
    simp only [hne1, hne2, if_false, duration_eq _ hok.queue hok.cap_le, d1, Option.some_bind]
    rw [show SoundSDL.fragmentLoop s.myHardwareSpec.freq s.myHardwareSpec.channels
        ((length % 4294967296).toNat / s.myHardwareSpec.channels)
        (RegWriteQueue.size q2 + 1)
        { s with myTIASound := s.myTIASound ++ dcalls, myRegWriteQueue := q2 } 0
        ((toInt32 ((length % 4294967296).toNat / s.myHardwareSpec.channels) : Int) : ℚ) = _
        from h3]
    exact ⟨_, rfl⟩

/-- On a well-formed queue `front` fails exactly when the queue is empty. -/
theorem front_none_iff (q : RegWriteQueue) (h : QInv q) :
    q.front = none ↔ q.size = 0 := by
  constructor
  · intro hf
    by_contra hne
    obtain ⟨e, _, _, h1, _⟩ := front_entries q h hne
    rw [h1] at hf
    exact absurd hf (by simp)
  · intro hz
    have hz2 : q.mySize = 0 := hz
    simp [RegWriteQueue.front, hz2]

/-- The loop that removes excess entries, entered with more pending delay than
`fragment_log2 / frame_rate`, returns with the queue size plus one as fuel. -/
theorem drainLoop_defined (s : SoundSDL) (hok : SoundOk s)
    (hgt : totalDelta (entries s.myRegWriteQueue) >
      s.myFragmentSizeLogBase2 / (s.myDisplayFrameRate : ℚ)) :
    ∃ s2, SoundSDL.drainLoop ((s.myFragmentSizeLogBase2 - 1) / (s.myDisplayFrameRate : ℚ))
        (s.myRegWriteQueue.size + 1) s 0 = some s2 ∧
      QInv s2.myRegWriteQueue ∧ s2.myRegWriteQueue.size ≤ s.myRegWriteQueue.size := by
  obtain ⟨dcalls, q2, d1, d2, _, _, _, d6, _⟩ := drainPhase_spec s hok
  rw [if_pos hgt] at d1
  exact ⟨_, d1, d2, d6⟩

/-- A `process` call that starts at sample `p` and ends at or before the end of
the fragment stays inside it. -/
theorem within_process (channels length p n : Nat) (hp : p + n ≤ length)
    (hlc : length * channels < 4294967296) :
    (SndCall.process (u32 (p * channels)) n).within channels length := by
  have h1 : p * channels ≤ length * channels := Nat.mul_le_mul_right _ (by omega)
  refine ⟨p, ?_, hp⟩
  unfold u32
  exact Nat.mod_eq_of_lt (by omega)

/-- Every call of the main loop stays inside the fragment. -/
theorem fragList_within (freq channels length : Nat) (hf : 0 < freq) (hch : 0 < channels)
    (hlc : length * channels < 4294967296) :
    ∀ (es : List RegWrite) (position remaining : ℚ), 0 ≤ position → 0 ≤ remaining →
      position + remaining = length →
      ∀ (calls : List SndCall) (rest : List RegWrite) (rst : Bool),
        fragList freq channels length es position remaining = some (calls, rest, rst) →
        ∀ c ∈ calls, c.within channels length := by
  have hfq : (0 : ℚ) < (freq : ℚ) := by exact_mod_cast hf
  have hfz : ¬ (freq = 0) := by omega
  have hlen : length < 4294967296 :=
    lt_of_le_of_lt (Nat.le_mul_of_pos_right _ hch) hlc
  have hl32 : (length : ℚ) < 4294967296 := by exact_mod_cast hlen
  have hfill : ∀ position : ℚ, 0 ≤ position → position ≤ length →
      ∃ c, SoundSDL.fillCall channels length position = some c ∧
        c.within channels length := by
    intro position hp hle
    refine ⟨_, fillCall_eq channels length position hp hle hlen, ?_⟩
    have h1 : ⌊position⌋₊ ≤ length :=
      (Nat.floor_mono hle).trans (le_of_eq (Nat.floor_natCast _))
    exact within_process _ _ _ _ (by omega) hlc
  intro es
  induction es with
  | nil =>
      intro position remaining hp hr hsum calls rest rst h c hc
      by_cases hrem : remaining > 0
      · obtain ⟨c1, hc1, hw⟩ := hfill position hp (by linarith)
        simp only [fragList, hrem, if_true, hc1, Option.map_some', Option.some.injEq,
          Prod.mk.injEq] at h
        rw [← h.1] at hc
        rw [List.mem_singleton.mp hc]
        exact hw
      · simp only [fragList, hrem, if_false, Option.some.injEq, Prod.mk.injEq] at h
        rw [← h.1] at hc
        exact absurd hc (List.not_mem_nil _)
  | cons e es ih =>
      intro position remaining hp hr hsum calls rest rst h c hc
      by_cases hrem : remaining > 0
      · by_cases hdur : e.delta ≤ remaining / (freq : ℚ)
        · have hfr : (freq : ℚ) * e.delta ≤ remaining := by
            have := (le_div_iff₀ hfq).mp hdur
            linarith
          by_cases hpos : e.delta > 0
          · have hfd : 0 ≤ (freq : ℚ) * e.delta := le_of_lt (mul_pos hfq hpos)
            have hseg := segmentCall_eq channels position ((freq : ℚ) * e.delta) hp hfd
              (by linarith)
            simp only [fragList, hrem, hfz, hdur, hpos, if_true, if_false, hseg,
              Option.some_bind, Option.map_eq_some'] at h
            obtain ⟨⟨c1, r1, b1⟩, hrec, he⟩ := h
            simp only [Prod.mk.injEq] at he
            rw [← he.1] at hc
            rcases List.mem_cons.mp hc with h1 | h1
            · rw [h1]
              have hm1 : ⌊position⌋₊ ≤ ⌊position + (freq : ℚ) * e.delta⌋₊ :=
                Nat.floor_mono (by linarith)
              have hm2 : ⌊position + (freq : ℚ) * e.delta⌋₊ ≤ length :=
                (Nat.floor_mono (by linarith)).trans (le_of_eq (Nat.floor_natCast _))
              exact within_process _ _ _ _ (by omega) hlc
            · rcases List.mem_cons.mp h1 with h2 | h2
              · rw [h2]
                exact True.intro
              · exact ih _ _ (by linarith) (by linarith) (by linarith) _ _ _ hrec c h2
          · simp only [fragList, hrem, hfz, hdur, hpos, if_true, if_false,
              Option.map_eq_some'] at h
            obtain ⟨⟨c1, r1, b1⟩, hrec, he⟩ := h
            simp only [Prod.mk.injEq] at he
            rw [← he.1] at hc
            rcases List.mem_cons.mp hc with h1 | h1
            · rw [h1]
              exact True.intro
            · exact ih _ _ hp hr hsum _ _ _ hrec c h1
        · obtain ⟨c1, hc1, hw⟩ := hfill position hp (by linarith)
          simp only [fragList, hrem, hfz, hdur, if_true, if_false, hc1, Option.map_some',
            Option.some.injEq, Prod.mk.injEq] at h
          rw [← h.1] at hc
          rw [List.mem_singleton.mp hc]
          exact hw
      · simp only [fragList, hrem, if_false, Option.some.injEq, Prod.mk.injEq] at h
        rw [← h.1] at hc
        exact absurd hc (List.not_mem_nil _)

/-- C1: for a 3F cartridge whose ROM size is a positive multiple of 2048,
installed with bankswitching unlocked, every sequence of `reset`, `bank`,
`poke`, `peek`, `patch` and `load` calls is defined and ends in a state with
`current_bank < bankCount() = size / 2048`. -/
theorem C1_current_bank_in_range (w0 : World) (ops : List Op) (hrom : RomOk w0.cart)
    (hpos : 0 < w0.cart.mySize) (hmul : w0.cart.mySize % 2048 = 0)
    (hl : w0.cart.bankLocked = false) (hk : ∀ op ∈ ops, op.keepsLock = true) :
    ∃ w, installThen w0 ops = some w ∧
      Cartridge3F.bankQuery w.cart < Cartridge3F.bankCount w.cart ∧
      Cartridge3F.bankCount w.cart = w0.cart.mySize / 2048 := by
  obtain ⟨w, h1, h2⟩ := installThen_good w0 ops hrom hpos hmul hl hk
  refine ⟨w, h1, ?_, ?_⟩
  · simpa [Cartridge3F.bankQuery, Cartridge3F.bankCount, h2.base.size_eq] using h2.inRange
  · simp [Cartridge3F.bankCount, h2.base.size_eq]

/-- C1 at a concrete machine: a 4K cartridge, a bank request out of range, a
hot-spot write, a patch and a load of a truncated stream. -/
theorem C1_current_bank_in_range_witness :
    ∃ w, installThen demoWorld
        [Op.bank 7, Op.poke 0x3F 5, Op.patch 0x1000 3, Op.peek 0x1FFF, Op.load [1, 2], Op.reset]
        = some w ∧
      Cartridge3F.bankQuery w.cart < Cartridge3F.bankCount w.cart ∧
      Cartridge3F.bankCount w.cart = demoWorld.cart.mySize / 2048 :=
  C1_current_bank_in_range demoWorld _ demo_romOk (by decide) (by decide) rfl (by decide)

/-- C2: on a system with an installed, unlocked 3F cartridge (ROM size a
positive multiple of 2048), in any state reached by cartridge calls, a bus
write `System.poke(a, v)` with `a` in `$00..$3F` and `v` a byte sets the
current bank to `v mod (size / 2048)`, forwards exactly one `TIA.poke(a, v)`,
and afterwards `System.peek(0x1000 + k)` returns
`image[(v mod (size / 2048)) * 2048 + k]` for every `k < 2048`. -/
theorem C2_hotspot_poke_selects_bank (E : External) (w0 : World) (ops : List Op) (a v : Nat)
    (hrom : RomOk w0.cart) (hpos : 0 < w0.cart.mySize) (hmul : w0.cart.mySize % 2048 = 0)
    (hl : w0.cart.bankLocked = false) (hk : ∀ op ∈ ops, op.keepsLock = true)
    (ha : a ≤ 0x3F) (hv : v < 256) :
    ∃ w w1, installThen w0 ops = some w ∧ System.poke w a v = some w1 ∧
      w1.cart.myCurrentBank = v % (w0.cart.mySize / 2048) ∧
      w1.calls = w.calls ++ [Call.poke Device.tia a v] ∧
      w1.cart.myImage = w.cart.myImage ∧
      ∀ k, k < 2048 →
        v % (w0.cart.mySize / 2048) * 2048 + k < w.cart.myImage.length ∧
        (System.peek E w1 (0x1000 + k)).map Prod.fst =
          w.cart.myImage[v % (w0.cart.mySize / 2048) * 2048 + k]? := by
  obtain ⟨w, h1, hg⟩ := installThen_good w0 ops hrom hpos hmul hl hk
  obtain ⟨w1, hp, hg1, himg, hcalls, hbank⟩ := poke_good _ w a v hg
  have ha4 : a % 4096 = a := by omega
  have hsel : w1.cart.myCurrentBank = v % (w0.cart.mySize / 2048) := by
    rw [hbank, ha4, if_pos ha]
    exact chosenBank_eq_mod _ v hmul (by omega)
  refine ⟨w, { w1 with sys := { w1.sys with myDataBusState := v } }, h1, ?_, hsel, ?_, himg, ?_⟩
  · rw [sys_poke_hot _ w a v hg (by omega), hp]
    rfl
  · rw [ha4] at hcalls
    exact hcalls
  · intro k hk2
    have hgb := good_bus _ w1 v hg1
    have hpk := sys_peek_low E _ _ (0x1000 + k) hgb (by omega) (by omega)
    have hk3 : (0x1000 + k) % 2048 = k := by omega
    rw [hk3] at hpk
    simp only [hsel, himg] at hpk
    exact hpk

/-- C2 at a concrete machine: `STA $00` with `A = 0x01` on a freshly installed
4K cartridge selects bank 1. -/
theorem C2_hotspot_poke_selects_bank_witness :
    ∃ w w1, installThen demoWorld [] = some w ∧ System.poke w 0x00 0x01 = some w1 ∧
      w1.cart.myCurrentBank = 1 ∧
      w1.calls = w.calls ++ [Call.poke Device.tia 0x00 0x01] ∧
      w1.cart.myImage = w.cart.myImage ∧
      ∀ k, k < 2048 →
        1 * 2048 + k < w.cart.myImage.length ∧
        (System.peek demoExternal w1 (0x1000 + k)).map Prod.fst =
          w.cart.myImage[1 * 2048 + k]? :=
  C2_hotspot_poke_selects_bank demoExternal demoWorld [] 0x00 0x01 demo_romOk (by decide)
    (by decide) rfl (by decide) (by decide) (by decide)

/-- C3: for an installed, unlocked 3F cartridge (ROM size a positive multiple
of 2048) in any state reached by cartridge calls, for every bank
`b < size / 2048` and every address `a` in `$1000..$17FF`: after `bank(b)` the
current bank is `b` and `System.peek(a)` returns
`image[b * 2048 + (a & 0x07FF)]`. -/
theorem C3_bank_maps_slice (E : External) (w0 : World) (ops : List Op) (b a : Nat)
    (hrom : RomOk w0.cart) (hpos : 0 < w0.cart.mySize) (hmul : w0.cart.mySize % 2048 = 0)
    (hl : w0.cart.bankLocked = false) (hk : ∀ op ∈ ops, op.keepsLock = true)
    (hb16 : b < 65536) (hb : b < w0.cart.mySize / 2048)
    (ha1 : 0x1000 ≤ a) (ha2 : a ≤ 0x17FF) :
    ∃ w w1, installThen w0 ops = some w ∧ Cartridge3F.bank w b = some w1 ∧
      Cartridge3F.bankQuery w1.cart = b ∧
      w1.cart.myImage = w.cart.myImage ∧
      b * 2048 + (a &&& 0x07FF) < w.cart.myImage.length ∧
      (System.peek E w1 a).map Prod.fst = w.cart.myImage[b * 2048 + (a &&& 0x07FF)]? := by
  obtain ⟨w, h1, hg⟩ := installThen_good w0 ops hrom hpos hmul hl hk
  obtain ⟨w1, hbk, hg1, hcur, himg, _⟩ := bank_good _ w b hg.base hg.unlocked
  have hsel : w1.cart.myCurrentBank = b := by
    rw [hcur]
    exact chosenBank_eq_self _ b hb16 (by omega)
  have hpk := sys_peek_low E _ w1 a hg1 (by omega) (by omega)
  simp only [hsel, himg] at hpk
  rw [and_07FF]
  exact ⟨w, w1, h1, hbk, hsel, himg, hpk.1, hpk.2⟩

/-- C3 at a concrete machine: bank 1 of a 4K cartridge read at `$1234`. -/
theorem C3_bank_maps_slice_witness :
    ∃ w w1, installThen demoWorld [Op.poke 0x3F 0] = some w ∧
      Cartridge3F.bank w 1 = some w1 ∧
      Cartridge3F.bankQuery w1.cart = 1 ∧
      w1.cart.myImage = w.cart.myImage ∧
      1 * 2048 + (0x1234 &&& 0x07FF) < w.cart.myImage.length ∧
      (System.peek demoExternal w1 0x1234).map Prod.fst =
        w.cart.myImage[1 * 2048 + (0x1234 &&& 0x07FF)]? :=
  C3_bank_maps_slice demoExternal demoWorld [Op.poke 0x3F 0] 1 0x1234 demo_romOk (by decide)
    (by decide) rfl (by decide) (by decide) (by decide) (by decide) (by decide)

/-- C4: for an installed 3F cartridge with a ROM of at least 2048 bytes,
locked or not, in every state reached by `bank`, `poke` and `reset` calls, for
every address `a` in `$1800..$1FFF`, `System.peek(a)` returns
`image[size - 2048 + (a & 0x07FF)]`: bank switching never changes the mapping
of the upper 2K segment. -/
theorem C4_upper_segment_fixed (E : External) (w0 : World) (ops : List Op) (a : Nat)
    (hrom : RomOk w0.cart) (hs : 2048 ≤ w0.cart.mySize)
    (hsw : ∀ op ∈ ops, op.isSwitch = true) (ha1 : 0x1800 ≤ a) (ha2 : a ≤ 0x1FFF) :
    ∃ w, installThen w0 ops = some w ∧ w.cart.myImage = w0.cart.myImage ∧
      w0.cart.mySize - 2048 + (a &&& 0x07FF) < w0.cart.myImage.length ∧
      (System.peek E w a).map Prod.fst =
        w0.cart.myImage[w0.cart.mySize - 2048 + (a &&& 0x07FF)]? := by
  obtain ⟨w1, h1, hu1⟩ := install_upper w0 hs
  obtain ⟨w, h2, hu⟩ := runOps_upper _ _ hs ops w1 hu1 hsw
  have hpk := sys_peek_high E w a (by rw [hu.size_eq]; exact hu.high)
    (by rw [hu.size_eq, hu.image_eq]; exact hrom.length_eq)
    (by rw [hu.size_eq]; exact hrom.size_lt) (by rw [hu.size_eq]; exact hs) (by omega)
  rw [hu.size_eq, hu.image_eq] at hpk
  rw [and_07FF]
  exact ⟨w, by simp [installThen, h1, h2], hu.image_eq, hpk.1, hpk.2⟩

/-- C4 at a concrete machine: after two bank switches and a reset the byte at
`$1FFC` is still the one of the last 2K of the image. -/
theorem C4_upper_segment_fixed_witness :
    ∃ w, installThen demoWorld [Op.bank 1, Op.poke 0x3F 0, Op.reset] = some w ∧
      w.cart.myImage = demoWorld.cart.myImage ∧
      demoWorld.cart.mySize - 2048 + (0x1FFC &&& 0x07FF) < demoWorld.cart.myImage.length ∧
      (System.peek demoExternal w 0x1FFC).map Prod.fst =
        demoWorld.cart.myImage[demoWorld.cart.mySize - 2048 + (0x1FFC &&& 0x07FF)]? :=
  C4_upper_segment_fixed demoExternal demoWorld [Op.bank 1, Op.poke 0x3F 0, Op.reset] 0x1FFC
    demo_romOk (by decide) (by decide) (by decide) (by decide)

/-- C5, evaluated where the code departs from it: on a freshly installed,
unlocked 4K cartridge the bus write `System.poke(0x1000, 1)`, an address of
the ROM window, is not ignored: the current bank goes from 0 to 1, the entry
of page 64 is rewritten and the write is forwarded to the TIA as
`TIA.poke(0x000, 1)`. -/
theorem C5_rom_window_poke_switches_bank :
    ∃ w w1, installThen demoWorld [] = some w ∧ System.poke w 0x1000 1 = some w1 ∧
      w.cart.myCurrentBank = 0 ∧ w1.cart.myCurrentBank = 1 ∧
      w1.sys.myPageAccessTable 64 ≠ w.sys.myPageAccessTable 64 ∧
      w1.calls = w.calls ++ [Call.poke Device.tia 0x000 1] := by
  obtain ⟨w, h1, hg, hb0, _⟩ := install_good demoWorld demo_romOk (by decide) (by decide) rfl
  obtain ⟨w1, hp, hg1, _, hcalls, hbank⟩ := poke_good _ w 0x1000 1 hg
  have hb1 : w1.cart.myCurrentBank = 1 := by
    rw [hbank, if_pos (by decide)]
    decide
  refine ⟨w, { w1 with sys := { w1.sys with myDataBusState := 1 } }, ?_, ?_, hb0, hb1, ?_,
    hcalls⟩
  · simp [installThen, h1, runOps]
  · rw [sys_poke_window _ w 0x1000 1 hg (by decide), hp]
    rfl
  · have e1 := hg1.low 64 (by decide) (by decide)
    have e0 := hg.low 64 (by decide) (by decide)
    rw [hb1] at e1
    rw [hb0] at e0
    show w1.sys.myPageAccessTable 64 ≠ w.sys.myPageAccessTable 64
    rw [e1, e0]
    decide

/-- The part of C5 the code keeps: in a state reached by cartridge calls a bus
write to `$1040..$1FFF` leaves the cartridge and the page-access table as they
are; it is only forwarded to the TIA. -/
theorem rom_poke_above_hotspots (w0 : World) (ops : List Op) (a v : Nat)
    (hrom : RomOk w0.cart) (hpos : 0 < w0.cart.mySize) (hmul : w0.cart.mySize % 2048 = 0)
    (hl : w0.cart.bankLocked = false) (hk : ∀ op ∈ ops, op.keepsLock = true)
    (ha1 : 0x1040 ≤ a) (ha2 : a ≤ 0x1FFF) :
    ∃ w w1, installThen w0 ops = some w ∧ System.poke w a v = some w1 ∧
      w1.cart = w.cart ∧ w1.sys.myPageAccessTable = w.sys.myPageAccessTable ∧
      w1.calls = w.calls ++ [Call.poke Device.tia (a &&& 0x0FFF) v] := by
  obtain ⟨w, h1, hg⟩ := installThen_good w0 ops hrom hpos hmul hl hk
  have hn : ¬ (a % 4096 ≤ 0x3F) := by omega
  refine ⟨w, { w with
      calls := w.calls ++ [Call.poke Device.tia (a % 4096) v]
      sys := { w.sys with myDataBusState := v } }, h1, ?_, rfl, rfl, ?_⟩
  · rw [sys_poke_window _ w a v hg (by omega)]
    simp only [Cartridge3F.poke, and_0FFF, hn, if_false, Option.map_some']
  · simp [and_0FFF]

/-- C6: the 3F variant is poke-only.  In every state and for every address
`a`, the hot spots `$00..$3F` included, a `System.peek(a)` or a
`Cartridge3F::peek(a)` that returns leaves the current bank, the page-access
table and the ROM image as they were. -/
theorem C6_peek_never_switches (E : External) (w : World) (a : Nat) :
    (∀ r w1, System.peek E w a = some (r, w1) →
      w1.cart.myCurrentBank = w.cart.myCurrentBank ∧
      w1.sys.myPageAccessTable = w.sys.myPageAccessTable ∧
      w1.cart.myImage = w.cart.myImage) ∧
    (∀ r w1, Cartridge3F.peek w a = some (r, w1) → w1 = w) := by
  have hc : ∀ x r w1, Cartridge3F.peek w x = some (r, w1) → w1 = w := by
    intro x r w1 h
    unfold Cartridge3F.peek at h
    rw [Option.map_eq_some'] at h
    obtain ⟨b, _, hb⟩ := h
    exact (congrArg Prod.snd hb).symm
  refine ⟨?_, hc a⟩
  intro r w1 h
  unfold System.peek at h
  rw [Option.map_eq_some'] at h
  obtain ⟨⟨r0, w2⟩, hr, hb⟩ := h
  have hw1 : w1 = { w2 with sys := { w2.sys with myDataBusState := r0 } } :=
    (congrArg Prod.snd hb).symm
  have key : w2.cart = w.cart ∧ w2.sys = w.sys := by
    cases hd : (w.sys.myPageAccessTable ((a &&& myAddressMask) >>> myPageSize)).directPeekBase with
    | some base =>
        simp only [hd, Option.map_eq_some'] at hr
        obtain ⟨b, _, hb2⟩ := hr
        have : w2 = w := (congrArg Prod.snd hb2).symm
        rw [this]
        exact ⟨rfl, rfl⟩
    | none =>
        simp only [hd] at hr
        cases hdev : (w.sys.myPageAccessTable ((a &&& myAddressMask) >>> myPageSize)).device with
        | cart =>
            simp only [hdev, devicePeek] at hr
            rw [hc a r0 w2 hr]
            exact ⟨rfl, rfl⟩
        | tia =>
            simp only [hdev, devicePeek, Option.some.injEq, Prod.mk.injEq] at hr
            rw [← hr.2]
            exact ⟨rfl, rfl⟩
        | nullDevice =>
            simp only [hdev, devicePeek, Option.some.injEq, Prod.mk.injEq] at hr
            rw [← hr.2]
            exact ⟨rfl, rfl⟩
        | other k =>
            simp only [hdev, devicePeek, Option.some.injEq, Prod.mk.injEq] at hr
            rw [← hr.2]
            exact ⟨rfl, rfl⟩
  rw [hw1]
  simp only [key.1, key.2, and_self]

/-- C6 at a concrete machine: a read of the hot spot `$3F` on a freshly
installed 4K cartridge returns and switches nothing. -/
theorem C6_peek_never_switches_witness :
    ∃ w r w1, installThen demoWorld [] = some w ∧
      System.peek demoExternal w 0x3F = some (r, w1) ∧
      w1.cart.myCurrentBank = w.cart.myCurrentBank ∧
      w1.sys.myPageAccessTable = w.sys.myPageAccessTable ∧
      w1.cart.myImage = w.cart.myImage := by
  obtain ⟨w, h1, hg⟩ := installThen_good demoWorld [] demo_romOk (by decide) (by decide) rfl
    (by decide)
  obtain ⟨r, hr⟩ := sys_peek_hot demoExternal _ w 0x3F hg (by decide)
  exact ⟨w, r, _, h1, hr, (C6_peek_never_switches demoExternal w 0x3F).1 r _ hr⟩

/-- C7: while `bankLocked` is true every switch attempt on a 3F cartridge is a
no-op.  In every locked state, `bank(b)` and `reset()` return the state as it
is, and `poke(a, v)` leaves the cartridge (current bank, image, lock), the
whole system (every page-access entry) and the other memory as they are, so
that `Cartridge3F::peek` and every bus read served by a direct pointer or by
the cartridge return the same bytes as before the call. -/
theorem C7_locked_switch_is_noop (E : External) (w : World) (b a v : Nat)
    (hl : w.cart.bankLocked = true) :
    Cartridge3F.bank w b = some w ∧ Cartridge3F.reset w = some w ∧
    ∃ w1, Cartridge3F.poke w a v = some w1 ∧
      w1.cart = w.cart ∧ w1.sys = w.sys ∧ w1.ram = w.ram ∧
      (∀ x, (Cartridge3F.peek w1 x).map Prod.fst = (Cartridge3F.peek w x).map Prod.fst) ∧
      (∀ x, ((w.sys.myPageAccessTable ((x &&& myAddressMask) >>> myPageSize)).directPeekBase ≠ none
          ∨ (w.sys.myPageAccessTable ((x &&& myAddressMask) >>> myPageSize)).device = Device.cart) →
        (System.peek E w1 x).map Prod.fst = (System.peek E w x).map Prod.fst) := by
  refine ⟨bank_locked w b hl, bank_locked w 0 hl,
    { w with calls := w.calls ++ [Call.poke Device.tia (a &&& 0x0FFF) v] }, ?_, rfl, rfl, rfl,
    ?_, ?_⟩
  · unfold Cartridge3F.poke
    by_cases h : a &&& 0x0FFF ≤ 0x003F
    · simp only [h, if_true, bank_locked w v hl, Option.map_some']
    · simp only [h, if_false, Option.map_some']
  · intro x
    simp only [Cartridge3F.peek, Option.map_map]
    rfl
  · intro x hx
    unfold System.peek
    cases hd : (w.sys.myPageAccessTable ((x &&& myAddressMask) >>> myPageSize)).directPeekBase with
    | some base =>
        simp only [hd, World.read, Option.map_map]
        rfl
    | none =>
        have hdev : (w.sys.myPageAccessTable ((x &&& myAddressMask) >>> myPageSize)).device =
            Device.cart := by
          rcases hx with h | h
          · exact absurd hd h
          · exact h
        simp only [hd, hdev, devicePeek, Cartridge3F.peek, Option.map_map]
        rfl

/-- C7 at a concrete machine: a locked 4K cartridge, asked for bank 1 through
`bank`, `reset` and a write to `$3F`. -/
theorem C7_locked_switch_is_noop_witness :
    Cartridge3F.bank (Cartridge3F.lockBank demoWorld) 1 = some (Cartridge3F.lockBank demoWorld) ∧
    Cartridge3F.reset (Cartridge3F.lockBank demoWorld) = some (Cartridge3F.lockBank demoWorld) ∧
    ∃ w1, Cartridge3F.poke (Cartridge3F.lockBank demoWorld) 0x3F 1 = some w1 ∧
      w1.cart = (Cartridge3F.lockBank demoWorld).cart ∧
      w1.sys = (Cartridge3F.lockBank demoWorld).sys ∧
      w1.ram = (Cartridge3F.lockBank demoWorld).ram ∧
      (∀ x, (Cartridge3F.peek w1 x).map Prod.fst =
        (Cartridge3F.peek (Cartridge3F.lockBank demoWorld) x).map Prod.fst) ∧
      (∀ x, (((Cartridge3F.lockBank demoWorld).sys.myPageAccessTable
            ((x &&& myAddressMask) >>> myPageSize)).directPeekBase ≠ none
          ∨ ((Cartridge3F.lockBank demoWorld).sys.myPageAccessTable
            ((x &&& myAddressMask) >>> myPageSize)).device = Device.cart) →
        (System.peek demoExternal w1 x).map Prod.fst =
          (System.peek demoExternal (Cartridge3F.lockBank demoWorld) x).map Prod.fst) :=
  C7_locked_switch_is_noop demoExternal (Cartridge3F.lockBank demoWorld) 1 0x3F 1 rfl

/-- C12: for every address `addr`, `System.peek(addr)` consults the
page-access entry `(addr & 0x1FFF) >> 6`, whose index is below
`128 = numberOfPages()`; when the entry has a direct-peek base the byte
returned is the one at offset `addr & 0x3F` from the base, otherwise it is the
byte `device.peek(addr)` returns. -/
theorem C12_peek_page_dispatch (E : External) (w : World) (addr : Nat) :
    (addr &&& 0x1FFF) >>> 6 < 128 ∧ System.numberOfPages = 128 ∧
    (System.peek E w addr).map Prod.fst =
      match (w.sys.myPageAccessTable ((addr &&& 0x1FFF) >>> 6)).directPeekBase with
      | some base => w.read (base.add (addr &&& 0x3F))
      | none =>
          (devicePeek E w (w.sys.myPageAccessTable ((addr &&& 0x1FFF) >>> 6)).device addr).map
            Prod.fst := by
  refine ⟨?_, by decide, ?_⟩
  · have h1 := and_addressMask addr
    have h2 := shr_pageSize (addr &&& myAddressMask)
    have e1 : (addr &&& 0x1FFF) = addr % 8192 := h1
    have e2 : (addr &&& 0x1FFF) >>> 6 = (addr &&& 0x1FFF) / 64 := h2
    rw [e2, e1]
    omega
  · show (System.peek E w addr).map Prod.fst =
      match (w.sys.myPageAccessTable ((addr &&& myAddressMask) >>> myPageSize)).directPeekBase with
      | some base => w.read (base.add (addr &&& myPageMask))
      | none =>
          (devicePeek E w
            (w.sys.myPageAccessTable ((addr &&& myAddressMask) >>> myPageSize)).device addr).map
            Prod.fst
    unfold System.peek
    generalize w.sys.myPageAccessTable ((addr &&& myAddressMask) >>> myPageSize) = acc
    obtain ⟨pk, po, dev⟩ := acc
    cases pk with
    | some base =>
        simp only [Option.map_map]
        cases w.read (base.add (addr &&& myPageMask)) <;> rfl
    | none =>
        simp only [Option.map_map]
        cases devicePeek E w dev addr <;> rfl

/-- C13: when the page of `addr` has no direct pointer, `System.peek(addr)` and
`System.poke(addr, v)` hand the owning device the address exactly as the
caller supplied it; the 13-bit mask only selects the page.  A device other
than the cartridge is called exactly once, with `addr` itself; the cartridge's
`peek` and `poke` are run on `addr` itself. -/
theorem C13_device_gets_unmasked_address (E : External) (w : World) (addr v : Nat) (d : Device)
    (hd : (w.sys.myPageAccessTable ((addr &&& 0x1FFF) >>> 6)).device = d) :
    ((w.sys.myPageAccessTable ((addr &&& 0x1FFF) >>> 6)).directPeekBase = none →
      (d ≠ Device.cart → ∃ r w1, System.peek E w addr = some (r, w1) ∧
        w1.calls = w.calls ++ [Call.peek d addr]) ∧
      (d = Device.cart → System.peek E w addr = (Cartridge3F.peek w addr).map fun p =>
        (p.1, { p.2 with sys := { p.2.sys with myDataBusState := p.1 } }))) ∧
    ((w.sys.myPageAccessTable ((addr &&& 0x1FFF) >>> 6)).directPokeBase = none →
      (d ≠ Device.cart → ∃ w1, System.poke w addr v = some w1 ∧
        w1.calls = w.calls ++ [Call.poke d addr v]) ∧
      (d = Device.cart → System.poke w addr v = (Cartridge3F.poke w addr v).map fun w1 =>
        { w1 with sys := { w1.sys with myDataBusState := v } })) := by
  have hd1 : (w.sys.myPageAccessTable ((addr &&& myAddressMask) >>> myPageSize)).device = d := hd
  refine ⟨fun hb => ⟨fun hc => sys_peek_external E w addr d hb hd1 hc, fun hc => ?_⟩,
    fun hb => ⟨fun hc => sys_poke_external w addr v d hb hd1 hc, fun hc => ?_⟩⟩
  · have hb1 : (w.sys.myPageAccessTable
        ((addr &&& myAddressMask) >>> myPageSize)).directPeekBase = none := hb
    unfold System.peek
    simp only [hb1, hd1, hc, devicePeek]
  · have hb1 : (w.sys.myPageAccessTable
        ((addr &&& myAddressMask) >>> myPageSize)).directPokeBase = none := hb
    unfold System.poke
    simp only [hb1, hd1, hc, devicePoke]

/-- C13 at a concrete machine: a read and a write of `$FFFF` on a system with
only the null device; the device is handed `$FFFF`, not `$1FFF`. -/
theorem C13_device_gets_unmasked_address_witness :
    (∃ r w1, System.peek demoExternal demoWorld 0xFFFF = some (r, w1) ∧
      w1.calls = demoWorld.calls ++ [Call.peek Device.nullDevice 0xFFFF]) ∧
    (∃ w1, System.poke demoWorld 0xFFFF 7 = some w1 ∧
      w1.calls = demoWorld.calls ++ [Call.poke Device.nullDevice 0xFFFF 7]) :=
  ⟨((C13_device_gets_unmasked_address demoExternal demoWorld 0xFFFF 7 Device.nullDevice rfl).1
      rfl).1 (by decide),
   ((C13_device_gets_unmasked_address demoExternal demoWorld 0xFFFF 7 Device.nullDevice rfl).2
      rfl).1 (by decide)⟩

/-- C14, refuted as stated: on a system with only the null device,
`System.poke(0xFFFF, 7)` and `System.peek(0xFFFF)` call the device with the
address `0xFFFF`, which is not below `0x2000`. -/
theorem C14_device_address_not_masked :
    (∃ w1, System.poke demoWorld 0xFFFF 7 = some w1 ∧
      w1.calls = [Call.poke Device.nullDevice 0xFFFF 7]) ∧
    (∃ r w1, System.peek demoExternal demoWorld 0xFFFF = some (r, w1) ∧
      w1.calls = [Call.peek Device.nullDevice 0xFFFF]) ∧
    ¬ (0xFFFF < 0x2000) :=
  ⟨⟨_, rfl, rfl⟩, ⟨_, _, rfl, rfl⟩, by decide⟩

/-- C14 as amended: the address `System.peek` or `System.poke` passes to a
device is the address given to the bus, unchanged.  For a 16-bit address it is
below `0x10000`, and it is below `0x2000` exactly when the caller's address is;
the mask to 13 bits only selects the page. -/
theorem C14_device_address_is_callers (E : External) (w : World) (addr v : Nat) (d : Device)
    (hd : (w.sys.myPageAccessTable ((addr &&& 0x1FFF) >>> 6)).device = d)
    (hc : d ≠ Device.cart) (h16 : addr < 0x10000) :
    ((w.sys.myPageAccessTable ((addr &&& 0x1FFF) >>> 6)).directPeekBase = none →
      ∃ r w1 c, System.peek E w addr = some (r, w1) ∧ w1.calls = w.calls ++ [c] ∧
        c.address = addr ∧ c.address < 0x10000 ∧ (c.address < 0x2000 ↔ addr < 0x2000)) ∧
    ((w.sys.myPageAccessTable ((addr &&& 0x1FFF) >>> 6)).directPokeBase = none →
      ∃ w1 c, System.poke w addr v = some w1 ∧ w1.calls = w.calls ++ [c] ∧
        c.address = addr ∧ c.address < 0x10000 ∧ (c.address < 0x2000 ↔ addr < 0x2000)) := by
  have hd1 : (w.sys.myPageAccessTable ((addr &&& myAddressMask) >>> myPageSize)).device = d := hd
  refine ⟨fun hb => ?_, fun hb => ?_⟩
  · obtain ⟨r, w1, h1, h2⟩ := sys_peek_external E w addr d hb hd1 hc
    exact ⟨r, w1, Call.peek d addr, h1, h2, rfl, h16, Iff.rfl⟩
  · obtain ⟨w1, h1, h2⟩ := sys_poke_external w addr v d hb hd1 hc
    exact ⟨w1, Call.poke d addr v, h1, h2, rfl, h16, Iff.rfl⟩

/-- C14 as amended, at a concrete machine: a read and a write of `$2080` on a
system with only the null device. -/
theorem C14_device_address_is_callers_witness :
    (∃ r w1 c, System.peek demoExternal demoWorld 0x2080 = some (r, w1) ∧
        w1.calls = demoWorld.calls ++ [c] ∧
        c.address = 0x2080 ∧ c.address < 0x10000 ∧ (c.address < 0x2000 ↔ 0x2080 < 0x2000)) ∧
    (∃ w1 c, System.poke demoWorld 0x2080 7 = some w1 ∧ w1.calls = demoWorld.calls ++ [c] ∧
        c.address = 0x2080 ∧ c.address < 0x10000 ∧ (c.address < 0x2000 ↔ 0x2080 < 0x2000)) :=
  ⟨(C14_device_address_is_callers demoExternal demoWorld 0x2080 7 Device.nullDevice rfl
      (by decide) (by decide)).1 rfl,
   (C14_device_address_is_callers demoExternal demoWorld 0x2080 7 Device.nullDevice rfl
      (by decide) (by decide)).2 rfl⟩

/-- C15, evaluated where the code departs from it: a freshly installed 4K
cartridge, the data bus then locked with the latch holding 0.
`System.peek(0x1000)` returns the ROM byte 10 and the latch holds 10
afterwards: the lock flag is not consulted. -/
theorem C15_locked_peek_updates_bus :
    ∃ w r w1, installThen demoWorld [] = some w ∧
      ({ w with sys := w.sys.lockDataBus } : World).sys.myDataBusLocked = true ∧
      System.getDataBusState ({ w with sys := w.sys.lockDataBus } : World).sys = 0 ∧
      System.peek demoExternal { w with sys := w.sys.lockDataBus } 0x1000 = some (r, w1) ∧
      r = 10 ∧ System.getDataBusState w1.sys = 10 := by
  obtain ⟨w, hi, hg, hb0, himg, _⟩ :=
    install_good demoWorld demo_romOk (by decide) (by decide) rfl
  have hbus : w.sys.myDataBusState = 0 := by
    rw [install_eq] at hi
    rw [bank_unlocked _ 0 rfl (by decide)] at hi
    have := (Option.some.inj hi).symm
    rw [this]
    rfl
  have hgl : Good demoWorld.cart.mySize ({ w with sys := w.sys.lockDataBus } : World) :=
    ⟨⟨⟨hg.base.rom.length_eq, hg.base.rom.size_lt⟩, hg.base.size_eq, hg.base.size_pos,
      hg.base.size_mul, ⟨hg.base.fixed.hot, hg.base.fixed.high⟩⟩, hg.unlocked, hg.inRange,
      hg.bank16, hg.low⟩
  have hpk := (sys_peek_low demoExternal _ _ 0x1000 hgl (by decide) (by decide)).2
  have e : (0 * 2048 + 0x1000 % 2048 : Nat) = 0 := by decide
  have hval : (System.peek demoExternal ({ w with sys := w.sys.lockDataBus } : World)
      0x1000).map Prod.fst = some 10 := by
    rw [hpk]
    show w.cart.myImage[w.cart.myCurrentBank * 2048 + 0x1000 % 2048]? = some 10
    rw [himg, hb0, e]
    exact demo_byte0
  rw [Option.map_eq_some'] at hval
  obtain ⟨⟨r, w1⟩, hp, hr⟩ := hval
  have hr10 : r = 10 := hr
  refine ⟨w, r, w1, ?_, rfl, hbus, hp, hr10, ?_⟩
  · simp only [installThen, hi, Option.some_bind, runOps]
  · rw [← hr10]
    exact peek_sets_bus demoExternal _ 0x1000 r w1 hp

/-- C16: with the data bus unlocked, for every address `a`, after
`r = System.peek(a)` the data-bus state equals the returned byte. -/
theorem C16_peek_sets_data_bus (E : External) (w : World) (a r : Nat) (w1 : World)
    (_hl : w.sys.myDataBusLocked = false) (h : System.peek E w a = some (r, w1)) :
    System.getDataBusState w1.sys = r :=
  peek_sets_bus E w a r w1 h

/-- C16 at a concrete machine: a read of `$0080` answered with the byte `0x80`
by the device that owns the page. -/
theorem C16_peek_sets_data_bus_witness :
    ∃ w1, System.peek ⟨fun _ _ a => a⟩ demoWorld 0x0080 = some (0x80, w1) ∧
      System.getDataBusState w1.sys = 0x80 :=
  ⟨_, rfl, C16_peek_sets_data_bus ⟨fun _ _ a => a⟩ demoWorld 0x0080 0x80 _ rfl rfl⟩

/-- C17: for every address `a` and value `v`, after `System.poke(a, v)` the
data-bus state equals `v`, whether the page is written through a direct
pointer or through its device and whether or not the data bus is locked. -/
theorem C17_poke_sets_data_bus (w : World) (a v : Nat) (w1 : World)
    (h : System.poke w a v = some w1) : System.getDataBusState w1.sys = v :=
  poke_sets_bus w a v w1 h

/-- C17 at a concrete machine: with the data bus locked, a write through a
direct pointer (`$0085`) and a write through a device (`$0005`). -/
theorem C17_poke_sets_data_bus_witness :
    (∃ w1, System.poke demoLockedWorld 0x0085 0x42 = some w1 ∧
      System.getDataBusState w1.sys = 0x42) ∧
    (∃ w1, System.poke demoLockedWorld 0x0005 0x42 = some w1 ∧
      System.getDataBusState w1.sys = 0x42) :=
  ⟨⟨_, rfl, C17_poke_sets_data_bus demoLockedWorld 0x0085 0x42 _ rfl⟩,
   ⟨_, rfl, C17_poke_sets_data_bus demoLockedWorld 0x0005 0x42 _ rfl⟩⟩

/-- C18: for every page whose direct-peek and direct-poke bases point at the
same 64-byte store of another device, and every address `a` that selects the
page: `System.poke(a, v)` followed by `System.peek(a)` returns `v`, and no
device is called: the call log, the cartridge and the page-access table are as
before. -/
theorem C18_ram_page_poke_then_peek (E : External) (w : World) (a v id off : Nat)
    (hpk : (w.sys.myPageAccessTable ((a &&& 0x1FFF) >>> 6)).directPeekBase =
      some ⟨Block.ram id, off⟩)
    (hpo : (w.sys.myPageAccessTable ((a &&& 0x1FFF) >>> 6)).directPokeBase =
      some ⟨Block.ram id, off⟩)
    (hlen : off + 64 ≤ (w.ram id).length) :
    ∃ w1, System.poke w a v = some w1 ∧ w1.calls = w.calls ∧ w1.cart = w.cart ∧
      w1.sys.myPageAccessTable = w.sys.myPageAccessTable ∧
      ∃ w2, System.peek E w1 a = some (v, w2) ∧ w2.calls = w.calls := by
  have hpk1 : (w.sys.myPageAccessTable ((a &&& myAddressMask) >>> myPageSize)).directPeekBase =
      some ⟨Block.ram id, off⟩ := hpk
  have hpo1 : (w.sys.myPageAccessTable ((a &&& myAddressMask) >>> myPageSize)).directPokeBase =
      some ⟨Block.ram id, off⟩ := hpo
  have hlt : off + a % 64 < (w.ram id).length := by omega
  refine ⟨{ w with
      ram := fun i => if i = id then (w.ram id).set (off + a % 64) v else w.ram i
      sys := { w.sys with myDataBusState := v } }, ?_, rfl, rfl, rfl, ?_⟩
  · unfold System.poke
    simp only [hpo1, Ptr.add, and_pageMask, World.write, hlt, if_true, Option.map_some']
  · refine ⟨{ w with
      ram := fun i => if i = id then (w.ram id).set (off + a % 64) v else w.ram i
      sys := { w.sys with myDataBusState := v } }, ?_, rfl⟩
    unfold System.peek
    simp only [hpk1, Ptr.add, and_pageMask, World.read, if_true, List.getElem?_set_self hlt,
      Option.map_some']

/-- C18 at a concrete machine: page 2 backed by a 64-byte block, written and
read back at `$0085`. -/
theorem C18_ram_page_poke_then_peek_witness :
    ∃ w1, System.poke demoRamWorld 0x0085 0x42 = some w1 ∧ w1.calls = demoRamWorld.calls ∧
      w1.cart = demoRamWorld.cart ∧
      w1.sys.myPageAccessTable = demoRamWorld.sys.myPageAccessTable ∧
      ∃ w2, System.peek demoExternal w1 0x0085 = some (0x42, w2) ∧
        w2.calls = demoRamWorld.calls :=
  C18_ram_page_poke_then_peek demoExternal demoRamWorld 0x0085 0x42 0 0 rfl rfl (by decide)

/-- C11: `load` rejects a mismatched name tag and changes nothing.  When the
first string of the stream is not `"Cartridge3F"`, `Cartridge3F::load` returns
false and leaves the whole machine (current bank, page-access table) as it
was; when it is not `"TIASound"`, `SoundSDL::load` returns false and leaves the
whole sound object (last register-set cycle, write queue, synthesizer) as it
was. -/
theorem C11_load_rejects_wrong_tag (w : World) (s : SoundSDL) (inp str rest : List Nat)
    (hs : Cartridge3F.getString inp = some (str, rest)) :
    (str ≠ Cartridge3F.nameBytes → Cartridge3F.load w inp = some (false, w, rest)) ∧
    (str ≠ SoundSDL.deviceBytes → SoundSDL.load s inp = (false, s, rest)) := by
  refine ⟨fun hne => ?_, fun hne => ?_⟩
  · simp only [Cartridge3F.load, hs, ne_eq, hne, not_false_eq_true, if_true]
  · simp only [SoundSDL.load, hs, ne_eq, hne, not_false_eq_true, if_true]

/-- C11 at a concrete stream: the tag `"State"` followed by one byte is
rejected by both `load` methods. -/
theorem C11_load_rejects_wrong_tag_witness :
    Cartridge3F.load demoWorld [5, 0, 0, 0, 83, 116, 97, 116, 101, 1] =
      some (false, demoWorld, [1]) ∧
    SoundSDL.load demoSound [5, 0, 0, 0, 83, 116, 97, 116, 101, 1] = (false, demoSound, [1]) :=
  ⟨(C11_load_rejects_wrong_tag demoWorld demoSound [5, 0, 0, 0, 83, 116, 97, 116, 101, 1]
      [83, 116, 97, 116, 101] [1] (by decide)).1 (by decide),
   (C11_load_rejects_wrong_tag demoWorld demoSound [5, 0, 0, 0, 83, 116, 97, 116, 101, 1]
      [83, 116, 97, 116, 101] [1] (by decide)).2 (by decide)⟩

/-- C19, refuted as stated: a queue constructed with capacity `2^31` and given
`2^31 + 1` calls of `enqueue`.  The unbounded FIFO list then holds `2^31 + 1`
entries, but the run of the queue is undefined: the last call finds the queue
full, `grow` computes the new capacity `2^31 * 2` in `uint32_t`, which is 0,
and copies the entries into an array of no elements. -/
theorem C19_capacity_doubling_overflows :
    runQ (RegWriteQueue.create 2147483648)
      (List.replicate 2147483649 (QOp.enqueue ⟨0x15, 0, 0⟩)) = none ∧
    (idealFifo [] (List.replicate 2147483649 (QOp.enqueue ⟨0x15, 0, 0⟩))).length =
      2147483649 := by
  refine ⟨?_, by rw [idealFifo_replicate_length]; rfl⟩
  have hrep : List.replicate 2147483649 (QOp.enqueue ⟨0x15, 0, 0⟩) =
      List.replicate 2147483648 (QOp.enqueue ⟨0x15, 0, 0⟩) ++ [QOp.enqueue ⟨0x15, 0, 0⟩] :=
    List.replicate_succ' 2147483648 _
  obtain ⟨cinv, cent⟩ := create_inv 2147483648 (by decide) (by decide)
  obtain ⟨q1, k, f1, f2, f3, f4⟩ :=
    runQ_refines (List.replicate 2147483648 (QOp.enqueue ⟨0x15, 0, 0⟩))
      (RegWriteQueue.create 2147483648) 0 cinv (Nat.le_refl _)
      (by rw [enqueueCount_replicate])
  have hsize : q1.mySize = 2147483648 := by
    have := congrArg List.length f3
    rw [entries_length, idealFifo_replicate_length, cent] at this
    simpa using this
  have hcap : q1.myCapacity = 2147483648 := by
    have hlt := f2.cap_lt
    have hc0 : (RegWriteQueue.create 2147483648).myCapacity = 2147483648 := rfl
    rw [f4, hc0] at hlt
    rw [f4, hc0]
    cases k with
    | zero => rfl
    | succ j =>
        have h1 : 1 ≤ 2 ^ j := Nat.one_le_two_pow
        rw [pow_succ] at hlt
        omega
  have hu : u32 (q1.myCapacity * 2) = 0 := by rw [hcap]; decide
  have hpos : 0 < q1.mySize := by omega
  have hne0 : ¬ (q1.myCapacity = 0) := by omega
  have hgrow : q1.grow = none := by
    simp only [RegWriteQueue.grow, hu, List.replicate_zero, RegWriteQueue.growLoop, hpos,
      if_true, hne0, if_false, List.length_nil, Nat.lt_irrefl]
    split <;> rfl
  rw [hrep, runQ_append, f1]
  simp only [Option.some_bind, runQ, QOp.run, RegWriteQueue.enqueue, hsize, hcap, if_true,
    hgrow, Option.none_bind]

/-- C19 as amended: starting from an empty queue of capacity `c0`, with
`1 ≤ c0 < 2^32`, every sequence of `enqueue`, `dequeue` and `clear` calls with
at most `2^31` calls of `enqueue` is defined; afterwards `size()` is the length
of the unbounded FIFO list given the same calls, and the entries observed
head-first, `front()` followed by `dequeue()` as many times as the size, are
the entries of that list in order, also across capacity growth; the capacity is
`c0` times a power of two. -/
theorem C19_queue_refines_fifo (c0 : Nat) (ops : List QOp) (hc1 : 1 ≤ c0)
    (hc2 : c0 < 4294967296) (hn : enqueueCount ops ≤ 2147483648) :
    ∃ q k, runQ (RegWriteQueue.create c0) ops = some q ∧
      q.size = (idealFifo [] ops).length ∧
      drain q.size q = some (idealFifo [] ops) ∧
      q.myCapacity = c0 * 2 ^ k := by
  obtain ⟨cinv, cent⟩ := create_inv c0 hc1 hc2
  obtain ⟨q, k, f1, f2, f3, f4⟩ :=
    runQ_refines ops (RegWriteQueue.create c0) 0 cinv (Nat.le_refl _) (by omega)
  rw [cent] at f3
  refine ⟨q, k, f1, ?_, ?_, f4⟩
  · rw [← f3, entries_length]
    rfl
  · rw [← f3]
    exact drain_entries q.mySize q f2 rfl

/-- C19 as amended, at a concrete run: capacity 1, five entries enqueued around
a `dequeue` and a `clear`, so that the capacity doubles twice. -/
theorem C19_queue_refines_fifo_witness :
    ∃ q k, runQ (RegWriteQueue.create 1)
        [QOp.enqueue ⟨0x15, 1, 0⟩, QOp.enqueue ⟨0x16, 2, 0⟩, QOp.dequeue, QOp.clear,
         QOp.dequeue, QOp.enqueue ⟨0x17, 3, 0⟩, QOp.enqueue ⟨0x18, 4, 0⟩,
         QOp.enqueue ⟨0x19, 5, 0⟩] = some q ∧
      q.size = 3 ∧
      drain q.size q = some [⟨0x17, 3, 0⟩, ⟨0x18, 4, 0⟩, ⟨0x19, 5, 0⟩] ∧
      q.myCapacity = 1 * 2 ^ k :=
  C19_queue_refines_fifo 1 _ (by decide) (by decide) (by decide)

/-- C20: on a well-formed write queue that can take one more entry, with an
`int` difference `cycle - last_register_set_cycle` that does not overflow and a
display frame rate other than 0, `SoundSDL::set(addr, value, cycle)` appends
exactly one entry `{addr, value, delta}` at the tail of the queue, with
`delta = (cycle - last_register_set_cycle) / 1193191.66666667`, and then sets
`last_register_set_cycle = cycle`.  The frame-rate scaling factor is 1, and the
queue that results is the same for every frame rate other than 0. -/
theorem C20_set_enqueues_delta (s : SoundSDL) (addr value : Nat) (cycle : Int)
    (hq : QInv s.myRegWriteQueue)
    (hroom : s.myRegWriteQueue.mySize < s.myRegWriteQueue.myCapacity ∨
      2 * s.myRegWriteQueue.myCapacity < 4294967296)
    (hlo : -2147483648 ≤ cycle - s.myLastRegisterSetCycle)
    (hhi : cycle - s.myLastRegisterSetCycle ≤ 2147483647)
    (hfr : s.myDisplayFrameRate ≠ 0) :
    ∃ s1, s.set addr value cycle = some s1 ∧
      entries s1.myRegWriteQueue = entries s.myRegWriteQueue ++
        [⟨addr, value, ((cycle - s.myLastRegisterSetCycle : Int) : ℚ) / 1193191.66666667⟩] ∧
      s1.myRegWriteQueue.size = s.myRegWriteQueue.size + 1 ∧
      s1.myLastRegisterSetCycle = cycle ∧
      (s.myDisplayFrameRate : ℚ) / (s.myDisplayFrameRate : ℚ) = 1 ∧
      ∀ fr : Nat, fr ≠ 0 →
        (({ s with myDisplayFrameRate := fr } : SoundSDL).set addr value cycle).map
          (fun t => t.myRegWriteQueue) = some s1.myRegWriteQueue := by
  have hrange : ¬ (cycle - s.myLastRegisterSetCycle < -2147483648 ∨
      2147483647 < cycle - s.myLastRegisterSetCycle) := by omega
  have hone : ∀ fr : Nat, fr ≠ 0 → (fr : ℚ) / (fr : ℚ) = 1 := fun fr h =>
    div_self (Nat.cast_ne_zero.mpr h)
  obtain ⟨q1, k, e1, e2, e3, e4⟩ := enqueue_inv s.myRegWriteQueue
    ⟨addr, value, ((cycle - s.myLastRegisterSetCycle : Int) : ℚ) / SoundSDL.tiaClock⟩ hq hroom
  refine ⟨{ s with
      myRegWriteQueue := q1
      myLastRegisterSetCycle := cycle
      sdl := (s.sdl ++ [SdlCall.lockAudio]) ++ [SdlCall.unlockAudio] }, ?_, e3, ?_, rfl,
    hone _ hfr, ?_⟩
  · simp only [SoundSDL.set, hrange, if_false, hfr, hone _ hfr, mul_one, e1, Option.map_some']
  · have := congrArg List.length e3
    rw [entries_length, List.length_append, entries_length] at this
    simpa [RegWriteQueue.size] using this
  · intro fr hfr2
    simp only [SoundSDL.set, hrange, if_false, hfr2, hone _ hfr2, mul_one, e1, Option.map_some']

/-- C20 at a concrete call: `set(0x15, 8, 1193)` on a sound object whose last
register write was at cycle 0. -/
theorem C20_set_enqueues_delta_witness :
    ∃ s1, demoSound.set 0x15 8 1193 = some s1 ∧
      entries s1.myRegWriteQueue = entries demoSound.myRegWriteQueue ++
        [⟨0x15, 8, (((1193 : Int) - demoSound.myLastRegisterSetCycle : Int) : ℚ) /
          1193191.66666667⟩] ∧
      s1.myRegWriteQueue.size = demoSound.myRegWriteQueue.size + 1 ∧
      s1.myLastRegisterSetCycle = 1193 ∧
      (demoSound.myDisplayFrameRate : ℚ) / (demoSound.myDisplayFrameRate : ℚ) = 1 ∧
      ∀ fr : Nat, fr ≠ 0 →
        (({ demoSound with myDisplayFrameRate := fr } : SoundSDL).set 0x15 8 1193).map
          (fun t => t.myRegWriteQueue) = some s1.myRegWriteQueue :=
  C20_set_enqueues_delta demoSound 0x15 8 1193 (create_inv 2 (by decide) (by decide)).1
    (Or.inl (by decide)) (by decide) (by decide) (by decide)

/-- C21: on an initialised sound object in working order (well-formed queue of
any content, sample rate, channel count and frame rate other than 0), one
`processFragment(stream, length)` call with `0 <= length < 2^31` returns, and
the numbers of samples of all its `process` calls add up to exactly
`length / channels`. -/
theorem C21_fragment_sample_total (s : SoundSDL) (length : Int)
    (hi : s.myIsInitializedFlag = true) (hok : SoundOk s)
    (h0 : 0 ≤ length) (h1 : length < 2147483648) :
    ∃ s1 calls, SoundSDL.processFragment s length = some s1 ∧
      s1.myTIASound = s.myTIASound ++ calls ∧
      samplesOf calls = length.toNat / s.myHardwareSpec.channels := by
  obtain ⟨dcalls, q2, calls, rest, rst, s1, p1, _, d4, _, _, _, _, f2, _, _, _, _, _, p3, _⟩ :=
    processFragment_eq s length hi hok h0 h1
  refine ⟨s1, dcalls ++ calls, p1, p3, ?_⟩
  rw [samplesOf_append, d4, f2, Nat.zero_add]

/-- C21 at a fragment of 1024 samples with one write pending. -/
theorem C21_fragment_sample_total_witness :
    ∃ s1 calls, SoundSDL.processFragment demoPending 1024 = some s1 ∧
      s1.myTIASound = demoPending.myTIASound ++ calls ∧
      samplesOf calls = (1024 : Int).toNat / demoPending.myHardwareSpec.channels :=
  C21_fragment_sample_total demoPending 1024 rfl demoPending_ok (by decide) (by decide)

/-- C23: register writes reach the synthesizer in enqueue order.  Take an
initialised sound object in working order and any sequence of `set` and
`processFragment` calls (no mute, reset or load) with cycle counts and
fragment lengths that are non-negative `int` values, the entries queued at the
start and the `set` calls together numbering at most `2^30`.  Every call
returns, and the `(addr, value)` pairs
that `processFragment` applies to the synthesizer, followed by the pairs still
queued, are exactly the pairs queued at the start followed by the pairs passed
to `set()`: the applied pairs are a prefix, each write is applied once, and
every write removed from the queue is applied.  From an empty queue the applied
pairs are a prefix of the pairs passed to `set()`. -/
theorem C23_writes_reach_synth_in_order (ops : List SOp) (s : SoundSDL)
    (hi : s.myIsInitializedFlag = true) (hok : SoundOk s)
    (hl0 : 0 ≤ s.myLastRegisterSetCycle) (hl1 : s.myLastRegisterSetCycle < 2147483648)
    (hops : ∀ op ∈ ops, op.inRange)
    (hroom : s.myRegWriteQueue.mySize + (passedWrites ops).length ≤ 1073741824) :
    ∃ s1 calls, runS ops s = some s1 ∧ s1.myTIASound = s.myTIASound ++ calls ∧
      writesOf calls ++ pairsOf (entries s1.myRegWriteQueue) =
        pairsOf (entries s.myRegWriteQueue) ++ passedWrites ops ∧
      writesOf calls <+: pairsOf (entries s.myRegWriteQueue) ++ passedWrites ops ∧
      (s.myRegWriteQueue.mySize = 0 → writesOf calls <+: passedWrites ops) := by
  obtain ⟨s1, calls, a1, a2, a3⟩ := runS_spec ops s hi hok hl0 hl1 hops hroom
  refine ⟨s1, calls, a1, a2, a3, ⟨_, a3⟩, ?_⟩
  intro hz
  rw [entries_nil_of_size _ hz] at a3
  exact ⟨_, a3⟩

/-- C23 at two writes, a fragment of 1024 samples, and a third write. -/
theorem C23_writes_reach_synth_in_order_witness :
    ∃ s1 calls,
      runS [SOp.set 0x15 8 1193, SOp.set 0x16 3 2386, SOp.processFragment 1024,
        SOp.set 0x17 1 3000] demoSound = some s1 ∧
      s1.myTIASound = demoSound.myTIASound ++ calls ∧
      writesOf calls ++ pairsOf (entries s1.myRegWriteQueue) =
        pairsOf (entries demoSound.myRegWriteQueue) ++
          passedWrites [SOp.set 0x15 8 1193, SOp.set 0x16 3 2386, SOp.processFragment 1024,
            SOp.set 0x17 1 3000] ∧
      writesOf calls <+: pairsOf (entries demoSound.myRegWriteQueue) ++
        passedWrites [SOp.set 0x15 8 1193, SOp.set 0x16 3 2386, SOp.processFragment 1024,
          SOp.set 0x17 1 3000] ∧
      (demoSound.myRegWriteQueue.mySize = 0 →
        writesOf calls <+: passedWrites [SOp.set 0x15 8 1193, SOp.set 0x16 3 2386,
          SOp.processFragment 1024, SOp.set 0x17 1 3000]) :=
  C23_writes_reach_synth_in_order _ demoSound rfl demoSound_ok (by decide) (by decide)
    (by simp [SOp.inRange]) (by decide)

/-- C25: TIA-audio save/load round trip.  `save` returns true and emits, in
order, the tag `"TIASound"`, the six register values read from `$15`, `$16`,
`$17`, `$18`, `$19`, `$1A` (zeros when sound is not initialised) and
`last_register_set_cycle`; a following `load` of that stream on an initialised
sound object returns true, consumes exactly that stream, restores
`last_register_set_cycle`, leaves the write queue empty and writes those six
values to the synthesizer registers `$15..$1A` in that order. -/
theorem C25_sound_save_load_round_trip (get : List SndCall → Nat → Nat)
    (s1 s2 : SoundSDL) (rest : List Nat) (hi2 : s2.myIsInitializedFlag = true)
    (hl0 : -2147483648 ≤ s1.myLastRegisterSetCycle)
    (hl1 : s1.myLastRegisterSetCycle < 2147483648) :
    SoundSDL.save get s1 [] =
      (true, Cartridge3F.putString [] "TIASound" ++
        (Cartridge3F.putInt [] (savedReg get s1 0x15) ++
          (Cartridge3F.putInt [] (savedReg get s1 0x16) ++
            (Cartridge3F.putInt [] (savedReg get s1 0x17) ++
              (Cartridge3F.putInt [] (savedReg get s1 0x18) ++
                (Cartridge3F.putInt [] (savedReg get s1 0x19) ++
                  (Cartridge3F.putInt [] (savedReg get s1 0x1a) ++
                    Cartridge3F.putInt [] s1.myLastRegisterSetCycle))))))) ∧
    ∃ s3, SoundSDL.load s2 ((SoundSDL.save get s1 []).2 ++ rest) = (true, s3, rest) ∧
      s3.myLastRegisterSetCycle = s1.myLastRegisterSetCycle ∧
      s3.myRegWriteQueue.size = 0 ∧ entries s3.myRegWriteQueue = [] ∧
      s3.myTIASound = s2.myTIASound ++
        [SndCall.set 0x15 (savedReg get s1 0x15), SndCall.set 0x16 (savedReg get s1 0x16),
         SndCall.set 0x17 (savedReg get s1 0x17), SndCall.set 0x18 (savedReg get s1 0x18),
         SndCall.set 0x19 (savedReg get s1 0x19), SndCall.set 0x1a (savedReg get s1 0x1a)] := by
  refine ⟨sound_save_eq get s1, ?_⟩
  have hl := loadInts_saved _ _ _ _ _ _ s1.myLastRegisterSetCycle rest
    (savedReg_lt get s1 0x15) (savedReg_lt get s1 0x16) (savedReg_lt get s1 0x17)
    (savedReg_lt get s1 0x18) (savedReg_lt get s1 0x19) (savedReg_lt get s1 0x1a) hl0 hl1
  refine ⟨{ s2 with
      myLastRegisterSetCycle := s1.myLastRegisterSetCycle
      sdl := s2.sdl ++ [SdlCall.pauseAudio 1, SdlCall.pauseAudio 0]
      myRegWriteQueue := s2.myRegWriteQueue.clear
      myTIASound := s2.myTIASound ++
        [SndCall.set 0x15 (savedReg get s1 0x15), SndCall.set 0x16 (savedReg get s1 0x16),
         SndCall.set 0x17 (savedReg get s1 0x17), SndCall.set 0x18 (savedReg get s1 0x18),
         SndCall.set 0x19 (savedReg get s1 0x19), SndCall.set 0x1a (savedReg get s1 0x1a)] },
    ?_, rfl, rfl, ?_, rfl⟩
  · rw [sound_save_eq]
    simp only [List.append_assoc]
    simp only [SoundSDL.load, getString_tiaSound, ne_eq, not_true_eq_false, if_false, hl, hi2,
      if_true, List.getD_cons_zero, List.getD_cons_succ]
  · simp [entries, RegWriteQueue.clear]

/-- C25 at a sound object with one pending write, loaded into a fresh one; the
synthesizer reports the register number as its value. -/
theorem C25_sound_save_load_round_trip_witness :
    SoundSDL.save (fun _ addr => addr) demoPending [] =
      (true, Cartridge3F.putString [] "TIASound" ++
        (Cartridge3F.putInt [] (savedReg (fun _ addr => addr) demoPending 0x15) ++
          (Cartridge3F.putInt [] (savedReg (fun _ addr => addr) demoPending 0x16) ++
            (Cartridge3F.putInt [] (savedReg (fun _ addr => addr) demoPending 0x17) ++
              (Cartridge3F.putInt [] (savedReg (fun _ addr => addr) demoPending 0x18) ++
                (Cartridge3F.putInt [] (savedReg (fun _ addr => addr) demoPending 0x19) ++
                  (Cartridge3F.putInt [] (savedReg (fun _ addr => addr) demoPending 0x1a) ++
                    Cartridge3F.putInt [] demoPending.myLastRegisterSetCycle))))))) ∧
    ∃ s3, SoundSDL.load demoSound
        ((SoundSDL.save (fun _ addr => addr) demoPending []).2 ++ [7]) = (true, s3, [7]) ∧
      s3.myLastRegisterSetCycle = demoPending.myLastRegisterSetCycle ∧
      s3.myRegWriteQueue.size = 0 ∧ entries s3.myRegWriteQueue = [] ∧
      s3.myTIASound = demoSound.myTIASound ++
        [SndCall.set 0x15 (savedReg (fun _ addr => addr) demoPending 0x15),
         SndCall.set 0x16 (savedReg (fun _ addr => addr) demoPending 0x16),
         SndCall.set 0x17 (savedReg (fun _ addr => addr) demoPending 0x17),
         SndCall.set 0x18 (savedReg (fun _ addr => addr) demoPending 0x18),
         SndCall.set 0x19 (savedReg (fun _ addr => addr) demoPending 0x19),
         SndCall.set 0x1a (savedReg (fun _ addr => addr) demoPending 0x1a)] :=
  C25_sound_save_load_round_trip (fun _ addr => addr) demoPending demoSound [7] rfl
    (by decide) (by decide)

/-- C26, as stated, fails on a sound object that is not initialised: the
object the constructor leaves when sound is disabled has volume 100, and on it
`adjustVolume(-1)` keeps the volume at 100 although 98 is in `[0, 100]`, and
`setVolume(50)` keeps it at 100 although 50 is in `[0, 100]`. -/
theorem C26_uninitialised_keeps_volume :
    demoSilent.myIsInitializedFlag = false ∧ demoSilent.myVolume = 100 ∧
    (demoSilent.adjustVolume (-1)).map (fun t => t.myVolume) = some 100 ∧
    (demoSilent.setVolume 50).myVolume = 100 := by
  refine ⟨rfl, rfl, ?_, ?_⟩
  · rw [adjustVolume_eq demoSilent (-1) (by decide)]
    simp [demoSilent, demoSound, SoundSDL.setVolume]
  · rw [setVolume_volume]
    simp [demoSilent, demoSound]

/-- C26, amended: volume stays in `[0, 100]`.  On a sound object whose volume
is in `[0, 100]`: `setVolume(p)` sets the volume to `p` when the object is
initialised and `0 <= p <= 100`, and leaves it unchanged otherwise;
`adjustVolume(+1 / -1)` changes it by exactly `+2 / -2` when the object is
initialised and the result is in `[0, 100]`, and leaves it unchanged
otherwise; hence every sequence of `setVolume` and `adjustVolume` calls
returns and leaves the volume in `[0, 100]`. -/
theorem C26_volume_stays_in_range (ops : List VOp) (s : SoundSDL)
    (hv : s.myVolume ≤ 100) :
    (∀ p : Int, (s.setVolume p).myVolume =
      if s.myIsInitializedFlag = true ∧ 0 ≤ p ∧ p ≤ 100 then p.toNat else s.myVolume) ∧
    (s.adjustVolume 1).map (fun t => t.myVolume) =
      some (if s.myIsInitializedFlag = true ∧ s.myVolume + 2 ≤ 100 then s.myVolume + 2
        else s.myVolume) ∧
    (s.adjustVolume (-1)).map (fun t => t.myVolume) =
      some (if s.myIsInitializedFlag = true ∧ 2 ≤ s.myVolume then s.myVolume - 2
        else s.myVolume) ∧
    ∃ s1, runV ops s = some s1 ∧ s1.myVolume ≤ 100 := by
  refine ⟨setVolume_volume s, ?_, ?_, runV_le ops s hv⟩
  · rw [adjustVolume_eq s 1 hv]
    have hd : ¬ ((1 : Int) = -1) := by decide
    simp only [hd, if_false, if_true, Option.map_some', Option.some.injEq]
    by_cases h2 : 98 < s.myVolume
    · have hn : ¬ (s.myIsInitializedFlag = true ∧ s.myVolume + 2 ≤ 100) := by omega
      rw [if_pos h2, if_neg hn]
    · rw [if_neg h2, setVolume_volume]
      by_cases hi : s.myIsInitializedFlag = true
      · have h3 : s.myIsInitializedFlag = true ∧ 0 ≤ (s.myVolume : Int) + 2 ∧
            (s.myVolume : Int) + 2 ≤ 100 := ⟨hi, by omega, by omega⟩
        have h4 : s.myIsInitializedFlag = true ∧ s.myVolume + 2 ≤ 100 := ⟨hi, by omega⟩
        rw [if_pos h3, if_pos h4]
        omega
      · have h3 : ¬ (s.myIsInitializedFlag = true ∧ 0 ≤ (s.myVolume : Int) + 2 ∧
            (s.myVolume : Int) + 2 ≤ 100) := fun h => hi h.1
        have h4 : ¬ (s.myIsInitializedFlag = true ∧ s.myVolume + 2 ≤ 100) := fun h => hi h.1
        rw [if_neg h3, if_neg h4]
  · rw [adjustVolume_eq s (-1) hv]
    simp only [if_true, Option.map_some', Option.some.injEq]
    by_cases h2 : s.myVolume < 2
    · have hn : ¬ (s.myIsInitializedFlag = true ∧ 2 ≤ s.myVolume) := by omega
      rw [if_pos h2, if_neg hn]
    · rw [if_neg h2, setVolume_volume]
      by_cases hi : s.myIsInitializedFlag = true
      · have h3 : s.myIsInitializedFlag = true ∧ 0 ≤ (s.myVolume : Int) - 2 ∧
            (s.myVolume : Int) - 2 ≤ 100 := ⟨hi, by omega, by omega⟩
        have h4 : s.myIsInitializedFlag = true ∧ 2 ≤ s.myVolume := ⟨hi, by omega⟩
        rw [if_pos h3, if_pos h4]
        omega
      · have h3 : ¬ (s.myIsInitializedFlag = true ∧ 0 ≤ (s.myVolume : Int) - 2 ∧
            (s.myVolume : Int) - 2 ≤ 100) := fun h => hi h.1
        have h4 : ¬ (s.myIsInitializedFlag = true ∧ 2 ≤ s.myVolume) := fun h => hi h.1
        rw [if_neg h3, if_neg h4]

/-- C26, amended, at an initialised object with volume 100 and the calls
`adjustVolume(-1)`, `setVolume(150)`, `adjustVolume(+1)`, `adjustVolume(+1)`. -/
theorem C26_volume_stays_in_range_witness :
    (∀ p : Int, (demoSound.setVolume p).myVolume =
      if demoSound.myIsInitializedFlag = true ∧ 0 ≤ p ∧ p ≤ 100 then p.toNat
      else demoSound.myVolume) ∧
    (demoSound.adjustVolume 1).map (fun t => t.myVolume) =
      some (if demoSound.myIsInitializedFlag = true ∧ demoSound.myVolume + 2 ≤ 100 then
        demoSound.myVolume + 2 else demoSound.myVolume) ∧
    (demoSound.adjustVolume (-1)).map (fun t => t.myVolume) =
      some (if demoSound.myIsInitializedFlag = true ∧ 2 ≤ demoSound.myVolume then
        demoSound.myVolume - 2 else demoSound.myVolume) ∧
    ∃ s1, runV [VOp.adjustVolume (-1), VOp.setVolume 150, VOp.adjustVolume 1,
        VOp.adjustVolume 1] demoSound = some s1 ∧ s1.myVolume ≤ 100 :=
  C26_volume_stays_in_range _ demoSound (by decide)

/-- C28: after `install` on a system with 64-byte pages, an unlocked 3F
cartridge with a ROM that is not empty owns the whole cartridge window and the
hot-spot page: page 0 (`$00..$3F`) has the cartridge as device with no
direct-peek and no direct-poke pointer; every page of `$1000..$1FFF` (pages
64..127) has the cartridge as device, a direct-peek pointer set and no
direct-poke pointer; the current bank is 0, and the pages 64..95 point into
the first 2K of the image, page `p` at offset `64 * (p - 64)`. -/
theorem C28_install_owns_window (w0 : World) (hl : w0.cart.bankLocked = false)
    (hpos : 0 < w0.cart.mySize) :
    ∃ w, Cartridge3F.install w0 = some w ∧
      w.sys.myPageAccessTable 0 = ⟨none, none, Device.cart⟩ ∧
      (∀ p, 64 ≤ p → p < 128 →
        (w.sys.myPageAccessTable p).device = Device.cart ∧
        (w.sys.myPageAccessTable p).directPeekBase ≠ none ∧
        (w.sys.myPageAccessTable p).directPokeBase = none) ∧
      Cartridge3F.bankQuery w.cart = 0 ∧
      (∀ p, 64 ≤ p → p < 96 →
        (w.sys.myPageAccessTable p).directPeekBase = some ⟨Block.image, 64 * (p - 64)⟩) := by
  refine ⟨_, (install_eq w0).trans (bank_zero_unlocked _ hl hpos), ?_, ?_, rfl, ?_⟩
  · simp [remapLow, installPages, Cartridge3F.hotspotAccess]
  · intro p h1 h2
    by_cases h3 : p < 96
    · have hy : 64 ≤ p ∧ p < 96 := ⟨h1, h3⟩
      simp [remapLow, hy, Cartridge3F.bankAccess]
    · have hn : ¬ (64 ≤ p ∧ p < 96) := by omega
      have hy : 96 ≤ p ∧ p < 128 := by omega
      simp [remapLow, installPages, hn, hy, Cartridge3F.fixedAccess]
  · intro p h1 h2
    have hy : 64 ≤ p ∧ p < 96 := ⟨h1, h2⟩
    have hm : 64 * p % 2048 = 64 * (p - 64) := by omega
    simp [remapLow, hy, Cartridge3F.bankAccess, and_07FF, hm]

/-- C28 at a concrete machine: the 4K cartridge `demoCart`. -/
theorem C28_install_owns_window_witness :
    ∃ w, Cartridge3F.install demoWorld = some w ∧
      w.sys.myPageAccessTable 0 = ⟨none, none, Device.cart⟩ ∧
      (∀ p, 64 ≤ p → p < 128 →
        (w.sys.myPageAccessTable p).device = Device.cart ∧
        (w.sys.myPageAccessTable p).directPeekBase ≠ none ∧
        (w.sys.myPageAccessTable p).directPokeBase = none) ∧
      Cartridge3F.bankQuery w.cart = 0 ∧
      (∀ p, 64 ≤ p → p < 96 →
        (w.sys.myPageAccessTable p).directPeekBase = some ⟨Block.image, 64 * (p - 64)⟩) :=
  C28_install_owns_window demoWorld rfl (by decide)

/-- C29: for an installed, unlocked 3F cartridge (ROM size a positive multiple
of 2048) in any state reached by cartridge calls, `reset()` returns, after it
`bank()` is 0, and for every address `a` in `$1000..$17FF` `System.peek(a)`
returns `image[a & 0x07FF]`. -/
theorem C29_reset_maps_bank_zero (E : External) (w0 : World) (ops : List Op) (a : Nat)
    (hrom : RomOk w0.cart) (hpos : 0 < w0.cart.mySize) (hmul : w0.cart.mySize % 2048 = 0)
    (hl : w0.cart.bankLocked = false) (hk : ∀ op ∈ ops, op.keepsLock = true)
    (ha1 : 0x1000 ≤ a) (ha2 : a ≤ 0x17FF) :
    ∃ w w1, installThen w0 ops = some w ∧ Cartridge3F.reset w = some w1 ∧
      Cartridge3F.bankQuery w1.cart = 0 ∧
      w1.cart.myImage = w.cart.myImage ∧
      (a &&& 0x07FF) < w.cart.myImage.length ∧
      (System.peek E w1 a).map Prod.fst = w.cart.myImage[a &&& 0x07FF]? := by
  obtain ⟨w, h1, hg⟩ := installThen_good w0 ops hrom hpos hmul hl hk
  obtain ⟨w1, hbk, hg1, hcur, himg, _⟩ := bank_good _ w 0 hg.base hg.unlocked
  have hsel : w1.cart.myCurrentBank = 0 := by
    rw [hcur]
    exact chosenBank_eq_self _ 0 (by decide) (by omega)
  have hpk := sys_peek_low E _ w1 a hg1 (by omega) (by omega)
  simp only [hsel, himg, Nat.zero_mul, Nat.zero_add] at hpk
  rw [and_07FF]
  exact ⟨w, w1, h1, hbk, hsel, himg, hpk.1, hpk.2⟩

/-- C29 at a concrete machine: a 4K cartridge switched to bank 1, then reset,
read at `$1234`. -/
theorem C29_reset_maps_bank_zero_witness :
    ∃ w w1, installThen demoWorld [Op.bank 1] = some w ∧ Cartridge3F.reset w = some w1 ∧
      Cartridge3F.bankQuery w1.cart = 0 ∧
      w1.cart.myImage = w.cart.myImage ∧
      (0x1234 &&& 0x07FF) < w.cart.myImage.length ∧
      (System.peek demoExternal w1 0x1234).map Prod.fst =
        w.cart.myImage[0x1234 &&& 0x07FF]? :=
  C29_reset_maps_bank_zero demoExternal demoWorld [Op.bank 1] 0x1234 demo_romOk (by decide)
    (by decide) rfl (by decide) (by decide) (by decide)

/-- C33, as the code has it: on an installed 4K cartridge (bank 0 holds the
byte 10, bank 1 the byte 11), `lockBank()` followed by a successful `load` of
a state saved with bank 1 current stores 1 in `myCurrentBank` but leaves the
pages of `$1000..$17FF` on bank 0, because `bank()` returns at once when
bankswitching is locked.  At `$1000` the bus then reads 10 through the
direct-peek pointer while `Cartridge3F::peek` returns 11. -/
theorem C33_locked_load_splits_paths :
    ∃ w, installThen demoWorld
        [Op.lockBank,
         Op.load (Cartridge3F.putString [] Cartridge3F.name ++ Cartridge3F.putInt [] 1)] =
        some w ∧
      Cartridge3F.bankQuery w.cart = 1 ∧
      (System.peek demoExternal w 0x1000).map Prod.fst = some 10 ∧
      (Cartridge3F.peek w 0x1000).map Prod.fst = some 11 := by
  obtain ⟨w, hi, hg, hb0, himg, _⟩ :=
    install_good demoWorld demo_romOk (by decide) (by decide) rfl
  have hgs := getString_name (Cartridge3F.putInt [] 1)
  have hgi := getInt_putInt_int 1 (by decide) (by decide) []
  rw [List.append_nil] at hgi
  have hv : ((1 : Int) % 65536).toNat = 1 := by decide
  refine ⟨{ w with cart := { w.cart with bankLocked := true, myCurrentBank := 1 } }, ?_, rfl,
    ?_, ?_⟩
  · simp only [installThen, hi, Option.some_bind, runOps, Op.run, Cartridge3F.lockBank,
      Cartridge3F.load, hgs, ne_eq, not_true_eq_false, if_false, hgi, hv, Cartridge3F.bank,
      if_true, Option.map_some']
  · have hlow := hg.low 64 (by decide) (by decide)
    rw [hb0] at hlow
    have h0 : (0 : Nat) < w.cart.myImage.length := by
      rw [hg.base.rom.length_eq, hg.base.size_eq]
      decide
    unfold System.peek
    simp only [and_addressMask, shr_pageSize, hlow, Cartridge3F.bankAccess, and_07FF,
      and_pageMask, Ptr.add, World.read]
    have e : (0 * 2048 + 64 * 64 % 2048 + 4096 % 64 : Nat) = 0 := by decide
    simp only [e, himg, demo_byte0, Option.map_some']
  · have e : Cartridge3F.imageIndex
        ({ w with cart := { w.cart with bankLocked := true, myCurrentBank := 1 } } : World).cart
        0x1000 = 2048 := by
      simp only [Cartridge3F.imageIndex, and_0FFF, and_07FF]
      rw [if_pos (by decide)]
    simp only [Cartridge3F.peek, e]
    show Option.map Prod.fst (Option.map _ (w.cart.myImage[2048]?)) = some 11
    rw [himg, demo_byte2048]
    rfl

/-- The part of C33 the code keeps: in every state reached from install by
calls that neither lock nor unlock bankswitching (ROM size a positive multiple
of 2048), for every address `a` in `$1000..$1FFF` the byte `System.peek(a)`
reads through the direct-peek pointer is the byte `Cartridge3F::peek(a)`
returns. -/
theorem fast_path_eq_slow_path_unlocked (E : External) (w0 : World) (ops : List Op)
    (a : Nat) (hrom : RomOk w0.cart) (hpos : 0 < w0.cart.mySize)
    (hmul : w0.cart.mySize % 2048 = 0) (hl : w0.cart.bankLocked = false)
    (hk : ∀ op ∈ ops, op.keepsLock = true) (ha1 : 0x1000 ≤ a) (ha2 : a ≤ 0x1FFF) :
    ∃ w b, installThen w0 ops = some w ∧
      (System.peek E w a).map Prod.fst = some b ∧
      (Cartridge3F.peek w a).map Prod.fst = some b := by
  obtain ⟨w, h1, hg⟩ := installThen_good w0 ops hrom hpos hmul hl hk
  have hlt := imageIndex_lt _ w a hg
  have hsz := hg.base.size_eq
  have h32 := hg.base.rom.size_lt
  have hs2 : 2048 ≤ w.cart.mySize := by omega
  have hidx := imageIndex_eq w.cart a h32 hs2
  refine ⟨w, w.cart.myImage[Cartridge3F.imageIndex w.cart a], h1, ?_, ?_⟩
  · by_cases hseg : a % 4096 < 2048
    · have hpk := (sys_peek_low E _ w a hg (by omega) (by omega)).2
      have e : w.cart.myCurrentBank * 2048 + a % 2048 = Cartridge3F.imageIndex w.cart a := by
        rw [hidx, if_pos hseg]; omega
      rw [hpk, e]
      exact List.getElem?_eq_getElem hlt
    · have hpk := (sys_peek_high E w a hg.base.fixed.high hg.base.rom.length_eq h32 hs2
        (by omega)).2
      have e : w.cart.mySize - 2048 + a % 2048 = Cartridge3F.imageIndex w.cart a := by
        rw [hidx, if_neg hseg]; omega
      rw [hpk, e]
      exact List.getElem?_eq_getElem hlt
  · simp only [Cartridge3F.peek, List.getElem?_eq_getElem hlt, Option.map_some']

/-- C34: ROM indexing is in bounds.  For a 3F cartridge whose size is a
positive multiple of 2048 (and a `uint32_t`) and whose current bank is below
`size / 2048`, for every address `a` the image index used by `peek(a)` and
`patch(a, v)` is `(a & 0x07FF) + current_bank * 2048` when
`(a & 0x0FFF) < 0x0800` and `(a & 0x07FF) + size - 2048` otherwise, and it is
below `size`.  Every direct-peek base that `bank(b)` installs (pages 64..95,
when bankswitching is unlocked) and every one that `install()` installs for
the second segment (pages 96..127) points into the image and leaves a full
64-byte page inside it. -/
theorem C34_rom_index_in_bounds (w : World) (a b : Nat) (hrom : RomOk w.cart)
    (hpos : 0 < w.cart.mySize) (hmul : w.cart.mySize % 2048 = 0)
    (hb : w.cart.myCurrentBank < w.cart.mySize / 2048) :
    Cartridge3F.imageIndex w.cart a =
      (if (a &&& 0x0FFF) < 0x0800 then (a &&& 0x07FF) + w.cart.myCurrentBank * 2048
       else (a &&& 0x07FF) + w.cart.mySize - 2048) ∧
    Cartridge3F.imageIndex w.cart a < w.cart.mySize ∧
    (w.cart.bankLocked = false →
      ∃ w1, Cartridge3F.bank w b = some w1 ∧ w1.cart.mySize = w.cart.mySize ∧
        ∀ p, 64 ≤ p → p < 96 →
          ∃ off, (w1.sys.myPageAccessTable p).directPeekBase = some ⟨Block.image, off⟩ ∧
            off + 64 ≤ w.cart.mySize) ∧
    ∃ w2, Cartridge3F.install w = some w2 ∧ w2.cart.mySize = w.cart.mySize ∧
      ∀ p, 96 ≤ p → p < 128 →
        ∃ off, (w2.sys.myPageAccessTable p).directPeekBase = some ⟨Block.image, off⟩ ∧
          off + 64 ≤ w.cart.mySize := by
  have h32 := hrom.size_lt
  have hs : 2048 ≤ w.cart.mySize := by omega
  have hidx := imageIndex_eq w.cart a h32 hs
  refine ⟨?_, ?_, ?_, ?_⟩
  · rw [hidx, and_0FFF, and_07FF]
  · rw [hidx]
    split <;> omega
  · intro hl
    refine ⟨_, bank_unlocked w b hl hs, rfl, ?_⟩
    intro p h1 h2
    have hy : 64 ≤ p ∧ p < 96 := ⟨h1, h2⟩
    have hc := chosenBank_lt w.cart.mySize b hs
    refine ⟨chosenBank w.cart.mySize b * 2048 + 64 * p % 2048, ?_, by omega⟩
    simp [remapLow, hy, Cartridge3F.bankAccess, and_07FF]
  · have hfix : ∀ p, 96 ≤ p → p < 128 →
        ∃ off, (Cartridge3F.fixedAccess w.cart.mySize (64 * p)).directPeekBase =
            some ⟨Block.image, off⟩ ∧ off + 64 ≤ w.cart.mySize := by
      intro p h1 h2
      refine ⟨w.cart.mySize - 2048 + 64 * p % 2048, ?_, by omega⟩
      simp only [Cartridge3F.fixedAccess, and_07FF, u32]
      have e : ((w.cart.mySize + 4294967296 - 2048) % 4294967296 + 64 * p % 2048) %
          4294967296 = w.cart.mySize - 2048 + 64 * p % 2048 := by omega
      rw [e]
    rw [install_eq]
    by_cases hl : w.cart.bankLocked = false
    · refine ⟨_, bank_unlocked _ 0 hl hs, rfl, ?_⟩
      intro p h1 h2
      have hn : ¬ (64 ≤ p ∧ p < 96) := by omega
      have hy : 96 ≤ p ∧ p < 128 := ⟨h1, h2⟩
      simpa [remapLow, installPages, hn, hy] using hfix p h1 h2
    · have hl2 : w.cart.bankLocked = true := by simpa using hl
      refine ⟨_, bank_locked _ 0 hl2, rfl, ?_⟩
      intro p h1 h2
      have hy : 96 ≤ p ∧ p < 128 := ⟨h1, h2⟩
      simpa [installPages, hy] using hfix p h1 h2

/-- C34 at a concrete machine: the 4K cartridge `demoCart`, address `$1234`,
bank request 1. -/
theorem C34_rom_index_in_bounds_witness :
    Cartridge3F.imageIndex demoWorld.cart 0x1234 =
      (if (0x1234 &&& 0x0FFF) < 0x0800 then
        (0x1234 &&& 0x07FF) + demoWorld.cart.myCurrentBank * 2048
       else (0x1234 &&& 0x07FF) + demoWorld.cart.mySize - 2048) ∧
    Cartridge3F.imageIndex demoWorld.cart 0x1234 < demoWorld.cart.mySize ∧
    (demoWorld.cart.bankLocked = false →
      ∃ w1, Cartridge3F.bank demoWorld 1 = some w1 ∧
        w1.cart.mySize = demoWorld.cart.mySize ∧
        ∀ p, 64 ≤ p → p < 96 →
          ∃ off, (w1.sys.myPageAccessTable p).directPeekBase = some ⟨Block.image, off⟩ ∧
            off + 64 ≤ demoWorld.cart.mySize) ∧
    ∃ w2, Cartridge3F.install demoWorld = some w2 ∧
      w2.cart.mySize = demoWorld.cart.mySize ∧
      ∀ p, 96 ≤ p → p < 128 →
        ∃ off, (w2.sys.myPageAccessTable p).directPeekBase = some ⟨Block.image, off⟩ ∧
          off + 64 ≤ demoWorld.cart.mySize :=
  C34_rom_index_in_bounds demoWorld 0x1234 1 demo_romOk (by decide) (by decide) (by decide)

/-- C32, as stated, fails for `mute(true)` on an object that is muted already:
after `mute(true)`, `set($15, 8, 1193)` and `mute(true)` again on an initialised
sound object, the second `mute(true)` returns at once and the write queue holds
one entry. -/
theorem C32_repeated_mute_keeps_queue :
    ∃ s1, (demoSound.mute true).set 0x15 8 1193 = some s1 ∧
      s1.myIsInitializedFlag = true ∧ s1.myIsMuted = true ∧
      (s1.mute true).myRegWriteQueue.size = 1 := by
  have hok : SoundOk (demoSound.mute true) := by
    rw [demoSound_mute]
    exact ⟨(clear_inv _ (create_inv 2 (by decide) (by decide)).1).1, by decide, by decide,
      by decide, by decide⟩
  obtain ⟨s1, h1, _, _, _, _, _, hsize⟩ := set_spec (demoSound.mute true) 0x15 8 1193 hok
    (by rw [demoSound_mute]; decide) (by rw [demoSound_mute]; decide)
    (by rw [demoSound_mute]; decide)
  obtain ⟨hm, hi⟩ := set_flags _ _ _ _ _ h1
  have hm1 : s1.myIsMuted = true := by rw [hm, demoSound_mute]
  have hi1 : s1.myIsInitializedFlag = true := by rw [hi, demoSound_mute]; rfl
  refine ⟨s1, h1, hi1, hm1, ?_⟩
  have hmute : s1.mute true = s1 := by
    simp only [SoundSDL.mute, hi1, hm1, if_true]
  rw [hmute]
  show s1.myRegWriteQueue.mySize = 1
  rw [hsize, demoSound_mute]
  rfl

/-- C32, amended: on an initialised sound object in any state, `mute(true)`
empties the write queue and sets the muted flag when the object is not muted,
and changes nothing when it is muted already; after `reset()` the write queue
is empty, `last_register_set_cycle` is 0 and the muted flag is false. -/
theorem C32_mute_and_reset (s : SoundSDL) (hi : s.myIsInitializedFlag = true) :
    (s.myIsMuted = false →
      (s.mute true).myRegWriteQueue.size = 0 ∧ entries (s.mute true).myRegWriteQueue = [] ∧
      (s.mute true).myIsMuted = true) ∧
    (s.myIsMuted = true → s.mute true = s) ∧
    s.reset.myRegWriteQueue.size = 0 ∧ entries s.reset.myRegWriteQueue = [] ∧
    s.reset.myLastRegisterSetCycle = 0 ∧ s.reset.myIsMuted = false := by
  refine ⟨?_, ?_, ?_, ?_, ?_, ?_⟩
  · intro hm
    simp [SoundSDL.mute, hi, hm, RegWriteQueue.size, RegWriteQueue.clear, entries]
  · intro hm
    simp only [SoundSDL.mute, hi, hm, if_true]
  · simp [SoundSDL.reset, hi, RegWriteQueue.size, RegWriteQueue.clear]
  · simp [SoundSDL.reset, hi, RegWriteQueue.clear, entries]
  · simp [SoundSDL.reset, hi]
  · simp [SoundSDL.reset, hi]

/-- C32, amended, at a sound object with one pending write. -/
theorem C32_mute_and_reset_witness :
    (demoPending.myIsMuted = false →
      (demoPending.mute true).myRegWriteQueue.size = 0 ∧
      entries (demoPending.mute true).myRegWriteQueue = [] ∧
      (demoPending.mute true).myIsMuted = true) ∧
    (demoPending.myIsMuted = true → demoPending.mute true = demoPending) ∧
    demoPending.reset.myRegWriteQueue.size = 0 ∧
    entries demoPending.reset.myRegWriteQueue = [] ∧
    demoPending.reset.myLastRegisterSetCycle = 0 ∧ demoPending.reset.myIsMuted = false :=
  C32_mute_and_reset demoPending rfl

/-- C39: cycle rebasing does not change audio timing.  On a sound object whose
queue can take one more entry, for every amount `k` and every cycle `c` with
no `int` overflow in `last_register_set_cycle + k` and in `c -
last_register_set_cycle`: `adjustCycleCounter(k)` followed by
`set(addr, v, c + k)` and `set(addr, v, c)` without the adjustment both
return, they leave the same queue, and the entry they append has the delay
`(c - last_register_set_cycle) / 1193191.66666667`; only the cycle counter
differs, `c + k` against `c`. -/
theorem C39_cycle_rebasing_keeps_delta (s : SoundSDL) (addr value : Nat) (c k : Int)
    (hq : QInv s.myRegWriteQueue)
    (hroom : s.myRegWriteQueue.mySize < s.myRegWriteQueue.myCapacity ∨
      2 * s.myRegWriteQueue.myCapacity < 4294967296)
    (hk0 : -2147483648 ≤ s.myLastRegisterSetCycle + k)
    (hk1 : s.myLastRegisterSetCycle + k ≤ 2147483647)
    (hlo : -2147483648 ≤ c - s.myLastRegisterSetCycle)
    (hhi : c - s.myLastRegisterSetCycle ≤ 2147483647)
    (hfr : s.myDisplayFrameRate ≠ 0) :
    ∃ s1 s2 s3, s.adjustCycleCounter k = some s1 ∧ s1.set addr value (c + k) = some s2 ∧
      s.set addr value c = some s3 ∧
      s2.myRegWriteQueue = s3.myRegWriteQueue ∧
      entries s2.myRegWriteQueue = entries s.myRegWriteQueue ++
        [⟨addr, value, ((c - s.myLastRegisterSetCycle : Int) : ℚ) / 1193191.66666667⟩] ∧
      s2.myLastRegisterSetCycle = c + k ∧ s3.myLastRegisterSetCycle = c := by
  have hrk : ¬ (s.myLastRegisterSetCycle + k < -2147483648 ∨
      2147483647 < s.myLastRegisterSetCycle + k) := by omega
  have hrange : ¬ (c - s.myLastRegisterSetCycle < -2147483648 ∨
      2147483647 < c - s.myLastRegisterSetCycle) := by omega
  have e : c + k - (s.myLastRegisterSetCycle + k) = c - s.myLastRegisterSetCycle := by ring
  have hone : (s.myDisplayFrameRate : ℚ) / (s.myDisplayFrameRate : ℚ) = 1 :=
    div_self (Nat.cast_ne_zero.mpr hfr)
  obtain ⟨q1, _, e1, _, e3, _⟩ := enqueue_inv s.myRegWriteQueue
    ⟨addr, value, ((c - s.myLastRegisterSetCycle : Int) : ℚ) / SoundSDL.tiaClock⟩ hq hroom
  refine ⟨{ s with myLastRegisterSetCycle := s.myLastRegisterSetCycle + k },
    { s with
      myRegWriteQueue := q1
      myLastRegisterSetCycle := c + k
      sdl := (s.sdl ++ [SdlCall.lockAudio]) ++ [SdlCall.unlockAudio] },
    { s with
      myRegWriteQueue := q1
      myLastRegisterSetCycle := c
      sdl := (s.sdl ++ [SdlCall.lockAudio]) ++ [SdlCall.unlockAudio] },
    ?_, ?_, ?_, rfl, e3, rfl, rfl⟩
  · simp only [SoundSDL.adjustCycleCounter, hrk, if_false]
  · simp only [SoundSDL.set, e, hrange, if_false, hfr, hone, mul_one, e1, Option.map_some']
  · simp only [SoundSDL.set, hrange, if_false, hfr, hone, mul_one, e1, Option.map_some']

/-- C39 at a concrete call: the counter rebased by -1000, then
`set($15, 8, 1193)`, against `set($15, 8, 2193)` without rebasing. -/
theorem C39_cycle_rebasing_keeps_delta_witness :
    ∃ s1 s2 s3, demoSound.adjustCycleCounter (-1000) = some s1 ∧
      s1.set 0x15 8 (2193 + -1000) = some s2 ∧
      demoSound.set 0x15 8 2193 = some s3 ∧
      s2.myRegWriteQueue = s3.myRegWriteQueue ∧
      entries s2.myRegWriteQueue = entries demoSound.myRegWriteQueue ++
        [⟨0x15, 8, (((2193 : Int) - demoSound.myLastRegisterSetCycle : Int) : ℚ) /
          1193191.66666667⟩] ∧
      s2.myLastRegisterSetCycle = 2193 + -1000 ∧ s3.myLastRegisterSetCycle = 2193 :=
  C39_cycle_rebasing_keeps_delta demoSound 0x15 8 2193 (-1000)
    (create_inv 2 (by decide) (by decide)).1 (Or.inl (by decide)) (by decide) (by decide)
    (by decide) (by decide) (by decide)

/-- C35, as stated, fails when the capacity cannot double: constructed with
capacity `2^31` and filled by `2^31` calls of `enqueue`, the queue is full; the
next `enqueue` calls `grow`, whose new capacity `2^31 * 2` is 0 in `uint32_t`
and whose copy loop stores outside the new array, so the call is undefined and
the capacity is not `c0 * 2^k`. -/
theorem C35_capacity_cannot_double :
    ∃ q, runQ (RegWriteQueue.create 2147483648)
        (List.replicate 2147483648 (QOp.enqueue ⟨0x15, 0, 0⟩)) = some q ∧
      q.mySize = q.myCapacity ∧ q.myCapacity = 2147483648 ∧
      u32 (q.myCapacity * 2) = 0 ∧ q.enqueue ⟨0x15, 0, 0⟩ = none := by
  obtain ⟨q, h1, h2, h3, h4⟩ := full_queue_grow ⟨0x15, 0, 0⟩
  refine ⟨q, h1, by rw [h2, h3], h3, by rw [h3]; decide, ?_⟩
  simp only [RegWriteQueue.enqueue, h2, h3, if_true, h4, Option.none_bind]

/-- C35, amended: the ring invariant.  Starting from construction with
capacity `c0`, `1 ≤ c0 < 2^32`, every sequence of `enqueue`, `dequeue` and
`clear` calls with at most `2^31` calls of `enqueue` (`grow` being the step
`enqueue` takes on a full queue) is defined, and after every call
`size <= capacity`, `head < capacity`, `tail < capacity` and
`tail == (head + size) mod capacity`; the capacity changes only when `enqueue`
is called with `size == capacity`, when it exactly doubles, so the capacity is
always `c0 * 2^k`. -/
theorem C35_ring_invariant (c0 : Nat) (ops : List QOp) (op : QOp) (hc1 : 1 ≤ c0)
    (hc2 : c0 < 4294967296) (hn : enqueueCount (ops ++ [op]) ≤ 2147483648) :
    ∃ q q1 k, runQ (RegWriteQueue.create c0) ops = some q ∧ op.run q = some q1 ∧
      runQ (RegWriteQueue.create c0) (ops ++ [op]) = some q1 ∧
      q1.mySize ≤ q1.myCapacity ∧ q1.myHead < q1.myCapacity ∧ q1.myTail < q1.myCapacity ∧
      q1.myTail = (q1.myHead + q1.mySize) % q1.myCapacity ∧
      q1.myCapacity =
        (if op.isEnqueue = true ∧ q.mySize = q.myCapacity then 2 * q.myCapacity
         else q.myCapacity) ∧
      q.myCapacity = c0 * 2 ^ k := by
  rw [enqueueCount_snoc] at hn
  obtain ⟨cinv, cent⟩ := create_inv c0 hc1 hc2
  obtain ⟨q, k, f1, f2, f3, f4⟩ :=
    runQ_refines ops (RegWriteQueue.create c0) 0 cinv (Nat.le_refl _) (by omega)
  have hsz : q.mySize ≤ enqueueCount ops := by
    have := idealFifo_length_le ops (entries (RegWriteQueue.create c0))
    rw [← f3, entries_length, cent] at this
    simpa using this
  have hstep : ∃ q1, op.run q = some q1 ∧ QInv q1 ∧
      q1.myCapacity =
        (if op.isEnqueue = true ∧ q.mySize = q.myCapacity then 2 * q.myCapacity
         else q.myCapacity) := by
    cases op with
    | enqueue x =>
        simp only [QOp.isEnqueue, if_true] at hn
        obtain ⟨q1, e1, e2, e3⟩ := enqueue_cap q x f2 (by omega)
        exact ⟨q1, e1, e2, by simpa [QOp.isEnqueue] using e3⟩
    | dequeue =>
        obtain ⟨q1, e1, e2, _, e4, _⟩ := dequeue_inv q f2
        exact ⟨q1, e1, e2, by simpa [QOp.isEnqueue] using e4⟩
    | clear =>
        obtain ⟨e2, _, e4⟩ := clear_inv q f2
        exact ⟨q.clear, rfl, e2, by simpa [QOp.isEnqueue] using e4⟩
  obtain ⟨q1, g1, g2, g3⟩ := hstep
  refine ⟨q, q1, k, f1, g1, ?_, g2.size_le, g2.head_lt, ?_, g2.tail_eq, g3, f4⟩
  · rw [runQ_append, f1]
    simp only [Option.some_bind, runQ, g1]
  · rw [g2.tail_eq]
    exact Nat.mod_lt _ g2.cap_pos

/-- C35, amended, at a concrete run: capacity 1, two entries enqueued, then a
third on the full queue of capacity 2. -/
theorem C35_ring_invariant_witness :
    ∃ q q1 k, runQ (RegWriteQueue.create 1)
        [QOp.enqueue ⟨0x15, 1, 0⟩, QOp.enqueue ⟨0x16, 2, 0⟩] = some q ∧
      (QOp.enqueue ⟨0x17, 3, 0⟩).run q = some q1 ∧
      runQ (RegWriteQueue.create 1)
        ([QOp.enqueue ⟨0x15, 1, 0⟩, QOp.enqueue ⟨0x16, 2, 0⟩] ++
          [QOp.enqueue ⟨0x17, 3, 0⟩]) = some q1 ∧
      q1.mySize ≤ q1.myCapacity ∧ q1.myHead < q1.myCapacity ∧ q1.myTail < q1.myCapacity ∧
      q1.myTail = (q1.myHead + q1.mySize) % q1.myCapacity ∧
      q1.myCapacity =
        (if (QOp.enqueue ⟨0x17, 3, 0⟩).isEnqueue = true ∧ q.mySize = q.myCapacity then
          2 * q.myCapacity else q.myCapacity) ∧
      q.myCapacity = 1 * 2 ^ k :=
  C35_ring_invariant 1 _ _ (by decide) (by decide) (by decide)

/-- C36: the assertion in `RegWriteQueue::front()` never fails inside
`processFragment`.  On a well-formed queue `front()` fails exactly when the
queue is empty, and a failed call makes either loop undefined.  For every
queue content and every frame rate above 0 (sample rate and channel count
above 0 as well), and every `fragment_log2`: the drain loop, entered with more
pending delay than `fragment_log2 / frame_rate`, is defined, the main loop is
defined for every length, and so is `processFragment`. -/
theorem C36_front_never_fails (s : SoundSDL) (length : Int) (hok : SoundOk s) :
    (∀ q : RegWriteQueue, QInv q → (q.front = none ↔ q.size = 0)) ∧
    (totalDelta (entries s.myRegWriteQueue) >
        s.myFragmentSizeLogBase2 / (s.myDisplayFrameRate : ℚ) →
      ∃ s2, SoundSDL.drainLoop
        ((s.myFragmentSizeLogBase2 - 1) / (s.myDisplayFrameRate : ℚ))
        (s.myRegWriteQueue.size + 1) s 0 = some s2) ∧
    (∃ s3, SoundSDL.fragmentLoop s.myHardwareSpec.freq s.myHardwareSpec.channels
        ((length % 4294967296).toNat / s.myHardwareSpec.channels)
        (s.myRegWriteQueue.size + 1) s 0
        ((toInt32 ((length % 4294967296).toNat / s.myHardwareSpec.channels) : Int) : ℚ) =
        some s3) ∧
    ∃ s1, SoundSDL.processFragment s length = some s1 := by
  refine ⟨front_none_iff, ?_, ?_, processFragment_defined s length hok⟩
  · intro hgt
    obtain ⟨s2, h, _⟩ := drainLoop_defined s hok hgt
    exact ⟨s2, h⟩
  · exact mainLoop_defined s hok _ _ (lengthU_lt _ _)

/-- C36 at the backlog of three writes one second apart and a fragment of 1024
samples. -/
theorem C36_front_never_fails_witness :
    (∀ q : RegWriteQueue, QInv q → (q.front = none ↔ q.size = 0)) ∧
    (totalDelta (entries demoBacklog.myRegWriteQueue) >
        demoBacklog.myFragmentSizeLogBase2 / (demoBacklog.myDisplayFrameRate : ℚ) →
      ∃ s2, SoundSDL.drainLoop
        ((demoBacklog.myFragmentSizeLogBase2 - 1) / (demoBacklog.myDisplayFrameRate : ℚ))
        (demoBacklog.myRegWriteQueue.size + 1) demoBacklog 0 = some s2) ∧
    (∃ s3, SoundSDL.fragmentLoop demoBacklog.myHardwareSpec.freq
        demoBacklog.myHardwareSpec.channels
        (((1024 : Int) % 4294967296).toNat / demoBacklog.myHardwareSpec.channels)
        (demoBacklog.myRegWriteQueue.size + 1) demoBacklog 0
        ((toInt32 (((1024 : Int) % 4294967296).toNat /
          demoBacklog.myHardwareSpec.channels) : Int) : ℚ) = some s3) ∧
    ∃ s1, SoundSDL.processFragment demoBacklog 1024 = some s1 :=
  C36_front_never_fails demoBacklog 1024 demoBacklog_ok

/-- C37: `processFragment` terminates for every queue content and every
length, on a sound object in working order.  The drain loop, entered with more
pending delay than `fragment_log2 / frame_rate`, and the main loop both return
when they are allowed the queue size at entry plus one evaluations of their
loop test, and allowing them more changes nothing: each iteration of the main
loop either ends the loop or dequeues one entry, and the drain loop dequeues
one entry per iteration. -/
theorem C37_process_fragment_terminates (s : SoundSDL) (length : Int) (extra : Nat)
    (hok : SoundOk s) :
    (∃ s1, SoundSDL.processFragment s length = some s1) ∧
    (totalDelta (entries s.myRegWriteQueue) >
        s.myFragmentSizeLogBase2 / (s.myDisplayFrameRate : ℚ) →
      ∃ s2, SoundSDL.drainLoop
          ((s.myFragmentSizeLogBase2 - 1) / (s.myDisplayFrameRate : ℚ))
          (s.myRegWriteQueue.size + 1) s 0 = some s2 ∧
        SoundSDL.drainLoop
          ((s.myFragmentSizeLogBase2 - 1) / (s.myDisplayFrameRate : ℚ))
          (s.myRegWriteQueue.size + 1 + extra) s 0 = some s2 ∧
        s2.myRegWriteQueue.size ≤ s.myRegWriteQueue.size) ∧
    ∃ s3, SoundSDL.fragmentLoop s.myHardwareSpec.freq s.myHardwareSpec.channels
        ((length % 4294967296).toNat / s.myHardwareSpec.channels)
        (s.myRegWriteQueue.size + 1) s 0
        ((toInt32 ((length % 4294967296).toNat / s.myHardwareSpec.channels) : Int) : ℚ) =
        some s3 ∧
      SoundSDL.fragmentLoop s.myHardwareSpec.freq s.myHardwareSpec.channels
        ((length % 4294967296).toNat / s.myHardwareSpec.channels)
        (s.myRegWriteQueue.size + 1 + extra) s 0
        ((toInt32 ((length % 4294967296).toNat / s.myHardwareSpec.channels) : Int) : ℚ) =
        some s3 := by
  refine ⟨processFragment_defined s length hok, ?_, ?_⟩
  · intro hgt
    obtain ⟨s2, h, _, hsz⟩ := drainLoop_defined s hok hgt
    exact ⟨s2, h, drainLoop_fuel _ _ extra _ _ _ h, hsz⟩
  · obtain ⟨s3, h⟩ := mainLoop_defined s hok s.myHardwareSpec.channels
      ((length % 4294967296).toNat / s.myHardwareSpec.channels) (lengthU_lt _ _)
    exact ⟨s3, h, fragmentLoop_fuel _ _ _ _ extra _ _ _ _ h⟩

/-- C37 at the backlog of three writes, a length of -2 and 100 more
evaluations allowed. -/
theorem C37_process_fragment_terminates_witness :
    (∃ s1, SoundSDL.processFragment demoBacklog (-2) = some s1) ∧
    (totalDelta (entries demoBacklog.myRegWriteQueue) >
        demoBacklog.myFragmentSizeLogBase2 / (demoBacklog.myDisplayFrameRate : ℚ) →
      ∃ s2, SoundSDL.drainLoop
          ((demoBacklog.myFragmentSizeLogBase2 - 1) / (demoBacklog.myDisplayFrameRate : ℚ))
          (demoBacklog.myRegWriteQueue.size + 1) demoBacklog 0 = some s2 ∧
        SoundSDL.drainLoop
          ((demoBacklog.myFragmentSizeLogBase2 - 1) / (demoBacklog.myDisplayFrameRate : ℚ))
          (demoBacklog.myRegWriteQueue.size + 1 + 100) demoBacklog 0 = some s2 ∧
        s2.myRegWriteQueue.size ≤ demoBacklog.myRegWriteQueue.size) ∧
    ∃ s3, SoundSDL.fragmentLoop demoBacklog.myHardwareSpec.freq
        demoBacklog.myHardwareSpec.channels
        (((-2 : Int) % 4294967296).toNat / demoBacklog.myHardwareSpec.channels)
        (demoBacklog.myRegWriteQueue.size + 1) demoBacklog 0
        ((toInt32 (((-2 : Int) % 4294967296).toNat /
          demoBacklog.myHardwareSpec.channels) : Int) : ℚ) = some s3 ∧
      SoundSDL.fragmentLoop demoBacklog.myHardwareSpec.freq
        demoBacklog.myHardwareSpec.channels
        (((-2 : Int) % 4294967296).toNat / demoBacklog.myHardwareSpec.channels)
        (demoBacklog.myRegWriteQueue.size + 1 + 100) demoBacklog 0
        ((toInt32 (((-2 : Int) % 4294967296).toNat /
          demoBacklog.myHardwareSpec.channels) : Int) : ℚ) = some s3 :=
  C37_process_fragment_terminates demoBacklog (-2) 100 demoBacklog_ok

/-- C38: `processFragment` never writes outside the fragment.  On an
initialised sound object in working order, for every queue content and every
length with `0 <= length < 2^31`, with exact time arithmetic: every `process`
call of the fragment starts at stream offset `floor(position) * channels`, and
`floor(position)` plus the number of samples asked for is at most
`length / channels`.  In particular the expression `length - floor(position)`
of the filling calls never underflows: a wrapped difference would exceed
`length / channels`. -/
theorem C38_process_stays_in_fragment (s : SoundSDL) (length : Int)
    (hi : s.myIsInitializedFlag = true) (hok : SoundOk s)
    (h0 : 0 ≤ length) (h1 : length < 2147483648) :
    ∃ s1 calls, SoundSDL.processFragment s length = some s1 ∧
      s1.myTIASound = s.myTIASound ++ calls ∧
      ∀ c ∈ calls,
        c.within s.myHardwareSpec.channels (length.toNat / s.myHardwareSpec.channels) := by
  obtain ⟨dcalls, q2, calls, rest, rst, s1, p1, _, _, _, _, _, f1, _, _, _, _, _, _, p3, _, _, _,
    _, _, d8⟩ := processFragment_eq s length hi hok h0 h1
  have hlc : length.toNat / s.myHardwareSpec.channels * s.myHardwareSpec.channels <
      4294967296 := by
    have := Nat.div_mul_le_self length.toNat s.myHardwareSpec.channels
    omega
  refine ⟨s1, dcalls ++ calls, p1, p3, ?_⟩
  intro c hc
  rcases List.mem_append.mp hc with h | h
  · obtain ⟨a, v, e⟩ := d8 c h
    rw [e]
    exact True.intro
  · exact fragList_within _ _ _ hok.freq_pos hok.channels_pos hlc _ _ _ (le_refl _)
      (Nat.cast_nonneg _) (zero_add _) _ _ _ f1 c h

/-- C38 at a fragment of 1024 samples with one write pending. -/
theorem C38_process_stays_in_fragment_witness :
    ∃ s1 calls, SoundSDL.processFragment demoPending 1024 = some s1 ∧
      s1.myTIASound = demoPending.myTIASound ++ calls ∧
      ∀ c ∈ calls,
        c.within demoPending.myHardwareSpec.channels
          ((1024 : Int).toNat / demoPending.myHardwareSpec.channels) :=
  C38_process_stays_in_fragment demoPending 1024 rfl demoPending_ok (by decide) (by decide)

end Stella
